import Mathlib

/-!
The config loader of fancontrol-gui.

A shallow embedding of `Loader::open`, `Loader::save`, `Loader::createConfigFile` and the
members set by the constructor (`share/src/loader.cpp`), together with the Qt string
operations they call.

* A `QString` is a list of characters.
* A pointer to a chip is the chip's position in `m_hwmons`; a pointer to a
  PWM fan is the pair (chip position, position in the chip's fan list); a
  pointer to a `Temp` is the identity of the object: its parent chip and
  its channel index.
* Code that can read outside a list (`QList::at`) or call through a null
  pointer returns in `Except Fault`.
* The file system and the privileged helper are a record of answers (`Outside`); the
  helper actions a function executes are listed next to its result.
-/

namespace Fancontrol

/-- A `QString`, as the list of its characters. -/
abbrev QString := List Char

/-- The two ways in which `Loader::open` can leave defined behaviour. -/
inductive Fault where
  /-- A `QList::at(i)` with `i` outside the list. -/
  | indexOutOfRange
  /-- A member call through a null `Hwmon *`. -/
  | nullPointer
  deriving DecidableEq, Repr

deriving instance DecidableEq for Except

namespace QString

/-- The character test `QChar::isSpace`: the ASCII blanks, NEL, the no-break space and
the Unicode separators. -/
def isSpace (c : Char) : Bool :=
  c.toNat == 32 || (9 ≤ c.toNat && c.toNat ≤ 13) || c.toNat == 133 || c.toNat == 160
    || c.toNat == 5760 || (8192 ≤ c.toNat && c.toNat ≤ 8202) || c.toNat == 8232
    || c.toNat == 8233 || c.toNat == 8239 || c.toNat == 8287 || c.toNat == 12288

/-- The test `QString::startsWith(p)`. -/
def startsWith (s p : QString) : Bool := p.isPrefixOf s

/-- The search `QString::indexOf(c)`: the first position of `c`, or `-1`. -/
def indexOf (s : QString) (c : Char) : Int :=
  if List.indexOf c s < s.length then (List.indexOf c s : Int) else -1

/-- The cut `QString::truncate(n)`; a negative position counts as zero. -/
def truncate (s : QString) (n : Int) : QString :=
  if n < 0 then [] else s.take n.toNat

/-- The pieces of `s` between the characters satisfying `p`, empty pieces kept. -/
def splitBy (p : Char → Bool) : QString → List QString
  | [] => [[]]
  | c :: cs =>
    if p c then [] :: splitBy p cs
    else match splitBy p cs with
      | [] => [[c]]
      | w :: ws => (c :: w) :: ws

/-- The split `QString::split(sep)` with the default `KeepEmptyParts`. -/
def split (s : QString) (sep : Char) : List QString := splitBy (fun c => c == sep) s

/-- The normalisation `QString::simplified()`: blanks at both ends go, every inner run of
blanks becomes one space. -/
def simplified (s : QString) : QString :=
  [' '].intercalate ((splitBy isSpace s).filter (fun w => !w.isEmpty))

/-- Worker of `remove`: `skip` characters of a match are still to be dropped. -/
def removeAux (pat : QString) : Nat → QString → QString
  | _, [] => []
  | skip + 1, _ :: cs => removeAux pat skip cs
  | 0, c :: cs =>
    if !pat.isEmpty && pat.isPrefixOf (c :: cs) then removeAux pat (pat.length - 1) cs
    else c :: removeAux pat 0 cs

/-- The deletion `QString::remove(pat)`: every occurrence of `pat`, found left to right. -/
def remove (s pat : QString) : QString := removeAux pat 0 s

/-- The value of an ASCII digit. -/
def digitValue (c : Char) : Option Nat :=
  if 48 ≤ c.toNat ∧ c.toNat ≤ 57 then some (c.toNat - 48) else none

/-- The value read from a run of digits, continuing from `acc`. -/
def parseDigitsFrom : Nat → QString → Option Nat
  | acc, [] => some acc
  | acc, c :: cs =>
    match digitValue c with
    | some d => parseDigitsFrom (acc * 10 + d) cs
    | none => none

/-- The value of a non-empty run of ASCII digits. -/
def parseDigits : QString → Option Nat
  | [] => none
  | c :: cs => parseDigitsFrom 0 (c :: cs)

/-- The text without the blanks at its two ends. -/
def trimmed (s : QString) : QString :=
  ((s.dropWhile isSpace).reverse.dropWhile isSpace).reverse

/-- The signed value of `[+-]?digits`, if the text has that shape. -/
def parseSigned : QString → Option Int
  | '-' :: r => (parseDigits r).map (fun (v : Nat) => -(v : Int))
  | '+' :: r => (parseDigits r).map (fun (v : Nat) => (v : Int))
  | r => (parseDigits r).map (fun (v : Nat) => (v : Int))

/-- The conversion `QString::toInt()`: blanks at the ends are skipped, an optional sign and
decimal digits are read, and the result is 0 when the text has another shape or the value
does not fit a 32-bit `int`. -/
def toInt (s : QString) : Int :=
  match parseSigned (trimmed s) with
  | none => 0
  | some n => if -2147483648 ≤ n ∧ n ≤ 2147483647 then n else 0

/-- The rendering `QString::number(n)` of an `int` in base 10. -/
def number (n : Int) : QString :=
  if n < 0 then '-' :: Nat.toDigits 10 n.natAbs else Nat.toDigits 10 n.toNat

/-- The access `QList::at(i)`, which must stay inside the list. -/
def listAt {α : Type} (l : List α) (i : Nat) : Except Fault α :=
  match l[i]? with
  | some a => .ok a
  | none => .error .indexOutOfRange

/-- The access `QList::value(i, nullptr)`: nothing outside the list. -/
def listValue {α : Type} (l : List α) (i : Int) : Option α :=
  if i < 0 then none else l[i.toNat]?

/-- The step `list.first().remove(pat)` on a non-empty token list. -/
def removeInFirst (pat : QString) : List QString → List QString
  | [] => []
  | t :: ts => remove t pat :: ts

/-- The text after the literal `p`, when `s` starts with `p`. -/
def afterLiteral (p s : QString) : Option QString :=
  if p.isPrefixOf s then some (s.drop p.length) else none

/-- The text before the literal `q`, when `s` ends with `q`. -/
def beforeLiteral (q s : QString) : Option QString :=
  if q.isSuffixOf s then some (s.take (s.length - q.length)) else none

end QString

open QString

/-! ## The data model -/

/-- A `Temp` object as seen through a `Temp *`: its parent chip (`parent()`, a position in
`m_hwmons`) and its channel index (`index()`). -/
structure Temp where
  parent : Nat
  index : Nat
  deriving DecidableEq, Repr

/-- A `PwmFan` object: channel index, the `active` flag, the associated `Temp` (null when
absent) and the six thresholds, each an `int`. -/
structure PwmFan where
  index : Nat
  active : Bool
  temp : Option Temp
  minTemp : Int
  maxTemp : Int
  minStart : Int
  minStop : Int
  minPwm : Int
  maxPwm : Int
  deriving DecidableEq, Repr

/-- A `Hwmon` object: resolved device path, name, the channel indices of its `Temp`
objects and its `PwmFan` objects in `pwmFans()` order. -/
structure Hwmon where
  path : QString
  name : QString
  temps : List Nat
  pwmFans : List PwmFan
  deriving DecidableEq, Repr

/-- The members of `Loader`: `m_hwmons`, `m_interval`, `m_error`, `m_configFile` and
`m_configUrl`. -/
structure Loader where
  hwmons : List Hwmon
  interval : Int
  error : QString
  configFile : QString
  configUrl : QString
  deriving DecidableEq, Repr

/-- The six threshold directives, which `Loader::open` handles by six copies of one block. -/
inductive Threshold where
  | minTemp | maxTemp | minStart | minStop | minPwm | maxPwm
  deriving DecidableEq, Repr

/-- The key with which a threshold line starts. -/
def Threshold.key : Threshold → QString
  | .minTemp => "MINTEMP=".toList
  | .maxTemp => "MAXTEMP=".toList
  | .minStart => "MINSTART=".toList
  | .minStop => "MINSTOP=".toList
  | .minPwm => "MINPWM=".toList
  | .maxPwm => "MAXPWM=".toList

/-- The getter of the field a threshold directive stands for. -/
def PwmFan.get (d : Threshold) (f : PwmFan) : Int :=
  match d with
  | .minTemp => f.minTemp
  | .maxTemp => f.maxTemp
  | .minStart => f.minStart
  | .minStop => f.minStop
  | .minPwm => f.minPwm
  | .maxPwm => f.maxPwm

/-- Modelled from the spec: the setters `PwmFan::setMinTemp` ... `PwmFan::setMaxPwm`
(sensors.cpp is absent); each "sets the corresponding numeric field". -/
def PwmFan.set (d : Threshold) (v : Int) (f : PwmFan) : PwmFan :=
  match d with
  | .minTemp => { f with minTemp := v }
  | .maxTemp => { f with maxTemp := v }
  | .minStart => { f with minStart := v }
  | .minStop => { f with minStop := v }
  | .minPwm => { f with minPwm := v }
  | .maxPwm => { f with maxPwm := v }

/-- Modelled from the spec: `PwmFan::setTemp` (sensors.cpp is absent); sets or clears the
association, and `hasTemp` holds iff it is set. -/
def PwmFan.setTemp (t : Option Temp) (f : PwmFan) : PwmFan := { f with temp := t }

/-- Modelled from the spec: `PwmFan::hasTemp` (sensors.cpp is absent): "`hasTemp` iff set". -/
def PwmFan.hasTemp (f : PwmFan) : Bool := f.temp.isSome

/-- Modelled from the spec: `PwmFan::reset` (sensors.cpp is absent); it resets the fan's
"temperature association to absent". -/
def PwmFan.reset (f : PwmFan) : PwmFan := { f with temp := none }

/-- Modelled from the spec: `Loader::setInterval` (loader.h is absent); "sets the global
interval". -/
def Loader.setInterval (l : Loader) (v : Int) : Loader := { l with interval := v }

/-! ## The identifier scheme -/

/-- Modelled from the spec: `Loader::getHwmonNumber` (loader.h is absent). The chip index
`N` of an identifier `hwmon<N>[/pwm<M>|/temp<K>_input]`; `-1` for a text that does not start
with `hwmon<N>`. -/
def getHwmonNumber (str : QString) : Int :=
  match (split str '/').head? with
  | some h =>
    match (afterLiteral "hwmon".toList h).bind parseDigits with
    | some n => (n : Int)
    | none => -1
  | none => -1

/-- Modelled from the spec: `Loader::getSensorNumber` (loader.h is absent). The channel
index `M` or `K` of an identifier `hwmon<N>/pwm<M>` or `hwmon<N>/temp<K>_input`; `-1` for a
text of another shape. -/
def getSensorNumber (str : QString) : Int :=
  match (split str '/')[1]? with
  | some t =>
    match (afterLiteral "pwm".toList t).bind parseDigits with
    | some m => (m : Int)
    | none =>
      match ((afterLiteral "temp".toList t).bind (beforeLiteral "_input".toList)).bind
          parseDigits with
      | some k => (k : Int)
      | none => -1
  | none => -1

/-- The position of the first fan with channel index `i`. -/
def findFan (i : Int) : List PwmFan → Option Nat
  | [] => none
  | f :: fs => if (f.index : Int) = i then some 0 else (findFan i fs).map (· + 1)

/-- Modelled from the spec: `Hwmon::pwmFan(i)` (hwmon.cpp is absent): the pointer to the
chip's fan with channel index `i`, null when there is none ("channel indices used for
lookup must match those used for emission"). -/
def Hwmon.pwmFan (h : Hwmon) (i : Int) : Option Nat := findFan i h.pwmFans

/-- Modelled from the spec: `Hwmon::temp(i)` (hwmon.cpp is absent): the pointer to the
`Temp` with channel index `i` of the chip at position `pos`, null when there is none. -/
def Hwmon.temp (pos : Nat) (h : Hwmon) (i : Int) : Option Temp :=
  if 0 ≤ i ∧ i.toNat ∈ h.temps then some ⟨pos, i.toNat⟩ else none

/-- The fan behind the pointer `(c, j)`. -/
def fanAt (hs : List Hwmon) (c j : Nat) : Option PwmFan :=
  hs[c]?.bind (fun h => h.pwmFans[j]?)

/-- A call `pwmPointer->g(...)` of a setter `g` through the fan pointer `(c, j)`. -/
def modifyFan (g : PwmFan → PwmFan) (c j : Nat) (hs : List Hwmon) : List Hwmon :=
  hs.modify (fun h => { h with pwmFans := h.pwmFans.modify g j }) c

/-- The same call on the loader. -/
def Loader.modifyFan (l : Loader) (g : PwmFan → PwmFan) (c j : Nat) : Loader :=
  { l with hwmons := Fancontrol.modifyFan g c j l.hwmons }

/-! ## `Loader::open` -/

/-- One round of the `foreach (QString fctemp, fctemps)` loop (lines 149-174). -/
def fctempsToken (l : Loader) (fctemp : QString) : Except Fault Loader := do
  let pwm ← listAt (split fctemp '=') 0
  let temp ← listAt (split fctemp '=') 1
  let pwmSensorIndex := getSensorNumber pwm
  let tempSensorIndex := getSensorNumber temp
  match listValue l.hwmons (getHwmonNumber pwm) with
  | none => pure l
  | some pwmHwmon =>
    let pwmPointer := pwmHwmon.pwmFan pwmSensorIndex
    match listValue l.hwmons (getHwmonNumber temp) with
    | some tempHwmon =>
      let tempPointer := tempHwmon.temp (getHwmonNumber temp).toNat tempSensorIndex
      match pwmPointer with
      | some j =>
        pure ((l.modifyFan (PwmFan.setTemp tempPointer) (getHwmonNumber pwm).toNat j).modifyFan
          (PwmFan.set .minPwm 0) (getHwmonNumber pwm).toNat j)
      | none => pure l
    | none =>
      match pwmPointer with
      | some j => pure (l.modifyFan (PwmFan.setTemp none) (getHwmonNumber pwm).toNat j)
      | none => pure l

/-- One round of the token loop of a threshold directive (lines 181-190 and its five
copies); the chip pointer is used without a null check. -/
def thresholdToken (d : Threshold) (l : Loader) (tok : QString) : Except Fault Loader := do
  let pwm ← listAt (split tok '=') 0
  let text ← listAt (split tok '=') 1
  let value := toInt text
  let pwmHwmon := getHwmonNumber pwm
  let pwmSensor := getSensorNumber pwm
  match listValue l.hwmons pwmHwmon with
  | none => throw .nullPointer
  | some h =>
    match h.pwmFan pwmSensor with
    | some j => pure (l.modifyFan (PwmFan.set d value) pwmHwmon.toNat j)
    | none => pure l

/-- The body of a threshold branch: split at spaces, strip the key from the first token,
run the token loop. -/
def thresholdLine (d : Threshold) (l : Loader) (line : QString) : Except Fault Loader :=
  (removeInFirst d.key (split line ' ')).foldlM (thresholdToken d) l

/-- The body of the `FCTEMPS=` branch (lines 146-174). -/
def fctempsLine (l : Loader) (line : QString) : Except Fault Loader :=
  (removeInFirst "FCTEMPS=".toList (split line ' ')).foldlM fctempsToken l

/-- One round of the `foreach (QString line, lines)` loop (lines 138-272). -/
def processLine (l : Loader) (line : QString) : Except Fault Loader :=
  if startsWith line "INTERVAL=".toList then
    pure (l.setInterval (toInt (remove line "INTERVAL=".toList)))
  else if startsWith line "FCTEMPS=".toList then fctempsLine l line
  else if startsWith line "MINTEMP=".toList then thresholdLine .minTemp l line
  else if startsWith line "MAXTEMP=".toList then thresholdLine .maxTemp l line
  else if startsWith line "MINSTART=".toList then thresholdLine .minStart l line
  else if startsWith line "MINSTOP=".toList then thresholdLine .minStop l line
  else if startsWith line "MINPWM=".toList then thresholdLine .minPwm l line
  else if startsWith line "MAXPWM=".toList then thresholdLine .maxPwm l line
  else pure l

/-- The texts returned by `stream.readLine()` until `stream.atEnd()` in the `do ... while`
loop: the pieces between line feeds; a stream that ends with a line feed has no line after
it, and the loop body runs once on an empty stream. -/
def rawLines (text : QString) : List QString :=
  if text ≠ [] ∧ (split text '\n').getLast? = some [] then (split text '\n').dropLast
  else split text '\n'

/-- The body of the `do ... while` loop (lines 129-134): a line starting with `#` is
skipped; a line with a `#` is cut at `offset-1`; the rest is simplified. -/
def cleanLine (line : QString) : Option QString :=
  if startsWith line ['#'] then none
  else
    let offset := indexOf line '#'
    some (simplified (if offset ≠ -1 then truncate line (offset - 1) else line))

/-- The list `lines` built by the `do ... while` loop. -/
def logicalLines (text : QString) : List QString := (rawLines text).filterMap cleanLine

/-- The `foreach` loop over `m_hwmons` that resets every fan (lines 119-125). -/
def resetAll (hs : List Hwmon) : List Hwmon :=
  hs.map (fun h => { h with pwmFans := h.pwmFans.map PwmFan.reset })

/-- What the file system and the privileged helper answer to `Loader::open`. -/
inductive FileAccess where
  /-- The call `file.open` succeeded; the stream holds `content`. -/
  | opened (content : QString)
  /-- The call `file.open` failed, the file exists and the helper returned `content`. -/
  | viaHelper (content : QString)
  /-- The call `file.open` failed, the file exists and the helper failed with `message`. -/
  | helperFailed (message : QString)
  /-- The call `file.open` failed and the file does not exist: the stream has no device. -/
  | absent
  deriving DecidableEq, Repr

/-- The text `stream.readAll()` returns. -/
def FileAccess.content : FileAccess → QString
  | .opened t => t
  | .viaHelper t => t
  | .helperFailed _ => []
  | .absent => []

/-- The part of `Loader::open` after the file is read (lines 112-272): store text and
location, reset the fans, build the lines, run the directive loop. -/
def Loader.parse (l : Loader) (url text : QString) : Except Fault Loader :=
  (logicalLines text).foldlM processLine
    { l with configFile := text, configUrl := url, hwmons := resetAll l.hwmons }

/-- The function `Loader::open` (lines 75-273). -/
def Loader.open (l : Loader) (url : QString) (io : FileAccess) : Except Fault Loader :=
  match io with
  | .opened t => Loader.parse { l with error := "Success".toList } url t
  | .viaHelper t => Loader.parse { l with error := "Success".toList } url t
  | .helperFailed msg => pure { l with error := msg }
  | .absent => Loader.parse l url []

/-! ## `Loader::createConfigFile` -/

/-- The inner `foreach` of lines 313-322 for the fan `fan` of the chip at position `c`:
a fan that is active and has a `Temp` joins `usedFans`, and the parent of its `Temp` joins
`usedHwmons` unless it is already there. -/
def collectFan (c : Nat) (acc : List Nat × List (Nat × PwmFan)) (fan : PwmFan) :
    List Nat × List (Nat × PwmFan) :=
  match fan.temp with
  | some t =>
    if fan.active && fan.hasTemp then
      (if acc.1.contains t.parent then acc.1 else acc.1 ++ [t.parent], acc.2 ++ [(c, fan)])
    else acc
  | none => acc

/-- The outer `foreach` of lines 309-323 for the chip at position `c`. -/
def collectHwmon (acc : List Nat × List (Nat × PwmFan)) (ch : Nat × Hwmon) :
    List Nat × List (Nat × PwmFan) :=
  ch.2.pwmFans.foldl (collectFan ch.1)
    (if ch.2.pwmFans.length > 0 then (acc.1 ++ [ch.1], acc.2) else acc)

/-- The lists `usedHwmons` (chip pointers) and `usedFans` (parent chip and fan) after the
loop of lines 309-323. -/
def collectUsed (hs : List Hwmon) : List Nat × List (Nat × PwmFan) :=
  hs.enum.foldl collectHwmon ([], [])

/-- The effect of `remove(QRegExp("^/sys/"))`: the caret matches at position 0 only. -/
def removeSysStart (s : QString) : QString :=
  if startsWith s "/sys/".toList then s.drop 5 else s

/-- Whether the whole of `s` matches `/hwmon/hwmon\d\s*`: the literal, one digit, blanks.
The digit is taken to be ASCII. -/
def matchesHwmonEnd (s : QString) : Bool :=
  match afterLiteral "/hwmon/hwmon".toList s with
  | some (d :: rest) => (digitValue d).isSome && rest.all isSpace
  | _ => false

/-- The effect of `remove(QRegExp("/hwmon/hwmon\\d\\s*$"))`: the leftmost match reaches the
end of the text and is cut off. -/
def removeHwmonEnd : QString → QString
  | [] => []
  | c :: cs => if matchesHwmonEnd (c :: cs) then [] else c :: removeHwmonEnd cs

/-- The local `sanitizedPath` of lines 330-332. -/
def sanitizedPath (path : QString) : QString := removeHwmonEnd (removeSysStart path)

/-- Modelled from the spec: `Hwmon::index` (hwmon.cpp is absent): the chip's "position in
enumeration order", so the index of the chip behind a pointer is the pointer's position. -/
def hwmonIndex (c : Nat) : Int := (c : Int)

/-- The chip behind a pointer of `usedHwmons`; every pointer of a document whose
associations lead to chips of the registry is in range. -/
def hwmonAt (hs : List Hwmon) (c : Nat) : Hwmon := hs[c]?.getD ⟨[], [], [], []⟩

/-- The token `hwmon<index>=<sanitizedPath> ` of line 333. -/
def devpathToken (hs : List Hwmon) (c : Nat) : QString :=
  "hwmon".toList ++ number (hwmonIndex c) ++ "=".toList ++ sanitizedPath (hwmonAt hs c).path
    ++ " ".toList

/-- The token `hwmon<index>=<name up to the first dot> ` of line 340. -/
def devnameToken (hs : List Hwmon) (c : Nat) : QString :=
  "hwmon".toList ++ number (hwmonIndex c) ++ "=".toList
    ++ (split (hwmonAt hs c).name '.').headD [] ++ " ".toList

/-- The text `hwmon<N>/pwm<M>` with which every per-fan token starts. -/
def fanId (c : Nat) (fan : PwmFan) : QString :=
  "hwmon".toList ++ number (hwmonIndex c) ++ "/".toList ++ "pwm".toList ++ number fan.index

/-- The token of lines 347-350; a fan of `usedFans` has a `Temp`. -/
def fctempsOut (cf : Nat × PwmFan) : QString :=
  match cf.2.temp with
  | some t =>
    fanId cf.1 cf.2 ++ "=".toList ++ "hwmon".toList ++ number (hwmonIndex t.parent)
      ++ "/".toList ++ "temp".toList ++ number t.index ++ "_input ".toList
  | none => []

/-- The token of lines 357-360. -/
def fcfansOut (cf : Nat × PwmFan) : QString :=
  fanId cf.1 cf.2 ++ "=".toList ++ "hwmon".toList ++ number (hwmonIndex cf.1)
    ++ "/".toList ++ "fan".toList ++ number cf.2.index ++ "_input ".toList

/-- The token of a threshold line (lines 367-369 and its five copies). -/
def thresholdOut (d : Threshold) (cf : Nat × PwmFan) : QString :=
  fanId cf.1 cf.2 ++ "=".toList ++ number (cf.2.get d) ++ " ".toList

/-- The eleven lines `Loader::createConfigFile` appends, each without its line feed. -/
def configLines (l : Loader) : List QString :=
  let usedHwmons := (collectUsed l.hwmons).1
  let usedFans := (collectUsed l.hwmons).2
  [ "INTERVAL=".toList ++ number l.interval,
    "DEVPATH=".toList ++ usedHwmons.flatMap (devpathToken l.hwmons),
    "DEVNAME=".toList ++ usedHwmons.flatMap (devnameToken l.hwmons),
    "FCTEMPS=".toList ++ usedFans.flatMap fctempsOut,
    "FCFANS=".toList ++ usedFans.flatMap fcfansOut,
    "MINTEMP=".toList ++ usedFans.flatMap (thresholdOut .minTemp),
    "MAXTEMP=".toList ++ usedFans.flatMap (thresholdOut .maxTemp),
    "MINSTART=".toList ++ usedFans.flatMap (thresholdOut .minStart),
    "MINSTOP=".toList ++ usedFans.flatMap (thresholdOut .minStop),
    "MINPWM=".toList ++ usedFans.flatMap (thresholdOut .minPwm),
    "MAXPWM=".toList ++ usedFans.flatMap (thresholdOut .maxPwm) ]

/-- The text `m_configFile` built by `Loader::createConfigFile` (lines 325-416). -/
def configText (l : Loader) : QString := (configLines l).flatMap (fun ln => ln ++ ['\n'])

/-- The function `Loader::createConfigFile` (lines 305-419). -/
def Loader.createConfigFile (l : Loader) : Loader := { l with configFile := configText l }

/-! ## Notions used to state the properties -/

/-- A fan is used when it is active and has a `Temp`. -/
def PwmFan.used (f : PwmFan) : Bool := f.active && f.temp.isSome

/-- The used fans in chip enumeration order, then fan order within the chip, each with the
position of its chip. -/
def usedFansOf (hs : List Hwmon) : List (Nat × PwmFan) :=
  hs.enum.flatMap (fun ch => (ch.2.pwmFans.filter PwmFan.used).map (fun f => (ch.1, f)))

/-- The identifiers of a produced multi-value line: the text after the key is split at
spaces and every non-empty token gives the text before its first `=`. -/
def lineIds (key line : QString) : List QString :=
  ((split (line.drop key.length) ' ').filter (fun t => !t.isEmpty)).map
    (fun t => (split t '=').headD [])

/-- The keys of the eleven lines of the file, in the order of the file. -/
def layoutKeys : List QString :=
  [ "INTERVAL=".toList, "DEVPATH=".toList, "DEVNAME=".toList, "FCTEMPS=".toList,
    "FCFANS=".toList, "MINTEMP=".toList, "MAXTEMP=".toList, "MINSTART=".toList,
    "MINSTOP=".toList, "MINPWM=".toList, "MAXPWM=".toList ]

/-- The keys of the eight per-fan lines. -/
def perFanKeys : List QString := layoutKeys.drop 3

/-- The eight per-fan lines `Loader::createConfigFile` produces. -/
def perFanLines (l : Loader) : List QString := (configLines l).drop 3

/-- Channel indices identify the fans of a chip: no two fans of a chip share one. -/
def DistinctFans (hs : List Hwmon) : Prop :=
  ∀ h ∈ hs, (h.pwmFans.map (fun f => f.index)).Nodup

/-- A non-empty run of the characters `0` ... `9`. -/
def isDigits (s : QString) : Bool := !s.isEmpty && s.all Char.isDigit

/-- The shape of a decimal integer: an optional sign, then one or more digits. -/
def isDecimalInteger : QString → Bool
  | '-' :: r => isDigits r
  | '+' :: r => isDigits r
  | r => isDigits r

/-- The fan pointer an identifier resolves to: the chip by its index, the fan by its
channel index within the chip. -/
def resolvePwm (hs : List Hwmon) (id : QString) : Option (Nat × Nat) :=
  (listValue hs (getHwmonNumber id)).bind
    (fun h => (h.pwmFan (getSensorNumber id)).map (fun j => ((getHwmonNumber id).toNat, j)))

/-- The `Temp` an identifier resolves to; nothing when the chip or the channel is missing. -/
def resolveTemp (hs : List Hwmon) (id : QString) : Option Temp :=
  (listValue hs (getHwmonNumber id)).bind
    (fun h => h.temp (getHwmonNumber id).toNat (getSensorNumber id))

/-- The channel indices of each chip: what identifiers are resolved against. -/
def channelsOf (hs : List Hwmon) : List (List Nat × List Nat) :=
  hs.map (fun h => (h.temps, h.pwmFans.map (fun f => f.index)))

/-- The `Temp` of the fan behind the pointer `(c, j)`, when there is such a fan. -/
def tempAt (hs : List Hwmon) (c j : Nat) : Option (Option Temp) :=
  (fanAt hs c j).map (fun f => f.temp)

/-- The pairs of a logical line when it is an `FCTEMPS=` line. -/
def fctempsTokens (line : QString) : List QString :=
  if startsWith line "FCTEMPS=".toList then removeInFirst "FCTEMPS=".toList (split line ' ')
  else []

/-- The identifier `hwmon<N>/temp<K>_input` of a `Temp`. -/
def tempId (t : Temp) : QString :=
  "hwmon".toList ++ number (hwmonIndex t.parent) ++ "/".toList ++ "temp".toList
    ++ number t.index ++ "_input".toList

/-- The characters of the per-fan tokens: digits and the letters and signs of
`hwmon<N>/pwm<M>=hwmon<N>/temp<K>_input`, `fan` and `-`. -/
def wordChar (c : Char) : Bool :=
  (digitValue c).isSome || "hwmon/pwm=temp_input-fan".toList.contains c

/-- The `FCTEMPS` token of a used fan, without the space that closes it. -/
def fctempsBody (cf : Nat × PwmFan) : QString :=
  match cf.2.temp with
  | some t => fanId cf.1 cf.2 ++ '=' :: tempId t
  | none => []

/-- The token of a used fan in a threshold line, without the space that closes it. -/
def thresholdBody (d : Threshold) (cf : Nat × PwmFan) : QString :=
  fanId cf.1 cf.2 ++ '=' :: number (cf.2.get d)

/-- The tokens of the `FCTEMPS=` lines of a text, in the order of the text. -/
def fctempsPairs (text : QString) : List QString :=
  (logicalLines text).flatMap fctempsTokens

/-- Whether the PWM side of the pair `tok` names the fan behind the pointer `(c, j)`. -/
def namesFan (hs : List Hwmon) (c j : Nat) (tok : QString) : Bool :=
  resolvePwm hs ((split tok '=').headD []) == some (c, j)

/-- The `Temp` the temp side of the pair `tok` resolves to. -/
def pairTemp (hs : List Hwmon) (tok : QString) : Option Temp :=
  resolveTemp hs ((split tok '=')[1]?.getD [])

/-- What one pair does to the association `acc` of the fan `(c, j)`. -/
def assocStep (hs : List Hwmon) (c j : Nat) (acc : Option Temp) (tok : QString) : Option Temp :=
  if namesFan hs c j tok then pairTemp hs tok else acc

/-- The association the pairs `toks` make for the fan `(c, j)`: that of the last pair
naming the fan, none when no pair names it. -/
def assocAfter (hs : List Hwmon) (c j : Nat) (toks : List QString) : Option Temp :=
  toks.foldl (assocStep hs c j) none

/-- A document whose text can be read back: fans are identified by their channel index
within the chip, the `Temp` of a used fan is a `Temp` of the registry, the interval and the
thresholds of the used fans are 32-bit `int`s, and no chip name or path holds a line feed. -/
structure WellFormed (l : Loader) : Prop where
  distinct : DistinctFans l.hwmons
  temps : ∀ c j f t, fanAt l.hwmons c j = some f → f.used = true → f.temp = some t →
    ∃ h, l.hwmons[t.parent]? = some h ∧ t.index ∈ h.temps
  range : ∀ c j f, fanAt l.hwmons c j = some f → f.used = true →
    ∀ d, -2147483648 ≤ f.get d ∧ f.get d ≤ 2147483647
  interval : -2147483648 ≤ l.interval ∧ l.interval ≤ 2147483647
  clean : ∀ h ∈ l.hwmons, '\n' ∉ h.path ∧ '\n' ∉ h.name

/-- The fan `g` with the `Temp` and the six thresholds of the fan `f`. -/
def PwmFan.restoredFrom (f g : PwmFan) : PwmFan :=
  { g with temp := f.temp, minTemp := f.minTemp, maxTemp := f.maxTemp, minStart := f.minStart,
           minStop := f.minStop, minPwm := f.minPwm, maxPwm := f.maxPwm }

/-! ## The file system and the privileged helper -/

/-- What `Loader::open` and `Loader::save` find outside the program when they run. -/
structure Outside where
  /-- Whether the call `file.open` succeeds. -/
  opens : Bool
  /-- The answer of `file.exists()`. -/
  fileExists : Bool
  /-- The text of the file, which a direct read finds. -/
  content : QString
  /-- The reply of the helper when it is executed: its `content` data when `reply->exec()`
  succeeds, its `errorString()` when it fails. -/
  helper : Except QString QString
  deriving DecidableEq, Repr

/-- An executed helper action: the entries `action`, `filename` and `content` of its
argument map. -/
inductive HelperCall where
  | read (filename : QString)
  | write (filename content : QString)
  deriving DecidableEq, Repr

/-- The branch taken by the `if ... else if ...` of `Loader::open` (lines 83-111). -/
def FileAccess.of (env : Outside) : FileAccess :=
  if env.opens then .opened env.content
  else if env.fileExists then
    match env.helper with
    | .ok t => .viaHelper t
    | .error m => .helperFailed m
  else .absent

/-- The helper actions `Loader::open` executes (lines 89-97): one `read`, in the
`else if (file.exists())` branch only. -/
def openCalls (url : QString) (env : Outside) : List HelperCall :=
  if env.opens then []
  else if env.fileExists then [.read url]
  else []

/-- The function `Loader::open` run against the outside world. -/
def Loader.openIn (l : Loader) (url : QString) (env : Outside) : Except Fault Loader :=
  l.open url (FileAccess.of env)

/-- The effects of `Loader::save`: the document afterwards, the file written directly
(name and text) and the helper actions executed. -/
structure SaveRun where
  loader : Loader
  written : Option (QString × QString)
  calls : List HelperCall
  deriving DecidableEq, Repr

/-- The local `fileName` of `Loader::save` (line 277). -/
def Loader.saveName (l : Loader) (url : QString) : QString :=
  if url.isEmpty then l.configUrl else url

/-- The function `Loader::save` (lines 275-303): a direct write when `file.open` succeeds,
else the helper's `write` action, whose failure message becomes `m_error`. -/
def Loader.save (l : Loader) (url : QString) (env : Outside) : SaveRun :=
  if env.opens then
    { loader := l, written := some (l.saveName url, l.configFile), calls := [] }
  else
    { loader :=
        match env.helper with
        | .ok _ => l
        | .error m => { l with error := m }
      written := none
      calls := [.write (l.saveName url) l.configFile] }

/-- The members set by the constructor `Loader::Loader` (lines 35-38) over the registry
`hs` that `parseHwmons` builds. -/
def Loader.init (hs : List Hwmon) : Loader :=
  { hwmons := hs, interval := 10, error := "Success".toList, configFile := [],
    configUrl := "/etc/fancontrol".toList }

/-- Modelled from the spec: the fans of a registry as enumeration builds them (the `PwmFan`
constructor, sensors.cpp, is absent): no fan has a `Temp` yet ("optional association"). -/
def FreshFans (hs : List Hwmon) : Prop :=
  ∀ h ∈ hs, ∀ f ∈ h.pwmFans, f.temp = none

/-! ## Notions for the chip lines and for inserted lines -/

/-- The text `hwmon<index>` that starts a chip token. -/
def chipId (c : Nat) : QString := "hwmon".toList ++ number (hwmonIndex c)

/-- The tokens of a produced multi-value line: the non-empty pieces between spaces of the
text after the key. -/
def lineTokens (key line : QString) : List QString :=
  (split (line.drop key.length) ' ').filter (fun t => !t.isEmpty)

/-- The `DEVPATH=` line `Loader::createConfigFile` produces. -/
def devpathLine (l : Loader) : QString := (configLines l).getD 1 []

/-- The `DEVNAME=` line `Loader::createConfigFile` produces. -/
def devnameLine (l : Loader) : QString := (configLines l).getD 2 []

/-- The eight keys `Loader::open` dispatches on. -/
def directiveKeys : List QString :=
  [ "INTERVAL=".toList, "FCTEMPS=".toList, "MINTEMP=".toList, "MAXTEMP=".toList,
    "MINSTART=".toList, "MINSTOP=".toList, "MINPWM=".toList, "MAXPWM=".toList ]

/-- A line that, once cleaned by the reading loop, starts with none of the eight keys; a
line the loop skips has no cleaned form and counts too. -/
def Unrecognized (u : QString) : Prop :=
  ∀ x, cleanLine u = some x → ∀ k ∈ directiveKeys, startsWith x k = false

/-- A place of a text where a line starts: the beginning, or right after a line feed. -/
def LineStart (a : QString) : Prop := a = [] ∨ a.getLast? = some '\n'

/-- The text `a ++ b` with the line `u` put in at the place between `a` and `b`. -/
def insertLine (a u b : QString) : QString := a ++ u ++ '\n' :: b

/-- The reading loop and the directive loop of `Loader::open` on the lines `lines` of the
stream, from the document `l`. -/
def runLines (l : Loader) (lines : List QString) : Except Fault Loader :=
  (lines.filterMap cleanLine).foldlM processLine l

/-- The line `FCTEMPS=hwmon<N>/pwm<M>=hwmon<P>/temp<K>_input` that pairs the fan `f` of the
chip at position `c` with the `Temp` `t`. -/
def fctempsPairLine (c : Nat) (f : PwmFan) (t : Temp) : QString :=
  "FCTEMPS=".toList ++ (fanId c f ++ '=' :: tempId t)

/-- The line `<KEY>=hwmon<N>/pwm<M>=<v>` that gives the value `v` to the threshold `d` of
the fan `f` of the chip at position `c`. -/
def thresholdPairLine (d : Threshold) (c : Nat) (f : PwmFan) (v : Int) : QString :=
  d.key ++ (fanId c f ++ '=' :: number v)

/-- What the produced text depends on in a fan: all of a used fan; the channel index and
the `active` flag of a fan that is not used. -/
def PwmFan.written (f : PwmFan) : PwmFan :=
  if f.used then f
  else { index := f.index, active := f.active, temp := none, minTemp := 0, maxTemp := 0,
         minStart := 0, minStop := 0, minPwm := 0, maxPwm := 0 }

/-- What the produced text depends on in the chips. -/
def writtenPart (hs : List Hwmon) : List Hwmon :=
  hs.map (fun h => { h with pwmFans := h.pwmFans.map PwmFan.written })

/-- The digits of a text as numbers, lowest place first. -/
def placeValues (r : QString) : List Nat := r.reverse.map (fun c => c.toNat - 48)

/-- The integer a text of the shape `[+-]?digits` stands for, by the place values of its
digits. This is the reading of a decimal integer that the specification speaks of; it is
compared with `toInt`. -/
def decimalValue : QString → Int
  | '-' :: r => -Int.ofNat (Nat.ofDigits (10 : Nat) (placeValues r))
  | '+' :: r => Int.ofNat (Nat.ofDigits (10 : Nat) (placeValues r))
  | r => Int.ofNat (Nat.ofDigits (10 : Nat) (placeValues r))

/-- Whether an integer fits the 32-bit `int` of the code. -/
def fitsInt (n : Int) : Bool := decide (-2147483648 ≤ n) && decide (n ≤ 2147483647)

/-- A pair `identifier=value` of a per-fan directive line. -/
def pairText (p : QString × QString) : QString := p.1 ++ '=' :: p.2

/-- A line of a config text, by its parts: a per-fan directive line with its pairs, written
with one space between the pairs and, when `trailing` holds, one after the last pair (as
`Loader::createConfigFile` writes them); or any other line. -/
inductive ConfigLine where
  | fctemps (pairs : List (QString × QString)) (trailing : Bool)
  | threshold (d : Threshold) (pairs : List (QString × QString)) (trailing : Bool)
  | other (text : QString)
  deriving DecidableEq, Repr

/-- The text of a directive line: key, pairs, the space at the end if any. -/
def pairsText (key : QString) (pairs : List (QString × QString)) (trailing : Bool) : QString :=
  key ++ [' '].intercalate (pairs.map pairText) ++ (if trailing then [' '] else [])

/-- The text of a line. -/
def ConfigLine.text : ConfigLine → QString
  | .fctemps ps tr => pairsText "FCTEMPS=".toList ps tr
  | .threshold d ps tr => pairsText d.key ps tr
  | .other u => u

/-- The config text with the given lines, each ended by a line feed. -/
def textOf (ls : List ConfigLine) : QString := ls.flatMap (fun ln => ln.text ++ ['\n'])

/-- The characters of the identifiers and the values of a pair: digits, `-` and the letters
and signs of `hwmon<N>/pwm<M>` and `hwmon<N>/temp<K>_input`, without `=`. -/
def partChar (c : Char) : Bool := wordChar c && c != '='

/-- A pair whose two sides are made of such characters. -/
def PairOk (p : QString × QString) : Prop :=
  (∀ c ∈ p.1, partChar c = true) ∧ (∀ c ∈ p.2, partChar c = true)

/-- The seven keys of the per-fan directives `Loader::open` dispatches on. -/
def fanKeys : List QString :=
  [ "FCTEMPS=".toList, "MINTEMP=".toList, "MAXTEMP=".toList, "MINSTART=".toList,
    "MINSTOP=".toList, "MINPWM=".toList, "MAXPWM=".toList ]

/-- A line that, once cleaned by the reading loop, starts with none of the seven per-fan
keys: an `INTERVAL=` line, a line of another directive, a comment, a blank line. -/
def NoFanDirective (u : QString) : Prop :=
  ∀ x, cleanLine u = some x → ∀ k ∈ fanKeys, startsWith x k = false

/-- The lines the general statements are about: a per-fan directive line has at least one
pair, its pairs are made of identifier characters, and the identifier of a threshold pair
names a chip of the registry; any other line holds no line feed and is no per-fan
directive. -/
def ConfigLine.Ok (hs : List Hwmon) : ConfigLine → Prop
  | .fctemps ps _ => ps ≠ [] ∧ ∀ p ∈ ps, PairOk p
  | .threshold _ ps _ =>
    ps ≠ [] ∧ ∀ p ∈ ps, PairOk p ∧ (listValue hs (getHwmonNumber p.1)).isSome = true
  | .other u => '\n' ∉ u ∧ NoFanDirective u

/-- Whether the identifier of the pair resolves to the fan behind the pointer `(c, j)`. -/
def pairNames (hs : List Hwmon) (c j : Nat) (p : QString × QString) : Bool :=
  resolvePwm hs p.1 == some (c, j)

/-- What an `FCTEMPS` pair does to the fan `(c, j)`: a pair naming the fan gives it the
`Temp` its value resolves to and `minPwm` 0 when the chip of the value is in the registry,
and takes its `Temp` away when it is not. -/
def fctempsPairStep (hs : List Hwmon) (c j : Nat) (g : PwmFan) (p : QString × QString) :
    PwmFan :=
  if pairNames hs c j p then
    if (listValue hs (getHwmonNumber p.2)).isSome then
      (g.setTemp (resolveTemp hs p.2)).set .minPwm 0
    else g.setTemp none
  else g

/-- What a threshold pair does to the fan `(c, j)`: a pair naming the fan sets the field of
the directive to the value read from the pair. -/
def thresholdPairStep (hs : List Hwmon) (d : Threshold) (c j : Nat) (g : PwmFan)
    (p : QString × QString) : PwmFan :=
  if pairNames hs c j p then g.set d (toInt p.2) else g

/-- What a line does to the fan `(c, j)`: its pairs act from left to right. -/
def fanStep (hs : List Hwmon) (c j : Nat) (g : PwmFan) : ConfigLine → PwmFan
  | .fctemps ps _ => ps.foldl (fctempsPairStep hs c j) g
  | .threshold d ps _ => ps.foldl (thresholdPairStep hs d c j) g
  | .other _ => g

/-- Whether the line holds a pair that names the fan `(c, j)` in a directive that writes
`minPwm`: an `FCTEMPS` or a `MINPWM` line. -/
def ConfigLine.namesForMinPwm (hs : List Hwmon) (c j : Nat) : ConfigLine → Bool
  | .fctemps ps _ => ps.any (pairNames hs c j)
  | .threshold d ps _ => decide (d = .minPwm) && ps.any (pairNames hs c j)
  | .other _ => false

/-- Whether the line is an `FCTEMPS` line with a pair that names the fan `(c, j)`. -/
def ConfigLine.namesInFctemps (hs : List Hwmon) (c j : Nat) : ConfigLine → Bool
  | .fctemps ps _ => ps.any (pairNames hs c j)
  | _ => false

/-- The cleaning of a line as the specification words it (section 4.2, step 1): a
comment-only line is dropped, a line with an inline `#` is cut at the comment marker, and
the blanks around the rest are trimmed. It is compared with `cleanLine`. -/
def specCleanLine (line : QString) : Option QString :=
  if startsWith line ['#'] then none
  else some (trimmed (line.takeWhile (fun c => c != '#')))

/-- The `FCTEMPS` pairs of a text as the specification words them (section 4.2, steps 1
and 5): the text is split into lines, the lines are cleaned, and of every line with the key
`FCTEMPS=` the text after the key is split at spaces into its pairs `identifier=value`. -/
def specFctempsPairs (text : QString) : List QString :=
  ((split text '\n').filterMap specCleanLine).flatMap (fun line =>
    if startsWith line "FCTEMPS=".toList then
      (split (line.drop "FCTEMPS=".toList.length) ' ').filter (fun t => !t.isEmpty)
    else [])

/-- What a parse results in: the interval and the chips with all fields of their fans. -/
def Loader.fields (l : Loader) : Int × List Hwmon := (l.interval, l.hwmons)

/-- What no directive changes: path, name and `Temp` channels of each chip, and channel
index and `active` flag of each fan. -/
def skeleton (hs : List Hwmon) : List (QString × QString × List Nat × List (Nat × Bool)) :=
  hs.map (fun h => (h.path, h.name, h.temps, h.pwmFans.map (fun f => (f.index, f.active))))

/-! ## Sample documents -/

/-- A fan `pwm1` with no `Temp`. -/
def samplePwm : PwmFan :=
  { index := 1, active := true, temp := none, minTemp := 20, maxTemp := 60, minStart := 150,
    minStop := 100, minPwm := 30, maxPwm := 255 }

/-- A chip with `temp1` and `pwm1`. -/
def sampleChip : Hwmon :=
  { path := "/sys/devices/platform/it87.656/hwmon/hwmon0".toList, name := "it8728.656".toList,
    temps := [1], pwmFans := [samplePwm] }

/-- The document over the registry with `hwmon0` only; its fan is not used. -/
def sampleLoader : Loader :=
  { hwmons := [sampleChip], interval := 10, error := "Success".toList, configFile := [],
    configUrl := "/etc/fancontrol".toList }

/-- The sample document with `pwm1` driven by `temp1`. -/
def sampleUsed : Loader :=
  { sampleLoader with
    hwmons := [{ sampleChip with pwmFans := [{ samplePwm with temp := some ⟨0, 1⟩ }] }] }

/-- The document `sampleUsed` after loading the text `INTERVAL=5`. -/
def sampleReloaded : Loader :=
  { sampleLoader with interval := 5, configFile := "INTERVAL=5\n".toList }

/-- Eleven chips `hwmon0` ... `hwmon10`; only the last owns a PWM channel. -/
def elevenChips : Loader :=
  { sampleLoader with
    hwmons := (List.range 10).map (fun i =>
        { path := "/sys/devices/virtual/hwmon/hwmon".toList ++ number i,
          name := "acpitz".toList, temps := [1], pwmFans := [] })
      ++ [{ sampleChip with path := "/sys/devices/platform/it87.656/hwmon/hwmon10".toList }] }

/-- The example text of the specification. -/
def exampleText : QString :=
  "INTERVAL=5\nFCTEMPS=hwmon0/pwm1=hwmon0/temp1_input\nMAXTEMP=hwmon0/pwm1=70\n".toList

/-- Two chips with `temp1` and `pwm1` each; `pwm1` of the first is driven by `temp1` of the
second. -/
def crossChips : Loader :=
  { sampleLoader with
    hwmons :=
      [ { path := "/sys/devices/x/hwmon/hwmon0".toList, name := "first.0".toList, temps := [1],
          pwmFans := [{ samplePwm with temp := some ⟨1, 1⟩ }] },
        { path := "/sys/devices/y/hwmon/hwmon1".toList, name := "second.1".toList, temps := [1],
          pwmFans := [samplePwm] } ] }

/-- An outside world in which the file cannot be opened and does not exist, and the helper
would fail. -/
def noFile : Outside :=
  { opens := false, fileExists := false, content := [],
    helper := .error "denied".toList }

/-- An outside world in which the file exists, cannot be opened, and the helper fails. -/
def lockedFile : Outside :=
  { opens := false, fileExists := true, content := "INTERVAL=5\n".toList,
    helper := .error "denied".toList }

/-- An outside world in which the file `INTERVAL=5` can be opened directly. -/
def plainFile : Outside :=
  { opens := true, fileExists := true, content := "INTERVAL=5\n".toList,
    helper := .error "denied".toList }

/-- An outside world in which the file exists, cannot be opened, and the helper reads
`INTERVAL=5`. -/
def helpedFile : Outside :=
  { opens := false, fileExists := true, content := "INTERVAL=5\n".toList,
    helper := .ok "INTERVAL=5\n".toList }

/-- The sample document with `pwm1` tied to `temp1` but not active, so not used. -/
def sampleIdle : Loader :=
  { sampleLoader with
    hwmons :=
      [{ sampleChip with pwmFans := [{ samplePwm with active := false, temp := some ⟨0, 1⟩ }] }] }

/-- The lines of a text in the layout `Loader::createConfigFile` writes, for `pwm1` of
`hwmon0` driven by `temp1`, with `MINPWM` 120. -/
def sampleLines : List ConfigLine :=
  [ .other "INTERVAL=10".toList,
    .other "DEVPATH=hwmon0=devices/platform/it87.656 ".toList,
    .other "DEVNAME=hwmon0=it8728 ".toList,
    .fctemps [("hwmon0/pwm1".toList, "hwmon0/temp1_input".toList)] true,
    .other "FCFANS=hwmon0/pwm1=hwmon0/fan1_input ".toList,
    .threshold .minTemp [("hwmon0/pwm1".toList, "20".toList)] true,
    .threshold .maxTemp [("hwmon0/pwm1".toList, "60".toList)] true,
    .threshold .minStart [("hwmon0/pwm1".toList, "150".toList)] true,
    .threshold .minStop [("hwmon0/pwm1".toList, "100".toList)] true,
    .threshold .minPwm [("hwmon0/pwm1".toList, "120".toList)] true,
    .threshold .maxPwm [("hwmon0/pwm1".toList, "255".toList)] true ]

/-- The lines `MINPWM=hwmon0/pwm1=120`, then the `FCTEMPS` line for `pwm1`, then a
`MAXTEMP` line. -/
def swappedLines : List ConfigLine :=
  [ .threshold .minPwm [("hwmon0/pwm1".toList, "120".toList)] false,
    .fctemps [("hwmon0/pwm1".toList, "hwmon0/temp1_input".toList)] false,
    .threshold .maxTemp [("hwmon0/pwm1".toList, "70".toList)] false ]

/-! ## Decimal rendering and reading -/

theorem digitValue_digitChar (d : Nat) (h : d < 10) : digitValue (Nat.digitChar d) = some d := by
  interval_cases d <;> rfl

/-- With fuel above `m`, `Nat.toDigitsCore` writes a non-empty run of digits in front of
`tail`, and the reader gets `m` back from that run. -/
theorem digits_in_front : ∀ (k m : Nat) (tail : List Char), m < k →
    ∃ front : List Char, front ≠ [] ∧ (∀ ch ∈ front, (digitValue ch).isSome) ∧
      Nat.toDigitsCore 10 k m tail = front ++ tail ∧
      ∀ (a : Nat) (rest : QString),
        parseDigitsFrom a (front ++ rest) = parseDigitsFrom (a * 10 ^ front.length + m) rest := by
  intro k
  induction k with
  | zero => intro m tail hlt; omega
  | succ k ih =>
    intro m tail hlt
    have hlast : digitValue (Nat.digitChar (m % 10)) = some (m % 10) :=
      digitValue_digitChar _ (Nat.mod_lt _ (by norm_num))
    by_cases hq : m / 10 = 0
    · refine ⟨[Nat.digitChar (m % 10)], by simp, ?_, ?_, ?_⟩
      · intro ch hch
        rw [List.mem_singleton] at hch
        rw [hch, hlast]
        rfl
      · simp [Nat.toDigitsCore, hq]
      · intro a rest
        have hsmall : m % 10 = m := Nat.mod_eq_of_lt (by omega)
        simp only [List.singleton_append, parseDigitsFrom, hlast, List.length_singleton, pow_one]
        rw [hsmall]
        rfl
    · obtain ⟨front, hne, hdig, hrun, hval⟩ :=
        ih (m / 10) (Nat.digitChar (m % 10) :: tail) (by omega)
      refine ⟨front ++ [Nat.digitChar (m % 10)], by simp, ?_, ?_, ?_⟩
      · intro ch hch
        rcases List.mem_append.1 hch with hch | hch
        · exact hdig ch hch
        · rw [List.mem_singleton] at hch
          rw [hch, hlast]
          rfl
      · simp [Nat.toDigitsCore, hq, hrun]
      · intro a rest
        rw [List.append_assoc, hval]
        simp only [List.singleton_append, parseDigitsFrom, hlast, List.length_append,
          List.length_singleton]
        congr 1
        rw [pow_succ]
        have := Nat.div_add_mod m 10
        nlinarith [this]

theorem toDigits_spec (n : Nat) :
    Nat.toDigits 10 n ≠ [] ∧ (∀ c ∈ Nat.toDigits 10 n, (digitValue c).isSome) ∧
      parseDigits (Nat.toDigits 10 n) = some n := by
  obtain ⟨front, hne, hdig, hrun, hval⟩ := digits_in_front (n + 1) n [] (by omega)
  have hfront : Nat.toDigits 10 n = front := by simpa [Nat.toDigits] using hrun
  rw [hfront]
  refine ⟨hne, hdig, ?_⟩
  cases front with
  | nil => exact absurd rfl hne
  | cons c cs =>
    have := hval 0 []
    simp only [List.append_nil] at this
    rw [parseDigits, this]
    simp [parseDigitsFrom]

theorem toDigits_injective {m n : Nat} (h : Nat.toDigits 10 m = Nat.toDigits 10 n) : m = n := by
  have h1 := (toDigits_spec m).2.2
  rw [h, (toDigits_spec n).2.2] at h1
  exact (Option.some.inj h1).symm

theorem number_natCast (n : Nat) : number (n : Int) = Nat.toDigits 10 n := by
  simp [number]

/-- A character that is neither the sign nor a digit is not in a rendered number. -/
theorem not_mem_number (n : Int) (c : Char) (h1 : c ≠ '-') (h2 : digitValue c = none) :
    c ∉ number n := by
  intro hc
  unfold number at hc
  split at hc
  · rcases List.mem_cons.1 hc with hc | hc
    · exact h1 hc
    · have := (toDigits_spec n.natAbs).2.1 c hc
      simp [h2] at this
  · have := (toDigits_spec n.toNat).2.1 c hc
    simp [h2] at this

/-! ## Splitting -/

theorem splitBy_ne_nil (p : Char → Bool) (s : QString) : splitBy p s ≠ [] := by
  cases s with
  | nil => simp [splitBy]
  | cons c cs =>
    unfold splitBy
    split
    · simp
    · split <;> simp

theorem splitBy_append_sep (p : Char → Bool) (a b : QString) (c : Char) (hc : p c = true)
    (ha : ∀ x ∈ a, p x = false) : splitBy p (a ++ c :: b) = a :: splitBy p b := by
  induction a with
  | nil => simp [splitBy, hc]
  | cons x a ih =>
    have hx : p x = false := ha x (List.mem_cons_self _ _)
    have ih1 := ih (fun y hy => ha y (List.mem_cons_of_mem _ hy))
    simp [splitBy, hx, ih1]

theorem splitBy_no_sep (p : Char → Bool) (a : QString) (ha : ∀ x ∈ a, p x = false) :
    splitBy p a = [a] := by
  induction a with
  | nil => simp [splitBy]
  | cons x a ih =>
    have hx : p x = false := ha x (List.mem_cons_self _ _)
    have ih1 := ih (fun y hy => ha y (List.mem_cons_of_mem _ hy))
    simp [splitBy, hx, ih1]

/-- A text made of tokens, each followed by the separator, splits into the tokens and one
empty piece. -/
theorem splitBy_tokens {α : Type} (p : Char → Bool) (sep : Char) (hsep : p sep = true)
    (body : α → QString) (xs : List α) (h : ∀ x ∈ xs, ∀ c ∈ body x, p c = false) :
    splitBy p (xs.flatMap (fun x => body x ++ [sep])) = xs.map body ++ [[]] := by
  induction xs with
  | nil => simp [splitBy]
  | cons x xs ih =>
    have ih1 := ih (fun y hy => h y (List.mem_cons_of_mem _ hy))
    simp only [List.flatMap_cons, List.append_assoc, List.singleton_append, List.map_cons,
      List.cons_append]
    rw [splitBy_append_sep p _ _ sep hsep (h x (List.mem_cons_self _ _)), List.nil_append, ih1]

theorem mem_of_mem_splitBy (p : Char → Bool) (s : QString) :
    ∀ w ∈ splitBy p s, ∀ c ∈ w, c ∈ s := by
  induction s with
  | nil => intro w hw c hc; simp [splitBy] at hw; subst hw; exact hc
  | cons x s ih =>
    intro w hw c hc
    unfold splitBy at hw
    split at hw
    · rcases List.mem_cons.1 hw with hw | hw
      · subst hw; simp at hc
      · exact List.mem_cons_of_mem _ (ih w hw c hc)
    · split at hw
      · exact absurd ‹_› (splitBy_ne_nil p s)
      · rename_i w0 ws heq
        rcases List.mem_cons.1 hw with hw | hw
        · subst hw
          rcases List.mem_cons.1 hc with hc | hc
          · subst hc; exact List.mem_cons_self _ _
          · exact List.mem_cons_of_mem _ (ih w0 (heq ▸ List.mem_cons_self _ _) c hc)
        · exact List.mem_cons_of_mem _ (ih w (heq ▸ List.mem_cons_of_mem _ hw) c hc)

/-! ## The used fans -/

theorem collectFan_snd (c : Nat) (acc : List Nat × List (Nat × PwmFan)) (fan : PwmFan) :
    (collectFan c acc fan).2 = acc.2 ++ if fan.used then [(c, fan)] else [] := by
  unfold collectFan PwmFan.used PwmFan.hasTemp
  cases ht : fan.temp <;> cases ha : fan.active <;> simp

theorem foldl_collectFan_snd (c : Nat) (fans : List PwmFan) :
    ∀ acc : List Nat × List (Nat × PwmFan),
      (fans.foldl (collectFan c) acc).2
        = acc.2 ++ (fans.filter PwmFan.used).map (fun f => (c, f)) := by
  induction fans with
  | nil => intro acc; simp
  | cons f fs ih =>
    intro acc
    rw [List.foldl_cons, ih, collectFan_snd]
    cases hu : f.used <;> simp [List.filter_cons, hu]

theorem foldl_collectHwmon_snd (chs : List (Nat × Hwmon)) :
    ∀ acc : List Nat × List (Nat × PwmFan),
      (chs.foldl collectHwmon acc).2
        = acc.2 ++ chs.flatMap
            (fun ch => (ch.2.pwmFans.filter PwmFan.used).map (fun f => (ch.1, f))) := by
  induction chs with
  | nil => intro acc; simp
  | cons ch chs ih =>
    intro acc
    rw [List.foldl_cons, ih]
    unfold collectHwmon
    rw [foldl_collectFan_snd]
    split <;> simp

/-- The list `usedFans` holds the used fans in chip order, then fan order. -/
theorem collectUsed_snd (hs : List Hwmon) : (collectUsed hs).2 = usedFansOf hs := by
  unfold collectUsed usedFansOf
  rw [foldl_collectHwmon_snd]
  simp

theorem used_of_mem_usedFansOf (hs : List Hwmon) (cf : Nat × PwmFan)
    (h : cf ∈ usedFansOf hs) : cf.2.used = true := by
  unfold usedFansOf at h
  simp only [List.mem_flatMap, List.mem_map, List.mem_filter] at h
  obtain ⟨ch, _, f, ⟨_, hu⟩, rfl⟩ := h
  exact hu

/-! ## The identifiers of the per-fan lines -/

theorem space_not_mem_fanId (c : Nat) (fan : PwmFan) : ' ' ∉ fanId c fan := by
  have h1 := not_mem_number (hwmonIndex c) ' ' (by decide) (by decide)
  have h2 := not_mem_number (fan.index : Int) ' ' (by decide) (by decide)
  simp only [fanId, List.mem_append, not_or]
  exact ⟨⟨⟨⟨by decide, h1⟩, by decide⟩, by decide⟩, h2⟩

theorem eq_not_mem_fanId (c : Nat) (fan : PwmFan) : '=' ∉ fanId c fan := by
  have h1 := not_mem_number (hwmonIndex c) '=' (by decide) (by decide)
  have h2 := not_mem_number (fan.index : Int) '=' (by decide) (by decide)
  simp only [fanId, List.mem_append, not_or]
  exact ⟨⟨⟨⟨by decide, h1⟩, by decide⟩, by decide⟩, h2⟩

theorem flatMap_congr_mem {α β : Type} (xs : List α) (f g : α → List β)
    (h : ∀ x ∈ xs, f x = g x) : xs.flatMap f = xs.flatMap g := by
  induction xs with
  | nil => rfl
  | cons x xs ih =>
    simp only [List.flatMap_cons]
    rw [h x (List.mem_cons_self _ _), ih (fun y hy => h y (List.mem_cons_of_mem _ hy))]

/-- The identifiers of a line of tokens `<fanId>=<rest> `. -/
theorem lineIds_tokens (key : QString) (xs : List (Nat × PwmFan))
    (rest : Nat × PwmFan → QString) (hrest : ∀ x ∈ xs, ' ' ∉ rest x) :
    lineIds key (key ++ xs.flatMap (fun cf => (fanId cf.1 cf.2 ++ '=' :: rest cf) ++ [' ']))
      = xs.map (fun cf => fanId cf.1 cf.2) := by
  unfold lineIds
  rw [List.drop_left]
  unfold split
  rw [splitBy_tokens (fun c => c == ' ') ' ' (by decide)
    (fun cf : Nat × PwmFan => fanId cf.1 cf.2 ++ '=' :: rest cf) xs]
  · rw [List.filter_append, List.map_append]
    have hf : (xs.map (fun cf : Nat × PwmFan => fanId cf.1 cf.2 ++ '=' :: rest cf)).filter
        (fun t => !t.isEmpty)
        = xs.map (fun cf : Nat × PwmFan => fanId cf.1 cf.2 ++ '=' :: rest cf) := by
      rw [List.filter_eq_self]
      intro t ht
      obtain ⟨cf, _, rfl⟩ := List.mem_map.1 ht
      cases hfi : fanId cf.1 cf.2 <;> simp
    rw [hf, List.map_map]
    simp only [List.filter_cons, List.isEmpty_nil, Bool.not_true, Bool.false_eq_true,
      if_false, List.filter_nil, List.map_nil, List.append_nil]
    apply List.map_congr_left
    intro cf _
    simp only [Function.comp]
    rw [splitBy_append_sep (fun c => c == '=') _ _ '=' (by decide)]
    · rfl
    · intro x hx
      have := eq_not_mem_fanId cf.1 cf.2
      simp only [beq_eq_false_iff_ne, ne_eq]
      rintro rfl
      exact this hx
  · intro cf hcf c hc
    simp only [beq_eq_false_iff_ne, ne_eq]
    rintro rfl
    rcases List.mem_append.1 hc with hc | hc
    · exact space_not_mem_fanId cf.1 cf.2 hc
    · rcases List.mem_cons.1 hc with hc | hc
      · exact absurd hc (by decide)
      · exact hrest cf hcf hc

theorem fctemps_ids (hs : List Hwmon) :
    lineIds "FCTEMPS=".toList ("FCTEMPS=".toList ++ (usedFansOf hs).flatMap fctempsOut)
      = (usedFansOf hs).map (fun cf => fanId cf.1 cf.2) := by
  rw [flatMap_congr_mem (usedFansOf hs) fctempsOut
    (fun cf => (fanId cf.1 cf.2 ++ '=' :: (match cf.2.temp with
      | some t => "hwmon".toList ++ number (hwmonIndex t.parent) ++ "/".toList ++ "temp".toList
          ++ number t.index ++ "_input".toList
      | none => [])) ++ [' '])]
  · apply lineIds_tokens
    intro cf _
    cases ht : cf.2.temp with
    | none => simp
    | some t =>
      have h1 := not_mem_number (hwmonIndex t.parent) ' ' (by decide) (by decide)
      have h2 := not_mem_number (t.index : Int) ' ' (by decide) (by decide)
      simp only [List.mem_append, not_or]
      exact ⟨⟨⟨⟨⟨by decide, h1⟩, by decide⟩, by decide⟩, h2⟩, by decide⟩
  · intro cf hcf
    have hu := used_of_mem_usedFansOf hs cf hcf
    unfold PwmFan.used at hu
    cases ht : cf.2.temp with
    | none => simp [ht] at hu
    | some t =>
      have e1 : "_input ".toList = "_input".toList ++ [' '] := rfl
      have e2 : "=".toList = ['='] := rfl
      simp only [fctempsOut, ht, e1, e2, List.append_assoc, List.cons_append,
        List.nil_append]

theorem fcfans_ids (hs : List Hwmon) :
    lineIds "FCFANS=".toList ("FCFANS=".toList ++ (usedFansOf hs).flatMap fcfansOut)
      = (usedFansOf hs).map (fun cf => fanId cf.1 cf.2) := by
  rw [flatMap_congr_mem (usedFansOf hs) fcfansOut
    (fun cf => (fanId cf.1 cf.2 ++ '=' :: ("hwmon".toList ++ number (hwmonIndex cf.1)
      ++ "/".toList ++ "fan".toList ++ number cf.2.index ++ "_input".toList)) ++ [' '])]
  · apply lineIds_tokens
    intro cf _
    have h1 := not_mem_number (hwmonIndex cf.1) ' ' (by decide) (by decide)
    have h2 := not_mem_number (cf.2.index : Int) ' ' (by decide) (by decide)
    simp only [List.mem_append, not_or]
    exact ⟨⟨⟨⟨⟨by decide, h1⟩, by decide⟩, by decide⟩, h2⟩, by decide⟩
  · intro cf _
    have e1 : "_input ".toList = "_input".toList ++ [' '] := rfl
    have e2 : "=".toList = ['='] := rfl
    simp only [fcfansOut, e1, e2, List.append_assoc, List.cons_append, List.nil_append]

theorem threshold_ids (d : Threshold) (hs : List Hwmon) :
    lineIds d.key (d.key ++ (usedFansOf hs).flatMap (thresholdOut d))
      = (usedFansOf hs).map (fun cf => fanId cf.1 cf.2) := by
  rw [flatMap_congr_mem (usedFansOf hs) (thresholdOut d)
    (fun cf => (fanId cf.1 cf.2 ++ '=' :: number (cf.2.get d)) ++ [' '])]
  · apply lineIds_tokens
    intro cf _
    exact not_mem_number _ ' ' (by decide) (by decide)
  · intro cf _
    have e1 : " ".toList = [' '] := rfl
    have e2 : "=".toList = ['='] := rfl
    simp only [thresholdOut, e1, e2, List.append_assoc, List.cons_append, List.nil_append]

/-- Every per-fan line names the used fans, in their order. -/
theorem perFanLines_ids (l : Loader) :
    ∀ p ∈ List.zip perFanKeys (perFanLines l),
      lineIds p.1 p.2 = (usedFansOf l.hwmons).map (fun cf => fanId cf.1 cf.2) := by
  intro p hp
  simp only [perFanKeys, layoutKeys, perFanLines, configLines, collectUsed_snd, List.drop,
    List.zip_cons_cons, List.zip_nil_right, List.mem_cons, List.mem_singleton,
    List.not_mem_nil, or_false] at hp
  rcases hp with rfl | rfl | rfl | rfl | rfl | rfl | rfl | rfl
  · exact fctemps_ids l.hwmons
  · exact fcfans_ids l.hwmons
  · exact threshold_ids .minTemp l.hwmons
  · exact threshold_ids .maxTemp l.hwmons
  · exact threshold_ids .minStart l.hwmons
  · exact threshold_ids .minStop l.hwmons
  · exact threshold_ids .minPwm l.hwmons
  · exact threshold_ids .maxPwm l.hwmons

/-! ## Line feeds in the produced text -/

theorem mem_of_mem_removeHwmonEnd (s : QString) : ∀ c ∈ removeHwmonEnd s, c ∈ s := by
  induction s with
  | nil => intro c hc; simp [removeHwmonEnd] at hc
  | cons x s ih =>
    intro c hc
    unfold removeHwmonEnd at hc
    split at hc
    · simp at hc
    · rcases List.mem_cons.1 hc with hc | hc
      · subst hc; exact List.mem_cons_self _ _
      · exact List.mem_cons_of_mem _ (ih c hc)

theorem mem_of_mem_sanitizedPath (s : QString) : ∀ c ∈ sanitizedPath s, c ∈ s := by
  intro c hc
  have h1 := mem_of_mem_removeHwmonEnd _ c hc
  unfold removeSysStart at h1
  split at h1
  · exact List.mem_of_mem_drop h1
  · exact h1

theorem lf_not_mem_hwmonAt (hs : List Hwmon)
    (hclean : ∀ h ∈ hs, '\n' ∉ h.path ∧ '\n' ∉ h.name) (c : Nat) :
    '\n' ∉ (hwmonAt hs c).path ∧ '\n' ∉ (hwmonAt hs c).name := by
  unfold hwmonAt
  cases hg : hs[c]? with
  | none => simp
  | some h => exact hclean h (List.getElem?_mem hg)

theorem lf_not_mem_devpathToken (hs : List Hwmon)
    (hclean : ∀ h ∈ hs, '\n' ∉ h.path ∧ '\n' ∉ h.name) (c : Nat) :
    '\n' ∉ devpathToken hs c := by
  have h1 := not_mem_number (hwmonIndex c) '\n' (by decide) (by decide)
  have h2 : '\n' ∉ sanitizedPath (hwmonAt hs c).path :=
    fun hc => (lf_not_mem_hwmonAt hs hclean c).1 (mem_of_mem_sanitizedPath _ _ hc)
  simp only [devpathToken, List.mem_append, not_or]
  exact ⟨⟨⟨⟨by decide, h1⟩, by decide⟩, h2⟩, by decide⟩

theorem lf_not_mem_devnameToken (hs : List Hwmon)
    (hclean : ∀ h ∈ hs, '\n' ∉ h.path ∧ '\n' ∉ h.name) (c : Nat) :
    '\n' ∉ devnameToken hs c := by
  have h1 := not_mem_number (hwmonIndex c) '\n' (by decide) (by decide)
  have h2 : '\n' ∉ (split (hwmonAt hs c).name '.').headD [] := by
    intro hc
    cases hsp : split (hwmonAt hs c).name '.' with
    | nil => simp [hsp] at hc
    | cons w ws =>
      rw [hsp] at hc
      exact (lf_not_mem_hwmonAt hs hclean c).2
        (mem_of_mem_splitBy _ _ w (by unfold split at hsp; rw [hsp]; exact List.mem_cons_self _ _)
          _ hc)
  simp only [devnameToken, List.mem_append, not_or]
  exact ⟨⟨⟨⟨by decide, h1⟩, by decide⟩, h2⟩, by decide⟩

theorem lf_not_mem_fanId (c : Nat) (fan : PwmFan) : '\n' ∉ fanId c fan := by
  have h1 := not_mem_number (hwmonIndex c) '\n' (by decide) (by decide)
  have h2 := not_mem_number (fan.index : Int) '\n' (by decide) (by decide)
  simp only [fanId, List.mem_append, not_or]
  exact ⟨⟨⟨⟨by decide, h1⟩, by decide⟩, by decide⟩, h2⟩

theorem lf_not_mem_fctempsOut (cf : Nat × PwmFan) : '\n' ∉ fctempsOut cf := by
  unfold fctempsOut
  cases cf.2.temp with
  | none => simp
  | some t =>
    have h1 := not_mem_number (hwmonIndex t.parent) '\n' (by decide) (by decide)
    have h2 := not_mem_number (t.index : Int) '\n' (by decide) (by decide)
    simp only [List.mem_append, not_or]
    exact ⟨⟨⟨⟨⟨⟨⟨lf_not_mem_fanId _ _, by decide⟩, by decide⟩, h1⟩, by decide⟩, by decide⟩, h2⟩,
      by decide⟩

theorem lf_not_mem_fcfansOut (cf : Nat × PwmFan) : '\n' ∉ fcfansOut cf := by
  have h1 := not_mem_number (hwmonIndex cf.1) '\n' (by decide) (by decide)
  have h2 := not_mem_number (cf.2.index : Int) '\n' (by decide) (by decide)
  simp only [fcfansOut, List.mem_append, not_or]
  exact ⟨⟨⟨⟨⟨⟨⟨lf_not_mem_fanId _ _, by decide⟩, by decide⟩, h1⟩, by decide⟩, by decide⟩, h2⟩,
    by decide⟩

theorem lf_not_mem_thresholdOut (d : Threshold) (cf : Nat × PwmFan) :
    '\n' ∉ thresholdOut d cf := by
  have h1 := not_mem_number (cf.2.get d) '\n' (by decide) (by decide)
  simp only [thresholdOut, List.mem_append, not_or]
  exact ⟨⟨⟨lf_not_mem_fanId _ _, by decide⟩, h1⟩, by decide⟩

theorem lf_not_mem_key_flatMap {α : Type} (key : QString) (hkey : '\n' ∉ key) (xs : List α)
    (f : α → QString) (hf : ∀ x, '\n' ∉ f x) : '\n' ∉ key ++ xs.flatMap f := by
  simp only [List.mem_append, List.mem_flatMap, not_or, not_exists, not_and]
  exact ⟨hkey, fun x _ => hf x⟩

/-- No produced line holds a line feed when no chip name or path does. -/
theorem lf_not_mem_configLines (l : Loader)
    (hclean : ∀ h ∈ l.hwmons, '\n' ∉ h.path ∧ '\n' ∉ h.name) :
    ∀ ln ∈ configLines l, '\n' ∉ ln := by
  intro ln hln
  simp only [configLines, List.mem_cons, List.mem_singleton, List.not_mem_nil, or_false] at hln
  rcases hln with rfl | rfl | rfl | rfl | rfl | rfl | rfl | rfl | rfl | rfl | rfl
  · have h1 := not_mem_number l.interval '\n' (by decide) (by decide)
    simp only [List.mem_append, not_or]
    exact ⟨by decide, h1⟩
  · exact lf_not_mem_key_flatMap _ (by decide) _ _ (lf_not_mem_devpathToken _ hclean)
  · exact lf_not_mem_key_flatMap _ (by decide) _ _ (lf_not_mem_devnameToken _ hclean)
  · exact lf_not_mem_key_flatMap _ (by decide) _ _ lf_not_mem_fctempsOut
  · exact lf_not_mem_key_flatMap _ (by decide) _ _ lf_not_mem_fcfansOut
  · exact lf_not_mem_key_flatMap _ (by decide) _ _ (lf_not_mem_thresholdOut _)
  · exact lf_not_mem_key_flatMap _ (by decide) _ _ (lf_not_mem_thresholdOut _)
  · exact lf_not_mem_key_flatMap _ (by decide) _ _ (lf_not_mem_thresholdOut _)
  · exact lf_not_mem_key_flatMap _ (by decide) _ _ (lf_not_mem_thresholdOut _)
  · exact lf_not_mem_key_flatMap _ (by decide) _ _ (lf_not_mem_thresholdOut _)
  · exact lf_not_mem_key_flatMap _ (by decide) _ _ (lf_not_mem_thresholdOut _)

/-- C10 (serializer layout). For a document whose chip names and paths hold no line feed,
the text `createConfigFile` stores is eleven lines, each closed by a line feed and free of
line feeds inside; the lines start with `INTERVAL=`, `DEVPATH=`, `DEVNAME=`, `FCTEMPS=`,
`FCFANS=`, `MINTEMP=`, `MAXTEMP=`, `MINSTART=`, `MINSTOP=`, `MINPWM=`, `MAXPWM=` in this
order; the first is `INTERVAL=` and the decimal interval; and each of the eight per-fan lines
names the used fans in chip order, then fan order. -/
theorem serializer_layout (l : Loader)
    (hclean : ∀ h ∈ l.hwmons, '\n' ∉ h.path ∧ '\n' ∉ h.name) :
    ∃ lines : List QString,
      l.createConfigFile.configFile = lines.flatMap (fun ln => ln ++ ['\n']) ∧
      split l.createConfigFile.configFile '\n' = lines ++ [[]] ∧
      (∀ ln ∈ lines, '\n' ∉ ln) ∧
      lines.length = 11 ∧
      List.Forall₂ (fun key ln => key <+: ln) layoutKeys lines ∧
      lines.head? = some ("INTERVAL=".toList ++ number l.interval) ∧
      ∀ p ∈ List.zip perFanKeys (lines.drop 3),
        lineIds p.1 p.2 = (usedFansOf l.hwmons).map (fun cf => fanId cf.1 cf.2) := by
  refine ⟨configLines l, rfl, ?_, lf_not_mem_configLines l hclean, rfl, ?_, rfl,
    perFanLines_ids l⟩
  · show splitBy (fun c => c == '\n') ((configLines l).flatMap (fun ln => ln ++ ['\n'])) = _
    rw [splitBy_tokens (fun c => c == '\n') '\n' (by decide) (fun ln => ln) (configLines l)]
    · simp
    · intro ln hln c hc
      simp only [beq_eq_false_iff_ne, ne_eq]
      rintro rfl
      exact lf_not_mem_configLines l hclean ln hln hc
  · simp only [layoutKeys, configLines, List.forall₂_cons, List.Forall₂.nil, and_true]
    refine ⟨?_, ?_, ?_, ?_, ?_, ?_, ?_, ?_, ?_, ?_, ?_⟩ <;> exact List.prefix_append _ _

/-- The layout theorem on the sample document with `pwm1` driven by `temp1`. -/
theorem serializer_layout_witness :
    (∀ h ∈ sampleUsed.hwmons, '\n' ∉ h.path ∧ '\n' ∉ h.name) ∧
    ∃ lines : List QString,
      sampleUsed.createConfigFile.configFile = lines.flatMap (fun ln => ln ++ ['\n']) ∧
      split sampleUsed.createConfigFile.configFile '\n' = lines ++ [[]] ∧
      (∀ ln ∈ lines, '\n' ∉ ln) ∧
      lines.length = 11 ∧
      List.Forall₂ (fun key ln => key <+: ln) layoutKeys lines ∧
      lines.head? = some ("INTERVAL=".toList ++ number sampleUsed.interval) ∧
      ∀ p ∈ List.zip perFanKeys (lines.drop 3),
        lineIds p.1 p.2 = (usedFansOf sampleUsed.hwmons).map (fun cf => fanId cf.1 cf.2) :=
  ⟨by decide, serializer_layout sampleUsed (by decide)⟩

/-! ## Identifiers name fans -/

theorem append_sep_inj {a a' b b' : QString} {s : Char} (ha : s ∉ a) (ha' : s ∉ a')
    (h : a ++ s :: b = a' ++ s :: b') : a = a' ∧ b = b' := by
  have h1 := congrArg (splitBy (fun c => c == s)) h
  rw [splitBy_append_sep _ _ _ s (by simp)
      (fun x hx => by simp only [beq_eq_false_iff_ne, ne_eq]; rintro rfl; exact ha hx),
    splitBy_append_sep _ _ _ s (by simp)
      (fun x hx => by simp only [beq_eq_false_iff_ne, ne_eq]; rintro rfl; exact ha' hx)] at h1
  have e : a = a' := (List.cons.inj h1).1
  subst e
  exact ⟨rfl, (List.cons.inj (List.append_cancel_left h)).2⟩

theorem slash_not_mem_toDigits (n : Nat) : '/' ∉ Nat.toDigits 10 n := by
  rw [← number_natCast]
  exact not_mem_number _ '/' (by decide) (by decide)

/-- Two fans have the same identifier only if they have the same chip and channel index. -/
theorem fanId_inj {c c' : Nat} {f f' : PwmFan} (h : fanId c f = fanId c' f') :
    c = c' ∧ f.index = f'.index := by
  unfold fanId hwmonIndex at h
  rw [number_natCast, number_natCast, number_natCast, number_natCast] at h
  simp only [List.append_assoc] at h
  have h1 := List.append_cancel_left h
  have e : ∀ x : QString, "/".toList ++ x = '/' :: x := fun _ => rfl
  rw [e, e] at h1
  obtain ⟨h2, h3⟩ := append_sep_inj (slash_not_mem_toDigits c) (slash_not_mem_toDigits c') h1
  exact ⟨toDigits_injective h2, toDigits_injective (List.append_cancel_left h3)⟩

theorem mem_usedFansOf {hs : List Hwmon} {cf : Nat × PwmFan} :
    cf ∈ usedFansOf hs ↔
      ∃ h, hs[cf.1]? = some h ∧ cf.2 ∈ h.pwmFans ∧ cf.2.used = true := by
  unfold usedFansOf
  simp only [List.mem_flatMap, List.mem_map, List.mem_filter, List.mem_enum_iff_getElem?]
  constructor
  · rintro ⟨ch, hch, f, ⟨hf, hu⟩, rfl⟩
    exact ⟨ch.2, hch, hf, hu⟩
  · rintro ⟨h, hh, hf, hu⟩
    exact ⟨(cf.1, h), hh, cf.2, ⟨hf, hu⟩, rfl⟩

theorem nodup_usedFansOf (hs : List Hwmon) (hd : DistinctFans hs) : (usedFansOf hs).Nodup := by
  unfold usedFansOf
  rw [List.nodup_flatMap]
  constructor
  · intro ch hch
    have hn : ch.2.pwmFans.Nodup := List.Nodup.of_map _ (hd ch.2 (List.snd_mem_of_mem_enum hch))
    exact (hn.filter _).map (fun a b hab => (Prod.mk.inj hab).2)
  · have hp : (hs.enum).Pairwise (fun a b => a.1 ≠ b.1) := by
      have := List.nodup_range hs.length
      rw [← List.enum_map_fst hs] at this
      exact (List.pairwise_map.1 this)
    refine hp.imp ?_
    intro a b hab
    simp only [Function.onFun, List.disjoint_left, List.mem_map, List.mem_filter, not_exists,
      not_and, forall_exists_index, and_imp]
    intro x f _ _ hx g _ _ hg
    subst hx
    exact hab (Prod.mk.inj hg).1.symm

theorem nodup_usedIds (hs : List Hwmon) (hd : DistinctFans hs) :
    ((usedFansOf hs).map (fun cf => fanId cf.1 cf.2)).Nodup := by
  refine List.Nodup.map_on ?_ (nodup_usedFansOf hs hd)
  intro x hx y hy hxy
  obtain ⟨h, hh, hf, _⟩ := mem_usedFansOf.1 hx
  obtain ⟨h', hh', hf', _⟩ := mem_usedFansOf.1 hy
  obtain ⟨hc, hi⟩ := fanId_inj hxy
  rw [hc, hh'] at hh
  cases hh
  have := List.inj_on_of_nodup_map (hd h (List.getElem?_mem hh')) hf hf' hi
  exact Prod.ext hc this

theorem fanId_mem_usedIds (hs : List Hwmon) (hd : DistinctFans hs) (c j : Nat) (fan : PwmFan)
    (hfan : fanAt hs c j = some fan) :
    fanId c fan ∈ (usedFansOf hs).map (fun cf => fanId cf.1 cf.2) ↔ fan.used = true := by
  unfold fanAt at hfan
  cases hg : hs[c]? with
  | none => simp [hg] at hfan
  | some h =>
    rw [hg] at hfan
    have hmem : fan ∈ h.pwmFans := List.getElem?_mem hfan
    constructor
    · intro hm
      obtain ⟨cf, hcf, hid⟩ := List.mem_map.1 hm
      obtain ⟨h', hh', hf', hu⟩ := mem_usedFansOf.1 hcf
      obtain ⟨hc, hi⟩ := fanId_inj hid
      rw [hc, hg] at hh'
      cases hh'
      have := List.inj_on_of_nodup_map (hd h (List.getElem?_mem hg)) hf' hmem hi
      rw [← this]
      exact hu
    · intro hu
      exact List.mem_map.2 ⟨(c, fan), mem_usedFansOf.2 ⟨h, hg, hmem, hu⟩, rfl⟩

/-- C4 (used-fan filter). In a document whose fans are identified by their channel index
within the chip, the identifier `hwmon<N>/pwm<M>` of a fan that is not active or has no
`Temp` names no token, and the identifier of a fan that is active and has a `Temp` names
exactly one token, in each of the lines `FCTEMPS`, `FCFANS`, `MINTEMP`, `MAXTEMP`,
`MINSTART`, `MINSTOP`, `MINPWM`, `MAXPWM` that `createConfigFile` produces. -/
theorem used_fan_filter (l : Loader) (hd : DistinctFans l.hwmons) (c j : Nat) (fan : PwmFan)
    (hfan : fanAt l.hwmons c j = some fan) :
    ∀ p ∈ List.zip perFanKeys (perFanLines l),
      (lineIds p.1 p.2).countP (fun t => decide (t = fanId c fan))
        = if fan.active = true ∧ fan.temp.isSome = true then 1 else 0 := by
  intro p hp
  have hc := List.count_eq_of_nodup (a := fanId c fan) (nodup_usedIds l.hwmons hd)
  have hm := fanId_mem_usedIds l.hwmons hd c j fan hfan
  rw [perFanLines_ids l p hp]
  refine Eq.trans ?_ (hc.trans ?_)
  · rfl
  · by_cases hu : fan.used = true
    · rw [if_pos (hm.2 hu)]
      simp only [PwmFan.used, Bool.and_eq_true] at hu
      rw [if_pos hu]
    · rw [if_neg (fun h => hu (hm.1 h))]
      simp only [PwmFan.used, Bool.and_eq_true] at hu
      rw [if_neg hu]

/-- The used-fan filter on the sample document with `pwm1` driven by `temp1`. -/
theorem used_fan_filter_witness :
    DistinctFans sampleUsed.hwmons ∧
    fanAt sampleUsed.hwmons 0 0 = some { samplePwm with temp := some ⟨0, 1⟩ } ∧
    ∀ p ∈ List.zip perFanKeys (perFanLines sampleUsed),
      (lineIds p.1 p.2).countP
          (fun t => decide (t = fanId 0 { samplePwm with temp := some ⟨0, 1⟩ }))
        = if ({ samplePwm with temp := some ⟨0, 1⟩ } : PwmFan).active = true
            ∧ ({ samplePwm with temp := some ⟨0, 1⟩ } : PwmFan).temp.isSome = true
          then 1 else 0 :=
  ⟨by simp [DistinctFans, sampleUsed, sampleChip], by decide,
    used_fan_filter sampleUsed (by simp [DistinctFans, sampleUsed, sampleChip]) 0 0 _
      (by decide)⟩

/-! ## Where the code leaves the specification -/

/-- C1 (round trip). The document `sampleLoader` has no used fan; `createConfigFile`
writes the line `FCTEMPS=` with no token for it, and `open` on that text reads `at(1)` of a
one-element list: the text the serializer produced is not parsed back. -/
theorem roundtrip_faults_without_used_fan :
    sampleLoader.createConfigFile.configFile
      = ("INTERVAL=10\nDEVPATH=hwmon0=devices/platform/it87.656 \nDEVNAME=hwmon0=it8728 \n"
          ++ "FCTEMPS=\nFCFANS=\nMINTEMP=\nMAXTEMP=\nMINSTART=\nMINSTOP=\nMINPWM=\n"
          ++ "MAXPWM=\n").toList ∧
    sampleLoader.open "/etc/fancontrol".toList (.opened sampleLoader.createConfigFile.configFile)
      = .error .indexOutOfRange := by
  decide

/-- C2 (unknown chip). With only `hwmon0` in the registry, the pair `hwmon9/pwm1=70` of any
of the six threshold directives makes `open` call `pwmFan` through a null chip pointer; the
same identifier in `FCTEMPS` is dropped, behind the null check of line 157. -/
theorem unknown_chip_threshold_faults :
    (∀ d : Threshold,
      sampleLoader.open "/etc/fancontrol".toList (.opened (d.key ++ "hwmon9/pwm1=70\n".toList))
        = .error .nullPointer) ∧
    sampleLoader.open "/etc/fancontrol".toList
        (.opened "FCTEMPS=hwmon9/pwm1=hwmon0/temp1_input\n".toList)
      = .ok { sampleLoader with configFile := "FCTEMPS=hwmon9/pwm1=hwmon0/temp1_input\n".toList } := by
  refine ⟨fun d => ?_, by decide⟩
  cases d <;> decide

/-- C3 (token shape). On the lines `MINTEMP=` and `FCTEMPS=` alone, and on a token with no
`=`, `open` reads `at(1)` of a one-element list, although chip 0 is in the registry. -/
theorem empty_payload_faults :
    sampleLoader.open "/etc/fancontrol".toList (.opened "MINTEMP=\n".toList)
      = .error .indexOutOfRange ∧
    sampleLoader.open "/etc/fancontrol".toList (.opened "FCTEMPS=\n".toList)
      = .error .indexOutOfRange ∧
    sampleLoader.open "/etc/fancontrol".toList (.opened "MINTEMP=hwmon0/pwm1\n".toList)
      = .error .indexOutOfRange := by
  decide

/-- C7 (inline comments). The line `INTERVAL=5#poll` is cut one character before the `#`,
so it is read as `INTERVAL=` and sets the interval to 0, where `INTERVAL=5` sets 5. -/
theorem inline_comment_drops_a_character :
    cleanLine "INTERVAL=5#poll".toList = some "INTERVAL=".toList ∧
    (sampleLoader.open "/etc/fancontrol".toList (.opened "INTERVAL=5#poll\n".toList)).map
        (fun l => l.interval) = .ok 0 ∧
    (sampleLoader.open "/etc/fancontrol".toList (.opened "INTERVAL=5\n".toList)).map
        (fun l => l.interval) = .ok 5 := by
  decide

/-- C8 (device path). For the chip `hwmon10` with path
`/sys/devices/platform/it87.656/hwmon/hwmon10` the `DEVPATH` token keeps the suffix
`/hwmon/hwmon10`: the pattern of line 332 has one digit. -/
theorem devpath_keeps_two_digit_suffix :
    sanitizedPath "/sys/devices/platform/it87.656/hwmon/hwmon10".toList
      = "devices/platform/it87.656/hwmon/hwmon10".toList ∧
    (configLines elevenChips)[1]?
      = some "DEVPATH=hwmon10=devices/platform/it87.656/hwmon/hwmon10 ".toList := by
  decide

/-! ## Setters through fan pointers -/

theorem fanAt_modifyFan (g : PwmFan → PwmFan) (c j c' j' : Nat) (hs : List Hwmon) :
    fanAt (modifyFan g c j hs) c' j'
      = (fanAt hs c' j').map (fun f => if c = c' ∧ j = j' then g f else f) := by
  unfold fanAt modifyFan
  rw [List.getElem?_modify]
  cases hh : hs[c']? with
  | none => simp
  | some h =>
    by_cases hc : c = c'
    · subst hc
      simp only [Option.map_eq_map, Option.map_some', if_true, Option.some_bind, true_and,
        List.getElem?_modify]
    · simp only [Option.map_eq_map, Option.map_some', if_neg hc, Option.some_bind, hc,
        false_and, if_false]
      cases h.pwmFans[j']? <;> simp

theorem channelsOf_modifyFan (g : PwmFan → PwmFan) (hg : ∀ f, (g f).index = f.index)
    (c j : Nat) (hs : List Hwmon) : channelsOf (modifyFan g c j hs) = channelsOf hs := by
  unfold channelsOf modifyFan
  apply List.ext_getElem?
  intro n
  simp only [List.getElem?_map, List.getElem?_modify]
  cases hs[n]? with
  | none => simp
  | some h =>
    by_cases hc : c = n
    · simp only [hc, if_true, Option.map_eq_map, Option.map_some', Option.some.injEq,
        Prod.mk.injEq, true_and]
      apply List.ext_getElem?
      intro m
      simp only [List.getElem?_map, List.getElem?_modify]
      cases h.pwmFans[m]? with
      | none => simp
      | some f => by_cases hj : j = m <;> simp [hj, hg]
    · simp [hc]

theorem channelsOf_resetAll (hs : List Hwmon) : channelsOf (resetAll hs) = channelsOf hs := by
  unfold channelsOf resetAll
  simp [List.map_map, Function.comp, PwmFan.reset]

theorem fanAt_resetAll (hs : List Hwmon) (c j : Nat) :
    fanAt (resetAll hs) c j = (fanAt hs c j).map PwmFan.reset := by
  unfold fanAt resetAll
  simp only [List.getElem?_map]
  cases hs[c]? with
  | none => simp
  | some h =>
    simp only [Option.map_some', Option.some_bind, List.getElem?_map]

theorem findFan_map_index (i : Int) (fans : List PwmFan) (g : PwmFan → PwmFan)
    (hg : ∀ f, (g f).index = f.index) : findFan i (fans.map g) = findFan i fans := by
  induction fans with
  | nil => rfl
  | cons f fs ih => simp [findFan, hg, ih]

theorem findFan_congr (i : Int) : ∀ (fans fans' : List PwmFan),
    fans.map (fun f => f.index) = fans'.map (fun f => f.index) →
    findFan i fans = findFan i fans' := by
  intro fans
  induction fans with
  | nil =>
    intro fans' h
    cases fans' with
    | nil => rfl
    | cons _ _ => simp at h
  | cons f fs ih =>
    intro fans' h
    cases fans' with
    | nil => simp at h
    | cons f' fs' =>
      simp only [List.map_cons, List.cons.injEq] at h
      simp [findFan, h.1, ih fs' h.2]

theorem listValue_channelsOf (hs : List Hwmon) (i : Int) :
    listValue (channelsOf hs) i
      = (listValue hs i).map (fun h => (h.temps, h.pwmFans.map (fun f => f.index))) := by
  unfold listValue channelsOf
  split
  · rfl
  · simp [List.getElem?_map]

/-- Identifiers resolve the same way in registries with the same channel indices. -/
theorem resolvePwm_congr (hs hs' : List Hwmon) (h : channelsOf hs = channelsOf hs')
    (id : QString) : resolvePwm hs id = resolvePwm hs' id := by
  have h1 := listValue_channelsOf hs (getHwmonNumber id)
  rw [h, listValue_channelsOf] at h1
  unfold resolvePwm Hwmon.pwmFan
  cases ha : listValue hs (getHwmonNumber id) <;> cases hb : listValue hs' (getHwmonNumber id)
    <;> simp only [ha, hb, Option.map_none', Option.map_some', Option.some.injEq,
      Prod.mk.injEq, reduceCtorEq] at h1
  · rfl
  · simp only [Option.some_bind]
    rw [findFan_congr _ _ _ h1.2.symm]

theorem resolveTemp_congr (hs hs' : List Hwmon) (h : channelsOf hs = channelsOf hs')
    (id : QString) : resolveTemp hs id = resolveTemp hs' id := by
  have h1 := listValue_channelsOf hs (getHwmonNumber id)
  rw [h, listValue_channelsOf] at h1
  unfold resolveTemp Hwmon.temp
  cases ha : listValue hs (getHwmonNumber id) <;> cases hb : listValue hs' (getHwmonNumber id)
    <;> simp only [ha, hb, Option.map_none', Option.map_some', Option.some.injEq,
      Prod.mk.injEq, reduceCtorEq] at h1
  · rfl
  · simp only [Option.some_bind]
    rw [h1.1]

/-! ## The effect of one pair -/

theorem split_head (s : QString) (sep : Char) :
    (split s sep)[0]? = some ((split s sep).headD []) := by
  unfold split
  cases h : splitBy (fun c => c == sep) s with
  | nil => exact absurd h (splitBy_ne_nil _ _)
  | cons w ws => simp

/-- What a fan pointer names after one `FCTEMPS` pair with temp side `temp`. -/
theorem fctempsToken_eq (l : Loader) (tok : QString) :
    fctempsToken l tok =
      match (split tok '=')[1]? with
      | none => .error .indexOutOfRange
      | some temp =>
        .ok (match resolvePwm l.hwmons ((split tok '=').headD []) with
          | none => l
          | some cj =>
            if (listValue l.hwmons (getHwmonNumber temp)).isSome then
              (l.modifyFan (PwmFan.setTemp (resolveTemp l.hwmons temp)) cj.1 cj.2).modifyFan
                (PwmFan.set .minPwm 0) cj.1 cj.2
            else l.modifyFan (PwmFan.setTemp none) cj.1 cj.2) := by
  unfold fctempsToken listAt
  rw [split_head]
  generalize (split tok '=').headD [] = pwm
  cases h1 : (split tok '=')[1]? with
  | none => rfl
  | some temp =>
    simp only [bind, Except.bind, resolvePwm, resolveTemp]
    cases hp : listValue l.hwmons (getHwmonNumber pwm) with
    | none => rfl
    | some ph =>
      cases hj : ph.pwmFan (getSensorNumber pwm) with
      | none =>
        cases ht : listValue l.hwmons (getHwmonNumber temp) <;> simp [hj, pure, Except.pure]
      | some j =>
        cases ht : listValue l.hwmons (getHwmonNumber temp) <;> simp [hj, pure, Except.pure]

theorem thresholdToken_eq (d : Threshold) (l : Loader) (tok : QString) :
    thresholdToken d l tok =
      match (split tok '=')[1]? with
      | none => .error .indexOutOfRange
      | some text =>
        match listValue l.hwmons (getHwmonNumber ((split tok '=').headD [])) with
        | none => .error .nullPointer
        | some _ =>
          .ok (match resolvePwm l.hwmons ((split tok '=').headD []) with
            | none => l
            | some cj => l.modifyFan (PwmFan.set d (toInt text)) cj.1 cj.2) := by
  unfold thresholdToken listAt
  rw [split_head]
  generalize (split tok '=').headD [] = pwm
  cases h1 : (split tok '=')[1]? with
  | none => rfl
  | some text =>
    simp only [bind, Except.bind, resolvePwm]
    cases hp : listValue l.hwmons (getHwmonNumber pwm) with
    | none => rfl
    | some ph => cases hj : ph.pwmFan (getSensorNumber pwm) <;> simp [hj, pure, Except.pure]

theorem split_pair (a b : QString) (sep : Char) (ha : sep ∉ a) (hb : sep ∉ b) :
    split (a ++ sep :: b) sep = [a, b] := by
  unfold split
  rw [splitBy_append_sep _ _ _ sep (by simp)
      (fun x hx => by simp only [beq_eq_false_iff_ne, ne_eq]; rintro rfl; exact ha hx),
    splitBy_no_sep _ _
      (fun x hx => by simp only [beq_eq_false_iff_ne, ne_eq]; rintro rfl; exact hb hx)]

/-- The effect of the pair `pwmId=tempId` on the fan `pwmId` resolves to. -/
theorem fctempsToken_pair (l : Loader) (pwmId tempId : QString) (c j : Nat) (f : PwmFan)
    (hp : '=' ∉ pwmId) (ht : '=' ∉ tempId)
    (hres : resolvePwm l.hwmons pwmId = some (c, j)) (hf : fanAt l.hwmons c j = some f) :
    ∃ l' f', fctempsToken l (pwmId ++ '=' :: tempId) = .ok l' ∧
      fanAt l'.hwmons c j = some f' ∧ f'.temp = resolveTemp l.hwmons tempId ∧
      ((resolveTemp l.hwmons tempId).isSome → f'.minPwm = 0) ∧ f'.active = f.active := by
  rw [fctempsToken_eq, split_pair _ _ _ hp ht]
  simp only [List.headD_cons, hres, List.getElem?_cons_succ, List.getElem?_cons_zero]
  by_cases hchip : (listValue l.hwmons (getHwmonNumber tempId)).isSome = true
  · rw [if_pos hchip]
    refine ⟨_, (PwmFan.setTemp (resolveTemp l.hwmons tempId) f).set .minPwm 0, rfl, ?_, rfl,
      fun _ => rfl, rfl⟩
    simp only [Loader.modifyFan, fanAt_modifyFan, hf, Option.map_some', and_self, if_true]
  · rw [if_neg hchip]
    simp only [Bool.not_eq_true, Option.not_isSome, Option.isNone_iff_eq_none] at hchip
    have hnone : resolveTemp l.hwmons tempId = none := by simp [resolveTemp, hchip]
    refine ⟨_, PwmFan.setTemp none f, rfl, ?_, ?_, ?_, rfl⟩
    · simp only [Loader.modifyFan, fanAt_modifyFan, hf, Option.map_some', and_self, if_true]
    · rw [hnone]; rfl
    · rw [hnone]; simp

theorem fctempsToken_resolved (l : Loader) (tok temp : QString) (cj : Nat × Nat)
    (h1 : (split tok '=')[1]? = some temp)
    (hres : resolvePwm l.hwmons ((split tok '=').headD []) = some cj)
    (hchip : (listValue l.hwmons (getHwmonNumber temp)).isSome = true) :
    fctempsToken l tok
      = .ok ((l.modifyFan (PwmFan.setTemp (resolveTemp l.hwmons temp)) cj.1 cj.2).modifyFan
          (PwmFan.set .minPwm 0) cj.1 cj.2) := by
  rw [fctempsToken_eq, h1]
  simp only [hres, hchip, if_true]

theorem listValue_of_resolvePwm (hs : List Hwmon) (id : QString) (cj : Nat × Nat)
    (hres : resolvePwm hs id = some cj) : ∃ h, listValue hs (getHwmonNumber id) = some h := by
  unfold resolvePwm at hres
  cases hl : listValue hs (getHwmonNumber id) with
  | none => simp [hl] at hres
  | some h => exact ⟨h, rfl⟩

theorem thresholdToken_resolved (d : Threshold) (l : Loader) (tok text : QString)
    (cj : Nat × Nat) (h1 : (split tok '=')[1]? = some text)
    (hres : resolvePwm l.hwmons ((split tok '=').headD []) = some cj) :
    thresholdToken d l tok = .ok (l.modifyFan (PwmFan.set d (toInt text)) cj.1 cj.2) := by
  obtain ⟨h, hh⟩ := listValue_of_resolvePwm _ _ _ hres
  rw [thresholdToken_eq, h1]
  simp only [hh, hres]

theorem PwmFan.set_index (d : Threshold) (v : Int) (f : PwmFan) :
    (PwmFan.set d v f).index = f.index := by
  cases d <;> rfl

theorem PwmFan.set_temp (d : Threshold) (v : Int) (f : PwmFan) :
    (PwmFan.set d v f).temp = f.temp := by
  cases d <;> rfl

theorem channelsOf_set (d : Threshold) (v : Int) (c j : Nat) (hs : List Hwmon) :
    channelsOf (modifyFan (PwmFan.set d v) c j hs) = channelsOf hs :=
  channelsOf_modifyFan _ (PwmFan.set_index d v) c j hs

theorem channelsOf_setTemp (t : Option Temp) (c j : Nat) (hs : List Hwmon) :
    channelsOf (modifyFan (PwmFan.setTemp t) c j hs) = channelsOf hs :=
  channelsOf_modifyFan (PwmFan.setTemp t) (fun _ => rfl) c j hs

/-- The example of the specification, on any registry whose chip 0 has `pwm1` and
`temp1`. -/
theorem open_exampleText (l0 : Loader) (url : QString) (h : Hwmon) (rest : List Hwmon)
    (j0 : Nat) (f0 : PwmFan) (hh : l0.hwmons = h :: rest) (hj : h.pwmFan 1 = some j0)
    (hf : h.pwmFans[j0]? = some f0) (ht : 1 ∈ h.temps) :
    ∃ l1, l0.open url (.opened exampleText) = .ok l1 ∧ l1.interval = 5 ∧
      fanAt l1.hwmons 0 j0
        = some { f0 with temp := some ⟨0, 1⟩, maxTemp := 70, minPwm := 0 } := by
  have hlines : logicalLines exampleText
      = ["INTERVAL=5".toList, "FCTEMPS=hwmon0/pwm1=hwmon0/temp1_input".toList,
          "MAXTEMP=hwmon0/pwm1=70".toList] := by decide
  have hp0 : resolvePwm l0.hwmons "hwmon0/pwm1".toList = some (0, j0) := by
    have e1 : getHwmonNumber "hwmon0/pwm1".toList = 0 := by decide
    have e2 : getSensorNumber "hwmon0/pwm1".toList = 1 := by decide
    unfold resolvePwm
    rw [e1, e2, hh]
    simp [listValue, hj]
  have ht0 : resolveTemp l0.hwmons "hwmon0/temp1_input".toList = some ⟨0, 1⟩ := by
    have e1 : getHwmonNumber "hwmon0/temp1_input".toList = 0 := by decide
    have e2 : getSensorNumber "hwmon0/temp1_input".toList = 1 := by decide
    unfold resolveTemp
    rw [e1, e2, hh]
    simp [listValue, Hwmon.temp, ht]
  have p1 : ∀ l : Loader, processLine l "INTERVAL=5".toList = .ok (l.setInterval 5) :=
    fun _ => rfl
  have p2 : ∀ l : Loader, processLine l "FCTEMPS=hwmon0/pwm1=hwmon0/temp1_input".toList
      = (fctempsToken l "hwmon0/pwm1=hwmon0/temp1_input".toList >>= fun s => pure s) :=
    fun _ => rfl
  have p3 : ∀ l : Loader, processLine l "MAXTEMP=hwmon0/pwm1=70".toList
      = (thresholdToken .maxTemp l "hwmon0/pwm1=70".toList >>= fun s => pure s) :=
    fun _ => rfl
  have s1 : (split "hwmon0/pwm1=hwmon0/temp1_input".toList '=')[1]?
      = some "hwmon0/temp1_input".toList := by decide
  have s2 : (split "hwmon0/pwm1=hwmon0/temp1_input".toList '=').headD []
      = "hwmon0/pwm1".toList := by decide
  have s3 : (split "hwmon0/pwm1=70".toList '=')[1]? = some "70".toList := by decide
  have s4 : (split "hwmon0/pwm1=70".toList '=').headD [] = "hwmon0/pwm1".toList := by decide
  have s5 : toInt "70".toList = 70 := by decide
  have hf0 : fanAt l0.hwmons 0 j0 = some f0 := by simp [fanAt, hh, hf]
  have c1 : channelsOf (resetAll l0.hwmons) = channelsOf l0.hwmons := channelsOf_resetAll _
  have q2 := fun (l : Loader) (hl : l.hwmons = resetAll l0.hwmons) =>
    fctempsToken_resolved l "hwmon0/pwm1=hwmon0/temp1_input".toList
      "hwmon0/temp1_input".toList (0, j0) s1
      (by rw [s2, hl]; exact (resolvePwm_congr _ _ c1 _).trans hp0)
      (by
        have e1 : getHwmonNumber "hwmon0/temp1_input".toList = 0 := by decide
        rw [e1, hl]
        simp [listValue, resetAll, hh])
  have q3 := fun l (hl : channelsOf l.hwmons = channelsOf l0.hwmons) =>
    thresholdToken_resolved .maxTemp l "hwmon0/pwm1=70".toList "70".toList (0, j0) s3
      (by rw [s4]; exact (resolvePwm_congr _ _ hl _).trans hp0)
  have hb : ∀ (x : Loader) (f : Loader → Except Fault Loader),
    ((Except.ok x : Except Fault Loader) >>= f) = f x := fun _ _ => rfl
  have hpure : ∀ (x : Loader), (pure x : Except Fault Loader) = Except.ok x := fun _ => rfl
  have ht1 : resolveTemp (resetAll l0.hwmons) "hwmon0/temp1_input".toList = some ⟨0, 1⟩ :=
    (resolveTemp_congr _ _ c1 _).trans ht0
  refine ⟨(((Loader.setInterval
      { l0 with
        error := "Success".toList
        configFile := exampleText
        configUrl := url
        hwmons := resetAll l0.hwmons } 5).modifyFan
      (PwmFan.setTemp (some ⟨0, 1⟩)) 0 j0).modifyFan (PwmFan.set .minPwm 0) 0 j0).modifyFan
      (PwmFan.set .maxTemp 70) 0 j0, ?_, rfl, ?_⟩
  · unfold Loader.open Loader.parse
    simp only [hlines, List.foldlM_cons, List.foldlM_nil, p1, p2, p3, hb]
    rw [q2 _ rfl]
    simp only [hb, hpure]
    rw [q3 _ (by
      simp only [Loader.modifyFan, Loader.setInterval]
      rw [channelsOf_set, channelsOf_setTemp, c1])]
    simp only [hb, hpure, s5, Loader.setInterval, ht1]
  · simp only [Loader.modifyFan, Loader.setInterval, fanAt_modifyFan, fanAt_resetAll, hf0,
      Option.map_some', and_self, if_true]
    rfl

/-! ## Lenient numbers -/

theorem digitValue_isSome_iff (c : Char) : (digitValue c).isSome = c.isDigit := by
  unfold digitValue Char.isDigit
  by_cases h : 48 ≤ c.toNat ∧ c.toNat ≤ 57
  · rw [if_pos h]
    have h1 : (48 : UInt32) ≤ c.val := by
      rw [UInt32.le_def]; exact h.1
    have h2 : c.val ≤ (57 : UInt32) := by
      rw [UInt32.le_def]; exact h.2
    simp [h1, h2]
  · rw [if_neg h]
    have : ¬ ((48 : UInt32) ≤ c.val ∧ c.val ≤ (57 : UInt32)) := by
      rw [UInt32.le_def, UInt32.le_def]; exact h
    simp only [Option.isSome_none]
    rcases not_and_or.1 this with h1 | h1 <;> simp [h1]

theorem parseDigitsFrom_isSome (s : QString) :
    ∀ acc : Nat, (parseDigitsFrom acc s).isSome = s.all Char.isDigit := by
  induction s with
  | nil => intro acc; rfl
  | cons c cs ih =>
    intro acc
    unfold parseDigitsFrom
    have hc := digitValue_isSome_iff c
    cases hd : digitValue c with
    | none =>
      rw [hd] at hc
      simp only [Option.isSome_none, List.all_cons]
      rw [← hc]
      rfl
    | some d =>
      rw [hd] at hc
      simp only [List.all_cons, ih]
      rw [← hc]
      rfl

theorem parseDigits_isSome (s : QString) : (parseDigits s).isSome = isDigits s := by
  cases s with
  | nil => rfl
  | cons c cs =>
    unfold parseDigits isDigits
    rw [parseDigitsFrom_isSome]
    rfl

/-- The reader accepts exactly the texts of the shape `[+-]?digits`. -/
theorem parseSigned_isSome (s : QString) : (parseSigned s).isSome = isDecimalInteger s := by
  unfold parseSigned isDecimalInteger
  split <;> (rw [← parseDigits_isSome]; cases parseDigits _ <;> rfl)

theorem toInt_of_not_decimal (s : QString) (h : isDecimalInteger (trimmed s) = false) :
    toInt s = 0 := by
  unfold toInt
  have := parseSigned_isSome (trimmed s)
  rw [h] at this
  cases hp : parseSigned (trimmed s) with
  | none => rfl
  | some n => rw [hp] at this; simp at this

theorem dropWhile_of_all_false {α : Type} (p : α → Bool) (l : List α)
    (h : ∀ x ∈ l, p x = false) : l.dropWhile p = l := by
  cases l with
  | nil => rfl
  | cons x xs => simp [List.dropWhile, h x (List.mem_cons_self _ _)]

theorem trimmed_of_no_space (s : QString) (h : ∀ c ∈ s, isSpace c = false) : trimmed s = s := by
  unfold trimmed
  rw [dropWhile_of_all_false _ _ h,
    dropWhile_of_all_false _ _ (fun c hc => h c (List.mem_reverse.1 hc)), List.reverse_reverse]

theorem isSpace_of_digit (c : Char) (h : (digitValue c).isSome = true) : isSpace c = false := by
  unfold digitValue at h
  split at h
  · rename_i hb
    unfold isSpace
    have h1 : 48 ≤ c.toNat := hb.1
    have h2 : c.toNat ≤ 57 := hb.2
    simp only [Bool.or_eq_false_iff, beq_eq_false_iff_ne, ne_eq, Bool.and_eq_false_imp,
      decide_eq_true_eq, decide_eq_false_iff_not, not_le]
    omega
  · simp at h

theorem isSpace_number (n : Int) : ∀ c ∈ number n, isSpace c = false := by
  intro c hc
  unfold number at hc
  split at hc
  · rcases List.mem_cons.1 hc with hc | hc
    · subst hc; decide
    · exact isSpace_of_digit c ((toDigits_spec _).2.1 c hc)
  · exact isSpace_of_digit c ((toDigits_spec _).2.1 c hc)

theorem parseSigned_number (n : Int) : parseSigned (number n) = some n := by
  unfold number
  split
  · rename_i hneg
    simp only [parseSigned, (toDigits_spec _).2.2, Option.map_some', Option.some.injEq]
    rw [Int.ofNat_natAbs_of_nonpos (le_of_lt hneg)]
    omega
  · rename_i hpos
    obtain ⟨h1, h2, h3⟩ := toDigits_spec n.toNat
    cases hds : Nat.toDigits 10 n.toNat with
    | nil => exact absurd hds h1
    | cons c cs =>
      have hc : (digitValue c).isSome = true := h2 c (by rw [hds]; exact List.mem_cons_self _ _)
      have hm : c ≠ '-' := by rintro rfl; exact absurd hc (by decide)
      have hp : c ≠ '+' := by rintro rfl; exact absurd hc (by decide)
      rw [hds] at h3
      unfold parseSigned
      split
      · rename_i heq; exact absurd (List.cons.inj heq).1 hm
      · rename_i heq; exact absurd (List.cons.inj heq).1 hp
      · rw [h3]
        show some ((n.toNat : Nat) : Int) = some n
        rw [Int.toNat_of_nonneg (not_lt.1 hpos)]

/-- Reading back a rendered `int` gives the `int`. -/
theorem toInt_number (n : Int) (h1 : -2147483648 ≤ n) (h2 : n ≤ 2147483647) :
    toInt (number n) = n := by
  unfold toInt
  rw [trimmed_of_no_space _ (isSpace_number n), parseSigned_number]
  simp [h1, h2]

/-! ## Removing a key -/

theorem removeAux_skip (pat a b : QString) :
    removeAux pat a.length (a ++ b) = removeAux pat 0 b := by
  induction a with
  | nil => rfl
  | cons x a ih => simpa [removeAux] using ih

theorem removeAux_of_not_infix (pat : QString) (s : QString) (h : ¬ pat <:+: s) :
    removeAux pat 0 s = s := by
  induction s with
  | nil => rfl
  | cons c cs ih =>
    unfold removeAux
    have hpre : pat.isPrefixOf (c :: cs) = false := by
      rw [Bool.eq_false_iff]
      intro hp
      exact h (List.isPrefixOf_iff_prefix.1 hp).isInfix
    rw [hpre]
    simp only [Bool.and_false, Bool.false_eq_true, if_false, List.cons.injEq, true_and]
    exact ih (fun hi => h (hi.trans (List.suffix_cons c cs).isInfix))

/-- Removing a key from a text that starts with it removes it at the start and goes on in
the rest. -/
theorem removeAux_match (pat : QString) (c : Char) (cs : QString) (hk : pat ≠ [])
    (hpre : pat.isPrefixOf (c :: cs) = true) :
    removeAux pat 0 (c :: cs) = removeAux pat (pat.length - 1) cs := by
  cases pat with
  | nil => exact absurd rfl hk
  | cons k ks => simp [removeAux, hpre]

theorem remove_key_append (key rest : QString) (hk : key ≠ []) :
    remove (key ++ rest) key = remove rest key := by
  cases key with
  | nil => exact absurd rfl hk
  | cons k ks =>
    unfold remove
    have hpre : (k :: ks).isPrefixOf (k :: (ks ++ rest)) = true :=
      List.isPrefixOf_iff_prefix.2 (List.prefix_append (k :: ks) rest)
    show removeAux (k :: ks) 0 (k :: (ks ++ rest)) = _
    rw [removeAux_match _ _ _ hk hpre]
    exact removeAux_skip _ ks rest

/-! ## The claims on single pairs -/

/-- C5 (FCTEMPS association). When the PWM side of a pair `pwmId=tempId` resolves to a fan,
processing the pair completes, the fan's `Temp` becomes the one `tempId` resolves to (none
when the chip or the channel is missing), `minPwm` becomes 0 when `tempId` resolves, and
`active` is kept. And on every registry whose chip 0 has `pwm1` and `temp1`, loading the
example text gives interval 5 and leaves `pwm1` with `temp1`, `maxTemp` 70, `minPwm` 0 and
every other field, `active` included, as before. -/
theorem fctemps_association (l : Loader) (pwmId tempId : QString) (c j : Nat) (f : PwmFan)
    (hp : '=' ∉ pwmId) (ht : '=' ∉ tempId)
    (hres : resolvePwm l.hwmons pwmId = some (c, j)) (hf : fanAt l.hwmons c j = some f) :
    (∃ l' f', fctempsToken l (pwmId ++ '=' :: tempId) = .ok l' ∧
      fanAt l'.hwmons c j = some f' ∧ f'.temp = resolveTemp l.hwmons tempId ∧
      ((resolveTemp l.hwmons tempId).isSome → f'.minPwm = 0) ∧ f'.active = f.active) ∧
    ∀ (l0 : Loader) (url : QString) (h : Hwmon) (rest : List Hwmon) (j0 : Nat) (f0 : PwmFan),
      l0.hwmons = h :: rest → h.pwmFan 1 = some j0 → h.pwmFans[j0]? = some f0 → 1 ∈ h.temps →
      ∃ l1, l0.open url (.opened exampleText) = .ok l1 ∧ l1.interval = 5 ∧
        fanAt l1.hwmons 0 j0
          = some { f0 with temp := some ⟨0, 1⟩, maxTemp := 70, minPwm := 0 } :=
  ⟨fctempsToken_pair l pwmId tempId c j f hp ht hres hf,
    fun l0 url h rest j0 f0 hh hj hf0 ht0 => open_exampleText l0 url h rest j0 f0 hh hj hf0 ht0⟩

/-- The pair `hwmon0/pwm1=hwmon0/temp1_input` and the example text on the sample document. -/
theorem fctemps_association_witness :
    '=' ∉ "hwmon0/pwm1".toList ∧ '=' ∉ "hwmon0/temp1_input".toList ∧
    resolvePwm sampleLoader.hwmons "hwmon0/pwm1".toList = some (0, 0) ∧
    fanAt sampleLoader.hwmons 0 0 = some samplePwm ∧
    resolveTemp sampleLoader.hwmons "hwmon0/temp1_input".toList = some ⟨0, 1⟩ ∧
    (∃ l' f', fctempsToken sampleLoader ("hwmon0/pwm1".toList ++ '=' :: "hwmon0/temp1_input".toList)
        = .ok l' ∧
      fanAt l'.hwmons 0 0 = some f' ∧
      f'.temp = resolveTemp sampleLoader.hwmons "hwmon0/temp1_input".toList ∧
      ((resolveTemp sampleLoader.hwmons "hwmon0/temp1_input".toList).isSome → f'.minPwm = 0) ∧
      f'.active = samplePwm.active) ∧
    ∃ l1, sampleLoader.open "/etc/fancontrol".toList (.opened exampleText) = .ok l1 ∧
      l1.interval = 5 ∧
      fanAt l1.hwmons 0 0
        = some { samplePwm with temp := some ⟨0, 1⟩, maxTemp := 70, minPwm := 0 } :=
  ⟨by decide, by decide, by decide, by decide, by decide,
    (fctemps_association sampleLoader "hwmon0/pwm1".toList "hwmon0/temp1_input".toList 0 0
      samplePwm (by decide) (by decide) (by decide) (by decide)).1,
    (fctemps_association sampleLoader "hwmon0/pwm1".toList "hwmon0/temp1_input".toList 0 0
      samplePwm (by decide) (by decide) (by decide) (by decide)).2
      sampleLoader "/etc/fancontrol".toList sampleChip [] 0 samplePwm rfl (by decide)
      (by decide) (by decide)⟩

/-- C6 as stated fails on three inputs. The payload `5=abc` is not a decimal integer, yet
`MINTEMP=hwmon0/pwm1=5=abc` sets `minTemp` to 5: the value is the text up to the next `=`.
The payload `5INTERVAL=` is not a decimal integer, yet `INTERVAL=5INTERVAL=` sets the
interval to 5: the key is removed wherever it occurs. The payload `4294967296` is a decimal
integer, yet `INTERVAL=4294967296` sets the interval to 0: the value does not fit an `int`. -/
theorem lenient_numbers_counterexample :
    isDecimalInteger "5=abc".toList = false ∧
    (sampleLoader.open "/etc/fancontrol".toList
        (.opened "MINTEMP=hwmon0/pwm1=5=abc\n".toList)).map
      (fun l => (fanAt l.hwmons 0 0).map (fun f => f.minTemp)) = .ok (some 5) ∧
    isDecimalInteger "5INTERVAL=".toList = false ∧
    (sampleLoader.open "/etc/fancontrol".toList (.opened "INTERVAL=5INTERVAL=\n".toList)).map
      (fun l => l.interval) = .ok 5 ∧
    isDecimalInteger "4294967296".toList = true ∧
    (sampleLoader.open "/etc/fancontrol".toList (.opened "INTERVAL=4294967296\n".toList)).map
      (fun l => l.interval) = .ok 0 := by
  decide

theorem thresholdToken_pair (d : Threshold) (l : Loader) (id payload : QString) (c j : Nat)
    (f : PwmFan) (hid : '=' ∉ id) (hpl : '=' ∉ payload)
    (hres : resolvePwm l.hwmons id = some (c, j)) (hf : fanAt l.hwmons c j = some f) :
    thresholdToken d l (id ++ '=' :: payload)
        = .ok (l.modifyFan (PwmFan.set d (toInt payload)) c j) ∧
      fanAt (l.modifyFan (PwmFan.set d (toInt payload)) c j).hwmons c j
        = some (f.set d (toInt payload)) := by
  constructor
  · rw [thresholdToken_resolved d l _ payload (c, j)]
    · rw [split_pair _ _ _ hid hpl]; rfl
    · rw [split_pair _ _ _ hid hpl]; exact hres
  · simp only [Loader.modifyFan, fanAt_modifyFan, hf, Option.map_some', and_self, if_true]

theorem processLine_interval (l : Loader) (payload : QString) :
    processLine l ("INTERVAL=".toList ++ payload)
      = .ok (l.setInterval (toInt (remove payload "INTERVAL=".toList))) := by
  unfold processLine
  have h1 : startsWith ("INTERVAL=".toList ++ payload) "INTERVAL=".toList = true :=
    List.isPrefixOf_iff_prefix.2 (List.prefix_append _ _)
  rw [if_pos h1, remove_key_append _ _ (by decide)]
  rfl

/-! ## Associations after a load -/

theorem namesFan_congr (hs hs' : List Hwmon) (h : channelsOf hs = channelsOf hs') (c j : Nat)
    (tok : QString) : namesFan hs c j tok = namesFan hs' c j tok := by
  unfold namesFan
  rw [resolvePwm_congr hs hs' h]

theorem pairTemp_congr (hs hs' : List Hwmon) (h : channelsOf hs = channelsOf hs')
    (tok : QString) : pairTemp hs tok = pairTemp hs' tok := by
  unfold pairTemp
  rw [resolveTemp_congr hs hs' h]

/-- One `FCTEMPS` pair keeps the channel indices and changes the `Temp` of the fan it
names, and of no other fan. -/
theorem fctempsToken_temps (l l' : Loader) (tok : QString)
    (h : fctempsToken l tok = .ok l') :
    channelsOf l'.hwmons = channelsOf l.hwmons ∧
    ∀ c j, (fanAt l'.hwmons c j).map (fun f => f.temp)
      = (fanAt l.hwmons c j).map
          (fun f => if namesFan l.hwmons c j tok then pairTemp l.hwmons tok else f.temp) := by
  rw [fctempsToken_eq] at h
  cases h1 : (split tok '=')[1]? with
  | none => rw [h1] at h; cases h
  | some temp =>
    rw [h1] at h
    simp only [Except.ok.injEq] at h
    have hpt : pairTemp l.hwmons tok = resolveTemp l.hwmons temp := by
      unfold pairTemp; rw [h1]; rfl
    cases hr : resolvePwm l.hwmons ((split tok '=').headD []) with
    | none =>
      rw [hr] at h
      subst h
      refine ⟨rfl, fun c j => ?_⟩
      have hn : namesFan l.hwmons c j tok = false := by unfold namesFan; rw [hr]; rfl
      simp [hn]
    | some cj =>
      rw [hr] at h
      have hn : ∀ c j, namesFan l.hwmons c j tok = decide (cj.1 = c ∧ cj.2 = j) := by
        intro c j
        unfold namesFan
        rw [hr]
        rcases cj with ⟨a, b⟩
        by_cases hab : a = c ∧ b = j
        · simp [hab]
        · simp only [hab, decide_False, beq_eq_false_iff_ne, ne_eq, Option.some.injEq,
            Prod.mk.injEq, not_false_eq_true]
      by_cases hchip : (listValue l.hwmons (getHwmonNumber temp)).isSome = true
      · dsimp only at h
        rw [if_pos hchip] at h
        subst h
        constructor
        · simp only [Loader.modifyFan]
          rw [channelsOf_set, channelsOf_setTemp]
        · intro c j
          simp only [Loader.modifyFan, fanAt_modifyFan, Option.map_map, hn, hpt]
          congr 1
          funext f
          by_cases hab : cj.1 = c ∧ cj.2 = j
          · simp [hab, PwmFan.set_temp, PwmFan.setTemp]
          · simp [hab]
      · dsimp only at h
        rw [if_neg hchip] at h
        subst h
        simp only [Bool.not_eq_true, Option.not_isSome, Option.isNone_iff_eq_none] at hchip
        have hnone : resolveTemp l.hwmons temp = none := by simp [resolveTemp, hchip]
        constructor
        · simp only [Loader.modifyFan]
          rw [channelsOf_setTemp]
        · intro c j
          simp only [Loader.modifyFan, fanAt_modifyFan, Option.map_map, hn, hpt, hnone]
          congr 1
          funext f
          by_cases hab : cj.1 = c ∧ cj.2 = j
          · simp [hab, PwmFan.setTemp]
          · simp [hab]

/-- One threshold pair keeps the channel indices and every `Temp`. -/
theorem thresholdToken_temps (d : Threshold) (l l' : Loader) (tok : QString)
    (h : thresholdToken d l tok = .ok l') :
    channelsOf l'.hwmons = channelsOf l.hwmons ∧
    ∀ c j, (fanAt l'.hwmons c j).map (fun f => f.temp)
      = (fanAt l.hwmons c j).map (fun f => f.temp) := by
  rw [thresholdToken_eq] at h
  cases h1 : (split tok '=')[1]? with
  | none => rw [h1] at h; cases h
  | some text =>
    rw [h1] at h
    cases h2 : listValue l.hwmons (getHwmonNumber ((split tok '=').headD [])) with
    | none => rw [h2] at h; cases h
    | some ph =>
      rw [h2] at h
      simp only [Except.ok.injEq] at h
      cases hr : resolvePwm l.hwmons ((split tok '=').headD []) with
      | none => rw [hr] at h; subst h; exact ⟨rfl, fun _ _ => rfl⟩
      | some cj =>
        rw [hr] at h
        subst h
        constructor
        · simp only [Loader.modifyFan]
          rw [channelsOf_set]
        · intro c j
          simp only [Loader.modifyFan, fanAt_modifyFan, Option.map_map]
          congr 1
          funext f
          by_cases hab : cj.1 = c ∧ cj.2 = j
          · simp [hab, PwmFan.set_temp]
          · simp [hab]

theorem assocStep_congr (hs hs' : List Hwmon) (h : channelsOf hs = channelsOf hs') (c j : Nat) :
    assocStep hs c j = assocStep hs' c j := by
  funext acc tok
  unfold assocStep
  rw [namesFan_congr hs hs' h, pairTemp_congr hs hs' h]

theorem fctempsToken_tempAt (l l' : Loader) (tok : QString)
    (h : fctempsToken l tok = .ok l') :
    channelsOf l'.hwmons = channelsOf l.hwmons ∧
    ∀ c j, tempAt l'.hwmons c j
      = (tempAt l.hwmons c j).map (fun t => assocStep l.hwmons c j t tok) := by
  obtain ⟨h1, h2⟩ := fctempsToken_temps l l' tok h
  refine ⟨h1, fun c j => ?_⟩
  unfold tempAt
  rw [h2 c j, Option.map_map]
  rfl

theorem foldlM_fctempsToken_tempAt (toks : List QString) :
    ∀ l l' : Loader, toks.foldlM fctempsToken l = .ok l' →
      channelsOf l'.hwmons = channelsOf l.hwmons ∧
      ∀ c j, tempAt l'.hwmons c j
        = (tempAt l.hwmons c j).map (fun t => toks.foldl (assocStep l.hwmons c j) t) := by
  induction toks with
  | nil =>
    intro l l' h
    simp only [List.foldlM_nil, pure, Except.pure, Except.ok.injEq] at h
    subst h
    exact ⟨rfl, fun c j => by simp⟩
  | cons tok toks ih =>
    intro l l' h
    rw [List.foldlM_cons] at h
    cases hs : fctempsToken l tok with
    | error e => rw [hs] at h; cases h
    | ok s =>
      rw [hs] at h
      obtain ⟨a1, a2⟩ := fctempsToken_tempAt l s tok hs
      obtain ⟨b1, b2⟩ := ih s l' h
      refine ⟨b1.trans a1, fun c j => ?_⟩
      rw [b2 c j, a2 c j, Option.map_map, assocStep_congr _ _ a1]
      rfl

theorem foldlM_thresholdToken_tempAt (d : Threshold) (toks : List QString) :
    ∀ l l' : Loader, toks.foldlM (thresholdToken d) l = .ok l' →
      channelsOf l'.hwmons = channelsOf l.hwmons ∧
      ∀ c j, tempAt l'.hwmons c j = tempAt l.hwmons c j := by
  induction toks with
  | nil =>
    intro l l' h
    simp only [List.foldlM_nil, pure, Except.pure, Except.ok.injEq] at h
    subst h
    exact ⟨rfl, fun _ _ => rfl⟩
  | cons tok toks ih =>
    intro l l' h
    rw [List.foldlM_cons] at h
    cases hs : thresholdToken d l tok with
    | error e => rw [hs] at h; cases h
    | ok s =>
      rw [hs] at h
      obtain ⟨a1, a2⟩ := thresholdToken_temps d l s tok hs
      obtain ⟨b1, b2⟩ := ih s l' h
      exact ⟨b1.trans a1, fun c j => (b2 c j).trans (a2 c j)⟩

theorem not_fctemps_of_interval (line : QString)
    (h : startsWith line "INTERVAL=".toList = true) :
    startsWith line "FCTEMPS=".toList = false := by
  cases line with
  | nil => rfl
  | cons c cs =>
    have hc : c = 'I' := by
      have := List.isPrefixOf_iff_prefix.1 h
      obtain ⟨t, ht⟩ := this
      exact ((List.cons.inj ht).1).symm
    subst hc
    rfl

theorem fctempsTokens_of_true (line : QString)
    (h : startsWith line "FCTEMPS=".toList = true) :
    fctempsTokens line = removeInFirst "FCTEMPS=".toList (split line ' ') := by
  unfold fctempsTokens
  rw [if_pos h]

theorem fctempsTokens_of_false (line : QString)
    (h : ¬ startsWith line "FCTEMPS=".toList = true) : fctempsTokens line = [] := by
  unfold fctempsTokens
  rw [if_neg h]

theorem map_foldl_nil (hs : List Hwmon) (c j : Nat) (x : Option (Option Temp)) :
    x.map (fun t => ([] : List QString).foldl (assocStep hs c j) t) = x := by
  cases x <;> rfl

/-- One logical line keeps the channel indices and changes associations by its `FCTEMPS`
pairs only. -/
theorem processLine_tempAt (l l' : Loader) (line : QString)
    (h : processLine l line = .ok l') :
    channelsOf l'.hwmons = channelsOf l.hwmons ∧
    ∀ c j, tempAt l'.hwmons c j
      = (tempAt l.hwmons c j).map
          (fun t => (fctempsTokens line).foldl (assocStep l.hwmons c j) t) := by
  unfold processLine at h
  split at h
  · rename_i hi
    simp only [pure, Except.pure, Except.ok.injEq] at h
    subst h
    refine ⟨rfl, fun c j => ?_⟩
    rw [fctempsTokens_of_false line (by rw [not_fctemps_of_interval line hi]; simp),
      map_foldl_nil]
    rfl
  · split at h
    · rename_i _ hf
      rw [fctempsTokens_of_true line hf]
      exact foldlM_fctempsToken_tempAt _ l l' h
    · rename_i _ hf
      have key : ∀ d, thresholdLine d l line = .ok l' →
          channelsOf l'.hwmons = channelsOf l.hwmons ∧
          ∀ c j, tempAt l'.hwmons c j
            = (tempAt l.hwmons c j).map
                (fun t => (fctempsTokens line).foldl (assocStep l.hwmons c j) t) := by
        intro d hd
        obtain ⟨a1, a2⟩ := foldlM_thresholdToken_tempAt d _ l l' hd
        refine ⟨a1, fun c j => ?_⟩
        rw [fctempsTokens_of_false line hf, map_foldl_nil]
        exact a2 c j
      split at h
      · exact key _ h
      · split at h
        · exact key _ h
        · split at h
          · exact key _ h
          · split at h
            · exact key _ h
            · split at h
              · exact key _ h
              · split at h
                · exact key _ h
                · simp only [pure, Except.pure, Except.ok.injEq] at h
                  subst h
                  refine ⟨rfl, fun c j => ?_⟩
                  rw [fctempsTokens_of_false line hf, map_foldl_nil]

theorem foldlM_processLine_tempAt (lines : List QString) :
    ∀ l l' : Loader, lines.foldlM processLine l = .ok l' →
      channelsOf l'.hwmons = channelsOf l.hwmons ∧
      ∀ c j, tempAt l'.hwmons c j
        = (tempAt l.hwmons c j).map
            (fun t => (lines.flatMap fctempsTokens).foldl (assocStep l.hwmons c j) t) := by
  induction lines with
  | nil =>
    intro l l' h
    simp only [List.foldlM_nil, pure, Except.pure, Except.ok.injEq] at h
    subst h
    exact ⟨rfl, fun c j => by simp⟩
  | cons line lines ih =>
    intro l l' h
    rw [List.foldlM_cons] at h
    cases hs : processLine l line with
    | error e => rw [hs] at h; cases h
    | ok s =>
      rw [hs] at h
      obtain ⟨a1, a2⟩ := processLine_tempAt l s line hs
      obtain ⟨b1, b2⟩ := ih s l' h
      refine ⟨b1.trans a1, fun c j => ?_⟩
      rw [b2 c j, a2 c j, Option.map_map, assocStep_congr _ _ a1, List.flatMap_cons,
        ]
      congr 1
      funext t
      simp only [Function.comp, List.foldl_append]

theorem assocAfter_of_no_pair (hs : List Hwmon) (c j : Nat) (toks : List QString)
    (h : ∀ tok ∈ toks, namesFan hs c j tok = false) : assocAfter hs c j toks = none := by
  unfold assocAfter
  have : ∀ acc, toks.foldl (assocStep hs c j) acc = acc := by
    induction toks with
    | nil => intro acc; rfl
    | cons tok toks ih =>
      intro acc
      rw [List.foldl_cons, ih (fun t ht => h t (List.mem_cons_of_mem _ ht))]
      simp [assocStep, h tok (List.mem_cons_self _ _)]
  exact this none

/-- The associations after the part of `open` that follows the reading of the file. -/
theorem parse_tempAt (l l' : Loader) (url text : QString) (h : l.parse url text = .ok l')
    (c j : Nat) :
    tempAt l'.hwmons c j
      = (tempAt l.hwmons c j).map (fun _ => assocAfter l.hwmons c j (fctempsPairs text)) := by
  unfold Loader.parse at h
  obtain ⟨a1, a2⟩ := foldlM_processLine_tempAt _ _ l' h
  rw [a2 c j]
  simp only [tempAt, fanAt_resetAll, Option.map_map]
  rw [assocStep_congr _ _ (channelsOf_resetAll l.hwmons)]
  rfl

/-- Associations after a load that completes. When `open` gets a text (directly, through
the helper, or the empty text of a missing file) and completes, the `Temp` of every fan is
the one made by the last `FCTEMPS` pair of the text that names the fan; a fan that no `FCTEMPS` pair of
the text names has no `Temp`, whatever it had before the load. -/
theorem association_reset_on_load (l l' : Loader) (url : QString) (io : FileAccess)
    (hio : ∀ msg, io ≠ .helperFailed msg) (hload : l.open url io = .ok l')
    (c j : Nat) (f' : PwmFan) (hf : fanAt l'.hwmons c j = some f') :
    f'.temp = assocAfter l.hwmons c j (fctempsPairs io.content) ∧
    ((∀ tok ∈ fctempsPairs io.content, namesFan l.hwmons c j tok = false) →
      f'.temp = none) := by
  have key : tempAt l'.hwmons c j
      = (tempAt l.hwmons c j).map
          (fun _ => assocAfter l.hwmons c j (fctempsPairs io.content)) := by
    cases io with
    | opened t => exact parse_tempAt _ l' url t hload c j
    | viaHelper t => exact parse_tempAt _ l' url t hload c j
    | helperFailed msg => exact absurd rfl (hio msg)
    | absent => exact parse_tempAt _ l' url [] hload c j
  have h1 : f'.temp = assocAfter l.hwmons c j (fctempsPairs io.content) := by
    unfold tempAt at key
    rw [hf] at key
    cases hfan : fanAt l.hwmons c j with
    | none => rw [hfan] at key; cases key
    | some f =>
      rw [hfan] at key
      exact Option.some.inj key
  exact ⟨h1, fun hno => h1.trans (assocAfter_of_no_pair _ _ _ _ hno)⟩

/-- Loading `INTERVAL=5` into the sample document whose `pwm1` had `temp1`: the fan has no `Temp` afterwards. -/
theorem association_reset_on_load_witness :
    (∀ msg, FileAccess.opened "INTERVAL=5\n".toList ≠ .helperFailed msg) ∧
    fanAt sampleUsed.hwmons 0 0 = some { samplePwm with temp := some ⟨0, 1⟩ } ∧
    sampleUsed.open "/etc/fancontrol".toList (.opened "INTERVAL=5\n".toList)
      = .ok sampleReloaded ∧
    fanAt sampleReloaded.hwmons 0 0 = some samplePwm ∧
    samplePwm.temp
      = assocAfter sampleUsed.hwmons 0 0
          (fctempsPairs (FileAccess.opened "INTERVAL=5\n".toList).content) ∧
    ((∀ tok ∈ fctempsPairs (FileAccess.opened "INTERVAL=5\n".toList).content,
        namesFan sampleUsed.hwmons 0 0 tok = false) → samplePwm.temp = none) :=
  ⟨(fun _ h => nomatch h), by decide, by decide, by decide,
    (association_reset_on_load sampleUsed sampleReloaded "/etc/fancontrol".toList
      (.opened "INTERVAL=5\n".toList) (fun _ h => nomatch h) (by decide) 0 0 samplePwm
      (by decide)).1,
    (association_reset_on_load sampleUsed sampleReloaded "/etc/fancontrol".toList
      (.opened "INTERVAL=5\n".toList) (fun _ h => nomatch h) (by decide) 0 0 samplePwm
      (by decide)).2⟩

/-! ## The identifier scheme, read back -/

theorem afterLiteral_append (p s : QString) : afterLiteral p (p ++ s) = some s := by
  unfold afterLiteral
  rw [if_pos (List.isPrefixOf_iff_prefix.2 (List.prefix_append p s)), List.drop_left]

theorem beforeLiteral_append (q s : QString) : beforeLiteral q (s ++ q) = some s := by
  unfold beforeLiteral
  rw [if_pos (List.isSuffixOf_iff_suffix.2 (List.suffix_append s q))]
  simp

theorem split_slash (a rest : QString) (ha : '/' ∉ a) :
    split (a ++ '/' :: rest) '/' = a :: split rest '/' := by
  unfold split
  exact splitBy_append_sep _ _ _ '/' (by decide)
    (fun x hx => by simp only [beq_eq_false_iff_ne, ne_eq]; rintro rfl; exact ha hx)

theorem slash_not_mem_hwmon (c : Nat) : '/' ∉ "hwmon".toList ++ Nat.toDigits 10 c := by
  simp only [List.mem_append, not_or]
  exact ⟨by decide, slash_not_mem_toDigits c⟩

theorem getHwmonNumber_scheme (c : Nat) (rest : QString) :
    getHwmonNumber (("hwmon".toList ++ Nat.toDigits 10 c) ++ '/' :: rest) = (c : Int) := by
  unfold getHwmonNumber
  rw [split_slash _ _ (slash_not_mem_hwmon c)]
  simp only [List.head?_cons, afterLiteral_append, Option.some_bind, (toDigits_spec c).2.2]

theorem getSensorNumber_pwm (c m : Nat) :
    getSensorNumber (("hwmon".toList ++ Nat.toDigits 10 c) ++ '/' ::
      ("pwm".toList ++ Nat.toDigits 10 m)) = (m : Int) := by
  unfold getSensorNumber
  rw [split_slash _ _ (slash_not_mem_hwmon c)]
  have h1 : split ("pwm".toList ++ Nat.toDigits 10 m) '/' = ["pwm".toList ++ Nat.toDigits 10 m] := by
    unfold split
    apply splitBy_no_sep
    intro x hx
    simp only [beq_eq_false_iff_ne, ne_eq]
    rintro rfl
    rcases List.mem_append.1 hx with hx | hx
    · exact absurd hx (by decide)
    · exact slash_not_mem_toDigits m hx
  rw [h1]
  simp only [List.getElem?_cons_succ, List.getElem?_cons_zero, afterLiteral_append,
    Option.some_bind, (toDigits_spec m).2.2]

theorem getSensorNumber_temp (c k : Nat) :
    getSensorNumber (("hwmon".toList ++ Nat.toDigits 10 c) ++ '/' ::
      (("temp".toList ++ Nat.toDigits 10 k) ++ "_input".toList)) = (k : Int) := by
  unfold getSensorNumber
  rw [split_slash _ _ (slash_not_mem_hwmon c)]
  have h1 : split (("temp".toList ++ Nat.toDigits 10 k) ++ "_input".toList) '/'
      = [("temp".toList ++ Nat.toDigits 10 k) ++ "_input".toList] := by
    unfold split
    apply splitBy_no_sep
    intro x hx
    simp only [beq_eq_false_iff_ne, ne_eq]
    rintro rfl
    rcases List.mem_append.1 hx with hx | hx
    · rcases List.mem_append.1 hx with hx | hx
      · exact absurd hx (by decide)
      · exact slash_not_mem_toDigits k hx
    · exact absurd hx (by decide)
  have h2 : afterLiteral "pwm".toList (("temp".toList ++ Nat.toDigits 10 k) ++ "_input".toList)
      = none := by
    unfold afterLiteral
    rw [if_neg]
    simp [List.isPrefixOf]
  rw [h1]
  simp only [List.getElem?_cons_succ, List.getElem?_cons_zero, h2, Option.none_bind]
  rw [List.append_assoc, afterLiteral_append]
  simp only [Option.some_bind, beforeLiteral_append, (toDigits_spec k).2.2]

theorem findFan_of_nodup (fans : List PwmFan) (hn : (fans.map (fun f => f.index)).Nodup) :
    ∀ (j : Nat) (f : PwmFan), fans[j]? = some f → findFan (f.index : Int) fans = some j := by
  induction fans with
  | nil => intro j f h; simp at h
  | cons g gs ih =>
    intro j f h
    rw [List.map_cons, List.nodup_cons] at hn
    cases j with
    | zero =>
      simp only [List.getElem?_cons_zero, Option.some.injEq] at h
      subst h
      simp [findFan]
    | succ j =>
      simp only [List.getElem?_cons_succ] at h
      have hne : g.index ≠ f.index := by
        intro he
        apply hn.1
        rw [he]
        exact List.mem_map.2 ⟨f, List.getElem?_mem h, rfl⟩
      unfold findFan
      rw [if_neg (by exact_mod_cast hne), ih hn.2 j f h]
      rfl

theorem fanId_eq (c : Nat) (fan : PwmFan) :
    fanId c fan = ("hwmon".toList ++ Nat.toDigits 10 c) ++ '/' ::
      ("pwm".toList ++ Nat.toDigits 10 fan.index) := by
  unfold fanId hwmonIndex
  rw [number_natCast, number_natCast]
  simp only [List.append_assoc]
  rfl

theorem tempId_eq (t : Temp) :
    tempId t = ("hwmon".toList ++ Nat.toDigits 10 t.parent) ++ '/' ::
      (("temp".toList ++ Nat.toDigits 10 t.index) ++ "_input".toList) := by
  unfold tempId hwmonIndex
  rw [number_natCast, number_natCast]
  simp only [List.append_assoc]
  rfl

theorem listValue_natCast {α : Type} (l : List α) (c : Nat) : listValue l (c : Int) = l[c]? := by
  unfold listValue
  simp

/-- The identifier written for a fan resolves to the fan. -/
theorem resolvePwm_fanId (hs : List Hwmon) (c j : Nat) (h : Hwmon) (f : PwmFan)
    (hh : hs[c]? = some h) (hn : (h.pwmFans.map (fun f => f.index)).Nodup)
    (hf : h.pwmFans[j]? = some f) : resolvePwm hs (fanId c f) = some (c, j) := by
  unfold resolvePwm Hwmon.pwmFan
  rw [fanId_eq, getHwmonNumber_scheme, getSensorNumber_pwm, listValue_natCast, hh]
  simp only [Option.some_bind, findFan_of_nodup _ hn j f hf, Option.map_some', Int.toNat_ofNat]

/-- The identifier written for a `Temp` resolves to the `Temp` when the registry has it. -/
theorem resolveTemp_tempId (hs : List Hwmon) (t : Temp) (h : Hwmon)
    (hh : hs[t.parent]? = some h) (ht : t.index ∈ h.temps) :
    resolveTemp hs (tempId t) = some t := by
  unfold resolveTemp Hwmon.temp
  rw [tempId_eq, getHwmonNumber_scheme, getSensorNumber_temp, listValue_natCast, hh]
  simp [ht]

/-! ## Cleaning the produced lines -/

theorem intercalate_cons_cons (sep w w' : QString) (ws : List QString) :
    sep.intercalate (w :: w' :: ws) = w ++ sep ++ sep.intercalate (w' :: ws) := by
  simp [List.intercalate, List.intersperse]

theorem intercalate_single (sep w : QString) : sep.intercalate [w] = w := by
  simp [List.intercalate, List.intersperse]

/-- A text of blank-free words, each followed by one space, simplifies to the words joined
by single spaces. -/
theorem simplified_words (words : List QString)
    (h : ∀ w ∈ words, w ≠ [] ∧ ∀ c ∈ w, isSpace c = false) :
    simplified (words.flatMap (fun w => w ++ [' '])) = [' '].intercalate words := by
  unfold simplified
  have hs := splitBy_tokens isSpace ' ' (by decide) (fun w : QString => w) words
    (fun w hw c hc => (h w hw).2 c hc)
  rw [hs, List.map_id', List.filter_append]
  have hf : words.filter (fun w => !w.isEmpty) = words := by
    rw [List.filter_eq_self]
    intro w hw
    have := (h w hw).1
    cases w with
    | nil => exact absurd rfl this
    | cons _ _ => rfl
  rw [hf]
  simp

theorem simplified_single (w : QString) (h : ∀ c ∈ w, isSpace c = false) :
    simplified w = w := by
  unfold simplified
  rw [splitBy_no_sep isSpace w h]
  cases w with
  | nil => rfl
  | cons c cs => simp [List.intercalate, List.intersperse]

theorem split_intercalate (words : List QString) (hne : words ≠ [])
    (h : ∀ w ∈ words, ' ' ∉ w) : split ([' '].intercalate words) ' ' = words := by
  induction words with
  | nil => exact absurd rfl hne
  | cons w ws ih =>
    have hw : ∀ x ∈ w, (x == ' ') = false := by
      intro x hx
      simp only [beq_eq_false_iff_ne, ne_eq]
      rintro rfl
      exact h w (List.mem_cons_self _ _) hx
    cases ws with
    | nil =>
      rw [intercalate_single]
      unfold split
      exact splitBy_no_sep _ _ hw
    | cons w' ws' =>
      rw [intercalate_cons_cons]
      unfold split at ih ⊢
      rw [List.append_assoc, List.singleton_append,
        splitBy_append_sep _ _ _ ' ' (by decide) hw,
        ih (by simp) (fun x hx => h x (List.mem_cons_of_mem _ hx))]

theorem simplified_cons (c : Char) (s : QString) (hc : isSpace c = false) :
    ∃ z, simplified (c :: s) = c :: z := by
  unfold simplified
  cases hsp : splitBy isSpace s with
  | nil => exact absurd hsp (splitBy_ne_nil _ _)
  | cons w ws =>
    have : splitBy isSpace (c :: s) = (c :: w) :: ws := by
      simp [splitBy, hc, hsp]
    rw [this]
    simp only [List.filter_cons, List.isEmpty_cons, Bool.not_false, if_true]
    cases hfl : ws.filter (fun w => !w.isEmpty) with
    | nil => exact ⟨w, by simp [List.intercalate, List.intersperse]⟩
    | cons v vs =>
      exact ⟨w ++ [' '] ++ [' '].intercalate (v :: vs), by
        rw [intercalate_cons_cons]; simp⟩

theorem indexOf_of_not_mem (s : QString) (c : Char) (h : c ∉ s) : indexOf s c = -1 := by
  unfold indexOf
  rw [if_neg]
  rw [List.indexOf_eq_length.2 h]
  exact lt_irrefl _

theorem cleanLine_of_no_hash (line : QString) (h : '#' ∉ line) :
    cleanLine line = some (simplified line) := by
  unfold cleanLine
  have h1 : startsWith line ['#'] = false := by
    cases line with
    | nil => rfl
    | cons c cs =>
      have hc : c ≠ '#' := fun e => h (e ▸ List.mem_cons_self _ _)
      simp [startsWith, List.isPrefixOf, Ne.symm hc]
  rw [h1, indexOf_of_not_mem line '#' h]
  simp

/-- A line that starts with `DE` is cleaned to a line that starts with `D`. -/
theorem cleanLine_DE (rest : QString) :
    ∃ z, cleanLine ('D' :: 'E' :: rest) = some ('D' :: z) := by
  unfold cleanLine
  have h1 : startsWith ('D' :: 'E' :: rest) ['#'] = false := by
    simp [startsWith, List.isPrefixOf]
  rw [h1]
  simp only [Bool.false_eq_true, if_false]
  by_cases hoff : indexOf ('D' :: 'E' :: rest) '#' = -1
  · rw [if_neg (by simpa using hoff)]
    obtain ⟨z, hz⟩ := simplified_cons 'D' ('E' :: rest) (by decide)
    exact ⟨z, by rw [hz]⟩
  · rw [if_pos hoff]
    have hge : 2 ≤ indexOf ('D' :: 'E' :: rest) '#' := by
      unfold indexOf at hoff ⊢
      split at hoff
      · rename_i hlt
        rw [if_pos hlt]
        have : List.indexOf '#' ('D' :: 'E' :: rest) = List.indexOf '#' rest + 2 := by
          rw [List.indexOf_cons_ne _ (by decide), List.indexOf_cons_ne _ (by decide)]
        rw [this]
        push_cast
        omega
      · exact absurd rfl hoff
    obtain ⟨n, hn⟩ : ∃ n : Nat, indexOf ('D' :: 'E' :: rest) '#' - 1 = ((n + 1 : Nat) : Int) :=
      ⟨(indexOf ('D' :: 'E' :: rest) '#' - 2).toNat, by push_cast; omega⟩
    rw [hn]
    unfold truncate
    rw [if_neg (by omega)]
    simp only [Int.toNat_ofNat, List.take_succ_cons]
    obtain ⟨z, hz⟩ := simplified_cons 'D' (List.take n ('E' :: rest)) (by decide)
    exact ⟨z, by rw [hz]⟩

theorem processLine_D (l : Loader) (z : QString) : processLine l ('D' :: z) = .ok l := by
  unfold processLine
  simp [startsWith, List.isPrefixOf, pure, Except.pure]

theorem processLine_FCF (l : Loader) (z : QString) :
    processLine l ('F' :: 'C' :: 'F' :: z) = .ok l := by
  unfold processLine
  simp [startsWith, List.isPrefixOf, pure, Except.pure]

/-! ## The tokens read from a produced line -/

theorem wordChar_props (c : Char) (h : wordChar c = true) :
    isSpace c = false ∧ c ≠ ' ' ∧ c ≠ '#' ∧ c ≠ 'F' ∧ c ≠ 'M' := by
  unfold wordChar at h
  rcases Bool.or_eq_true _ _ ▸ h with hd | ha
  · refine ⟨isSpace_of_digit c hd, ?_, ?_, ?_, ?_⟩ <;>
      (rintro rfl; exact absurd hd (by decide))
  · have hm : c ∈ "hwmon/pwm=temp_input-fan".toList := by simpa using ha
    have key : ∀ x ∈ "hwmon/pwm=temp_input-fan".toList,
        isSpace x = false ∧ x ≠ ' ' ∧ x ≠ '#' ∧ x ≠ 'F' ∧ x ≠ 'M' := by decide
    exact key c hm

theorem wordChar_number (n : Int) : ∀ c ∈ number n, wordChar c = true := by
  intro c hc
  unfold wordChar
  unfold number at hc
  split at hc
  · rcases List.mem_cons.1 hc with hc | hc
    · subst hc; decide
    · rw [(toDigits_spec _).2.1 c hc]; rfl
  · rw [(toDigits_spec _).2.1 c hc]; rfl

theorem wordChar_of_mem_alphabet (c : Char)
    (h : c ∈ "hwmon/pwm=temp_input-fan".toList) : wordChar c = true := by
  unfold wordChar
  rw [Bool.or_eq_true]
  right
  simpa using h

theorem wordChar_fanId (c : Nat) (fan : PwmFan) : ∀ x ∈ fanId c fan, wordChar x = true := by
  intro x hx
  simp only [fanId, List.mem_append] at hx
  rcases hx with (((hx | hx) | hx) | hx) | hx
  · exact wordChar_of_mem_alphabet x
      ((by decide : ∀ y ∈ "hwmon".toList, y ∈ "hwmon/pwm=temp_input-fan".toList) x hx)
  · exact wordChar_number _ x hx
  · exact wordChar_of_mem_alphabet x
      ((by decide : ∀ y ∈ "/".toList, y ∈ "hwmon/pwm=temp_input-fan".toList) x hx)
  · exact wordChar_of_mem_alphabet x
      ((by decide : ∀ y ∈ "pwm".toList, y ∈ "hwmon/pwm=temp_input-fan".toList) x hx)
  · exact wordChar_number _ x hx

theorem wordChar_tempId (t : Temp) : ∀ x ∈ tempId t, wordChar x = true := by
  intro x hx
  simp only [tempId, List.mem_append] at hx
  rcases hx with ((((hx | hx) | hx) | hx) | hx) | hx
  · exact wordChar_of_mem_alphabet x
      ((by decide : ∀ y ∈ "hwmon".toList, y ∈ "hwmon/pwm=temp_input-fan".toList) x hx)
  · exact wordChar_number _ x hx
  · exact wordChar_of_mem_alphabet x
      ((by decide : ∀ y ∈ "/".toList, y ∈ "hwmon/pwm=temp_input-fan".toList) x hx)
  · exact wordChar_of_mem_alphabet x
      ((by decide : ∀ y ∈ "temp".toList, y ∈ "hwmon/pwm=temp_input-fan".toList) x hx)
  · exact wordChar_number _ x hx
  · exact wordChar_of_mem_alphabet x
      ((by decide : ∀ y ∈ "_input".toList, y ∈ "hwmon/pwm=temp_input-fan".toList) x hx)

theorem wordChar_thresholdBody (d : Threshold) (cf : Nat × PwmFan) :
    ∀ x ∈ thresholdBody d cf, wordChar x = true := by
  intro x hx
  simp only [thresholdBody, List.mem_append, List.mem_cons] at hx
  rcases hx with hx | hx | hx
  · exact wordChar_fanId _ _ x hx
  · subst hx; decide
  · exact wordChar_number _ x hx

theorem wordChar_fctempsBody (cf : Nat × PwmFan) :
    ∀ x ∈ fctempsBody cf, wordChar x = true := by
  intro x hx
  unfold fctempsBody at hx
  cases ht : cf.2.temp with
  | none => rw [ht] at hx; simp at hx
  | some t =>
    rw [ht] at hx
    simp only [List.mem_append, List.mem_cons] at hx
    rcases hx with hx | hx | hx
    · exact wordChar_fanId _ _ x hx
    · subst hx; decide
    · exact wordChar_tempId _ x hx

/-- The tokens `open` gets from a produced per-fan line with at least one token: the line
is cleaned to a line that starts with the key, and the split with the key removed gives the
tokens without their closing spaces. -/
theorem tokens_of_line (key : QString) (k : Char) (ks : QString) (hkey : key = k :: ks)
    (hk : ∀ c ∈ key, isSpace c = false ∧ c ≠ ' ' ∧ c ≠ '#')
    (hhead : ∀ c, wordChar c = true → c ≠ k)
    (body : Nat × PwmFan → QString) (cf : Nat × PwmFan) (rest : List (Nat × PwmFan))
    (hbody : ∀ x ∈ cf :: rest, body x ≠ [] ∧ ∀ c ∈ body x, wordChar c = true) :
    ∃ y, cleanLine (key ++ (cf :: rest).flatMap (fun x => body x ++ [' '])) = some (key ++ y) ∧
      removeInFirst key (split (key ++ y) ' ') = (cf :: rest).map body := by
  have hwords : key ++ (cf :: rest).flatMap (fun x => body x ++ [' '])
      = ((key ++ body cf) :: rest.map body).flatMap (fun w => w ++ [' ']) := by
    simp only [List.flatMap_cons, List.append_assoc, List.flatMap_map]
  have hclean : ∀ w ∈ (key ++ body cf) :: rest.map body,
      w ≠ [] ∧ (∀ c ∈ w, isSpace c = false) ∧ ' ' ∉ w ∧ '#' ∉ w := by
    intro w hw
    rcases List.mem_cons.1 hw with hw | hw
    · subst hw
      refine ⟨by rw [hkey]; simp, ?_, ?_, ?_⟩
      · intro c hc
        rcases List.mem_append.1 hc with hc | hc
        · exact (hk c hc).1
        · exact (wordChar_props c ((hbody cf (List.mem_cons_self _ _)).2 c hc)).1
      · intro hc
        rcases List.mem_append.1 hc with hc | hc
        · exact (hk _ hc).2.1 rfl
        · exact (wordChar_props _ ((hbody cf (List.mem_cons_self _ _)).2 _ hc)).2.1 rfl
      · intro hc
        rcases List.mem_append.1 hc with hc | hc
        · exact (hk _ hc).2.2 rfl
        · exact (wordChar_props _ ((hbody cf (List.mem_cons_self _ _)).2 _ hc)).2.2.1 rfl
    · obtain ⟨x, hx, rfl⟩ := List.mem_map.1 hw
      have hb := hbody x (List.mem_cons_of_mem _ hx)
      exact ⟨hb.1, fun c hc => (wordChar_props c (hb.2 c hc)).1,
        fun hc => (wordChar_props _ (hb.2 _ hc)).2.1 rfl,
        fun hc => (wordChar_props _ (hb.2 _ hc)).2.2.1 rfl⟩
  have hnohash : '#' ∉ ((key ++ body cf) :: rest.map body).flatMap (fun w => w ++ [' ']) := by
    simp only [List.mem_flatMap, List.mem_append, List.mem_singleton, not_exists, not_and,
      not_or]
    intro w hw
    exact ⟨(hclean w hw).2.2.2, by decide⟩
  obtain ⟨y, hjoin⟩ : ∃ y, [' '].intercalate ((key ++ body cf) :: rest.map body) = key ++ y := by
    cases rest.map body with
    | nil => exact ⟨body cf, by rw [intercalate_single]⟩
    | cons w ws =>
      exact ⟨body cf ++ ([' '] ++ [' '].intercalate (w :: ws)), by
        rw [intercalate_cons_cons]; simp⟩
  refine ⟨y, ?_, ?_⟩
  · rw [hwords, cleanLine_of_no_hash _ hnohash,
      simplified_words _ (fun w hw => ⟨(hclean w hw).1, (hclean w hw).2.1⟩), hjoin]
  · rw [← hjoin, split_intercalate _ (by simp) (fun w hw => (hclean w hw).2.2.1)]
    unfold removeInFirst
    simp only [List.map_cons, List.cons.injEq, and_true]
    rw [remove_key_append _ _ (by rw [hkey]; simp)]
    apply removeAux_of_not_infix
    intro hin
    have hmem : k ∈ body cf := hin.subset (by rw [hkey]; exact List.mem_cons_self _ _)
    exact hhead k ((hbody cf (List.mem_cons_self _ _)).2 k hmem) rfl

/-! ## Running the token loop over the used fans -/

theorem fanAt_pointer_inj (hs : List Hwmon) (hd : DistinctFans hs) (c j j' : Nat) (f : PwmFan)
    (h1 : fanAt hs c j = some f) (h2 : fanAt hs c j' = some f) : j = j' := by
  unfold fanAt at h1 h2
  cases hh : hs[c]? with
  | none => rw [hh] at h1; cases h1
  | some h =>
    rw [hh] at h1 h2
    have hn := hd h (List.getElem?_mem hh)
    have a := findFan_of_nodup _ hn j f h1
    have b := findFan_of_nodup _ hn j' f h2
    rw [a] at b
    exact Option.some.inj b

/-- The token loop of one line over a list of used fans: every token calls the setter `U f`
on the fan it names, so in the end each listed fan has gone through `U f` once and every
other fan is as before. -/
theorem foldlM_used (hs0 : List Hwmon) (hd : DistinctFans hs0)
    (handler : Loader → QString → Except Fault Loader) (text : Nat × PwmFan → QString)
    (U : PwmFan → PwmFan → PwmFan) (hU : ∀ f cur, (U f cur).index = cur.index)
    (hstep : ∀ (s : Loader) (c j : Nat) (f : PwmFan),
      channelsOf s.hwmons = channelsOf hs0 → fanAt hs0 c j = some f → f.used = true →
      handler s (text (c, f)) = .ok (s.modifyFan (U f) c j))
    (ufs : List (Nat × PwmFan)) :
    (∀ cf ∈ ufs, cf.2.used = true ∧ ∃ j, fanAt hs0 cf.1 j = some cf.2) → ufs.Nodup →
    ∀ s : Loader, channelsOf s.hwmons = channelsOf hs0 →
      ∃ s', (ufs.map text).foldlM handler s = .ok s' ∧ s'.interval = s.interval ∧
        channelsOf s'.hwmons = channelsOf hs0 ∧
        ∀ c j f0, fanAt hs0 c j = some f0 →
          fanAt s'.hwmons c j
            = (fanAt s.hwmons c j).map (fun cur => if (c, f0) ∈ ufs then U f0 cur else cur) := by
  induction ufs with
  | nil =>
    intro _ _ s hs
    exact ⟨s, rfl, rfl, hs, fun c j f0 _ => by simp⟩
  | cons cf rest ih =>
    intro hmem hnd s hs
    obtain ⟨hu, j0, hj0⟩ := hmem cf (List.mem_cons_self _ _)
    have hfirst := hstep s cf.1 j0 cf.2 hs hj0 hu
    have hs1 : channelsOf (s.modifyFan (U cf.2) cf.1 j0).hwmons = channelsOf hs0 := by
      simp only [Loader.modifyFan]
      rw [channelsOf_modifyFan _ (hU cf.2), hs]
    obtain ⟨s', h1, h2, h3, h4⟩ :=
      ih (fun x hx => hmem x (List.mem_cons_of_mem _ hx)) (List.nodup_cons.1 hnd).2 _ hs1
    refine ⟨s', ?_, h2, h3, ?_⟩
    · rw [List.map_cons, List.foldlM_cons, hfirst]
      exact h1
    · intro c j f0 hf0
      rw [h4 c j f0 hf0]
      simp only [Loader.modifyFan, fanAt_modifyFan, Option.map_map]
      congr 1
      funext cur
      simp only [Function.comp]
      by_cases hp : cf.1 = c ∧ j0 = j
      · obtain ⟨hc, hj⟩ := hp
        subst hc hj
        rw [hj0] at hf0
        have e : cf.2 = f0 := Option.some.inj hf0
        have hcf : (cf.1, f0) = cf := Prod.ext rfl e.symm
        have hnot : (cf.1, f0) ∉ rest := hcf ▸ (List.nodup_cons.1 hnd).1
        rw [if_neg hnot, if_pos ⟨rfl, rfl⟩, if_pos (hcf ▸ List.mem_cons_self _ _), e]
      · have hne : (c, f0) ≠ cf := by
          intro he
          apply hp
          subst he
          exact ⟨rfl, fanAt_pointer_inj hs0 hd _ _ _ _ hj0 hf0⟩
        simp only [hp, if_false, List.mem_cons, hne, false_or, and_self]

theorem foldlM_cons_ok {α β : Type} (f : β → α → Except Fault β) (b b' : β) (a : α)
    (as : List α) (h : f b a = .ok b') : (a :: as).foldlM f b = as.foldlM f b' := by
  rw [List.foldlM_cons, h]
  rfl

theorem eq_not_mem_tempId (t : Temp) : '=' ∉ tempId t := by
  have h1 := not_mem_number (hwmonIndex t.parent) '=' (by decide) (by decide)
  have h2 := not_mem_number (t.index : Int) '=' (by decide) (by decide)
  simp only [tempId, List.mem_append, not_or]
  exact ⟨⟨⟨⟨⟨by decide, h1⟩, by decide⟩, by decide⟩, h2⟩, by decide⟩

theorem modifyFan_modifyFan (g1 g2 : PwmFan → PwmFan) (c j : Nat) (hs : List Hwmon) :
    modifyFan g2 c j (modifyFan g1 c j hs) = modifyFan (g2 ∘ g1) c j hs := by
  unfold modifyFan
  rw [List.modify_modify_eq]
  congr 1
  funext h
  simp only [Function.comp, List.modify_modify_eq]

theorem listValue_isSome_congr (hs hs' : List Hwmon) (h : channelsOf hs = channelsOf hs')
    (i : Int) : (listValue hs i).isSome = (listValue hs' i).isSome := by
  have h1 := listValue_channelsOf hs i
  rw [h, listValue_channelsOf] at h1
  cases ha : listValue hs i <;> cases hb : listValue hs' i <;> simp [ha, hb] at h1 ⊢

/-- The `FCTEMPS` token written for a used fan sets the `Temp` of that fan and resets its
`minPwm`. -/
theorem fctempsToken_written (hs0 : List Hwmon) (hd : DistinctFans hs0) (s : Loader)
    (c j : Nat) (f : PwmFan) (t : Temp) (h : Hwmon) (hs : channelsOf s.hwmons = channelsOf hs0)
    (hf : fanAt hs0 c j = some f) (ht : f.temp = some t) (hh : hs0[t.parent]? = some h)
    (hk : t.index ∈ h.temps) :
    fctempsToken s (fctempsBody (c, f))
      = .ok (s.modifyFan (fun cur => (cur.setTemp f.temp).set .minPwm 0) c j) := by
  have hbody : fctempsBody (c, f) = fanId c f ++ '=' :: tempId t := by
    simp only [fctempsBody, ht]
  have hsp := split_pair (fanId c f) (tempId t) '=' (eq_not_mem_fanId c f) (eq_not_mem_tempId t)
  obtain ⟨hc, hfj⟩ : ∃ hc, hs0[c]? = some hc ∧ hc.pwmFans[j]? = some f := by
    unfold fanAt at hf
    cases hq : hs0[c]? with
    | none => rw [hq] at hf; cases hf
    | some hc => rw [hq] at hf; exact ⟨hc, rfl, hf⟩
  have hres : resolvePwm s.hwmons (fanId c f) = some (c, j) :=
    (resolvePwm_congr _ _ hs _).trans
      (resolvePwm_fanId hs0 c j hc f hfj.1 (hd hc (List.getElem?_mem hfj.1)) hfj.2)
  have htemp : resolveTemp s.hwmons (tempId t) = some t :=
    (resolveTemp_congr _ _ hs _).trans (resolveTemp_tempId hs0 t h hh hk)
  have hchip : (listValue s.hwmons (getHwmonNumber (tempId t))).isSome = true := by
    rw [listValue_isSome_congr _ _ hs, tempId_eq, getHwmonNumber_scheme, listValue_natCast, hh]
    rfl
  rw [hbody, fctempsToken_resolved s _ (tempId t) (c, j) (by rw [hsp]; rfl)
    (by rw [hsp]; exact hres) hchip, htemp, ← ht]
  simp only [Loader.modifyFan, modifyFan_modifyFan]
  rfl

/-- The threshold token written for a used fan sets the field to the value it was written
from. -/
theorem thresholdToken_written (hs0 : List Hwmon) (hd : DistinctFans hs0) (d : Threshold)
    (s : Loader) (c j : Nat) (f : PwmFan) (hs : channelsOf s.hwmons = channelsOf hs0)
    (hf : fanAt hs0 c j = some f)
    (hr : -2147483648 ≤ f.get d ∧ f.get d ≤ 2147483647) :
    thresholdToken d s (thresholdBody d (c, f))
      = .ok (s.modifyFan (PwmFan.set d (f.get d)) c j) := by
  have hsp := split_pair (fanId c f) (number (f.get d)) '=' (eq_not_mem_fanId c f)
    (not_mem_number _ '=' (by decide) (by decide))
  obtain ⟨hc, hfj⟩ : ∃ hc, hs0[c]? = some hc ∧ hc.pwmFans[j]? = some f := by
    unfold fanAt at hf
    cases hq : hs0[c]? with
    | none => rw [hq] at hf; cases hf
    | some hc => rw [hq] at hf; exact ⟨hc, rfl, hf⟩
  have hres : resolvePwm s.hwmons (fanId c f) = some (c, j) :=
    (resolvePwm_congr _ _ hs _).trans
      (resolvePwm_fanId hs0 c j hc f hfj.1 (hd hc (List.getElem?_mem hfj.1)) hfj.2)
  unfold thresholdBody
  rw [thresholdToken_resolved d s _ (number (f.get d)) (c, j) (by rw [hsp]; rfl)
    (by rw [hsp]; exact hres), toInt_number _ hr.1 hr.2]

theorem processLine_fctemps_key (s : Loader) (y : QString) :
    processLine s ("FCTEMPS=".toList ++ y) = fctempsLine s ("FCTEMPS=".toList ++ y) := by
  unfold processLine
  simp [startsWith, List.isPrefixOf]

theorem processLine_threshold_key (d : Threshold) (s : Loader) (y : QString) :
    processLine s (d.key ++ y) = thresholdLine d s (d.key ++ y) := by
  unfold processLine
  cases d <;> simp [Threshold.key, startsWith, List.isPrefixOf]

/-! ## Reading back a produced line -/

theorem mem_usedFansOf_iff_used (hs : List Hwmon) (c j : Nat) (f : PwmFan)
    (hf : fanAt hs c j = some f) : (c, f) ∈ usedFansOf hs ↔ f.used = true := by
  unfold fanAt at hf
  cases hq : hs[c]? with
  | none => rw [hq] at hf; cases hf
  | some h =>
    rw [hq] at hf
    rw [mem_usedFansOf]
    constructor
    · rintro ⟨_, _, _, hu⟩; exact hu
    · intro hu; exact ⟨h, hq, List.getElem?_mem hf, hu⟩

theorem exists_pointer_of_mem_usedFansOf (hs : List Hwmon) (cf : Nat × PwmFan)
    (h : cf ∈ usedFansOf hs) : cf.2.used = true ∧ ∃ j, fanAt hs cf.1 j = some cf.2 := by
  obtain ⟨hc, hq, hm, hu⟩ := mem_usedFansOf.1 h
  obtain ⟨j, hj⟩ := List.mem_iff_getElem?.1 hm
  exact ⟨hu, j, by unfold fanAt; rw [hq]; exact hj⟩

/-- A produced per-fan line with at least one token is cleaned to a line on which the
directive loop runs the handler once for every used fan. -/
theorem line_read (l : Loader) (hd : DistinctFans l.hwmons)
    (key : QString) (k : Char) (ks : QString) (hkey : key = k :: ks)
    (hk : ∀ c ∈ key, isSpace c = false ∧ c ≠ ' ' ∧ c ≠ '#')
    (hhead : ∀ c, wordChar c = true → c ≠ k)
    (handler : Loader → QString → Except Fault Loader) (body : Nat × PwmFan → QString)
    (U : PwmFan → PwmFan → PwmFan) (hU : ∀ f cur, (U f cur).index = cur.index)
    (hbody : ∀ cf ∈ usedFansOf l.hwmons, body cf ≠ [] ∧ ∀ c ∈ body cf, wordChar c = true)
    (hstep : ∀ (s : Loader) (c j : Nat) (f : PwmFan),
      channelsOf s.hwmons = channelsOf l.hwmons → fanAt l.hwmons c j = some f →
      f.used = true → handler s (body (c, f)) = .ok (s.modifyFan (U f) c j))
    (hbranch : ∀ (s : Loader) (y : QString),
      processLine s (key ++ y) = (removeInFirst key (split (key ++ y) ' ')).foldlM handler s)
    (hne : usedFansOf l.hwmons ≠ []) (s : Loader)
    (hs : channelsOf s.hwmons = channelsOf l.hwmons) :
    ∃ x s', cleanLine (key ++ (usedFansOf l.hwmons).flatMap (fun cf => body cf ++ [' ']))
        = some x ∧
      processLine s x = .ok s' ∧ s'.interval = s.interval ∧
      channelsOf s'.hwmons = channelsOf l.hwmons ∧
      ∀ c j f0, fanAt l.hwmons c j = some f0 →
        fanAt s'.hwmons c j
          = (fanAt s.hwmons c j).map (fun cur => if f0.used = true then U f0 cur else cur) := by
  cases hu : usedFansOf l.hwmons with
  | nil => exact absurd hu hne
  | cons cf rest =>
    obtain ⟨y, hy1, hy2⟩ := tokens_of_line key k ks hkey hk hhead body cf rest
      (fun x hx => hbody x (hu ▸ hx))
    obtain ⟨s', h1, h2, h3, h4⟩ := foldlM_used l.hwmons hd handler body U hU hstep
      (usedFansOf l.hwmons) (exists_pointer_of_mem_usedFansOf l.hwmons)
      (nodup_usedFansOf l.hwmons hd) s hs
    refine ⟨key ++ y, s', hy1, ?_, h2, h3, ?_⟩
    · rw [hbranch, hy2, ← hu]
      exact h1
    · intro c j f0 hf0
      rw [h4 c j f0 hf0]
      congr 1
      funext cur
      by_cases hused : f0.used = true
      · rw [if_pos ((mem_usedFansOf_iff_used l.hwmons c j f0 hf0).2 hused), if_pos hused]
      · rw [if_neg (fun hm => hused ((mem_usedFansOf_iff_used l.hwmons c j f0 hf0).1 hm)),
          if_neg hused]

theorem fanId_ne_nil (c : Nat) (fan : PwmFan) : fanId c fan ≠ [] := by
  rw [fanId_eq]
  simp

theorem fctempsOut_eq_body (hs : List Hwmon) :
    (usedFansOf hs).flatMap fctempsOut
      = (usedFansOf hs).flatMap (fun cf => fctempsBody cf ++ [' ']) := by
  apply flatMap_congr_mem
  intro cf hcf
  have hu := used_of_mem_usedFansOf hs cf hcf
  unfold PwmFan.used at hu
  cases ht : cf.2.temp with
  | none => simp [ht] at hu
  | some t =>
    have e1 : "_input ".toList = "_input".toList ++ [' '] := rfl
    have e2 : "=".toList = ['='] := rfl
    simp only [fctempsOut, fctempsBody, tempId, ht, e1, e2, List.append_assoc, List.cons_append,
      List.nil_append]

theorem thresholdOut_eq_body (d : Threshold) (hs : List Hwmon) :
    (usedFansOf hs).flatMap (thresholdOut d)
      = (usedFansOf hs).flatMap (fun cf => thresholdBody d cf ++ [' ']) := by
  apply flatMap_congr_mem
  intro cf _
  have e1 : " ".toList = [' '] := rfl
  have e2 : "=".toList = ['='] := rfl
  simp only [thresholdOut, thresholdBody, e1, e2, List.append_assoc, List.cons_append,
    List.nil_append]

/-- The produced `FCTEMPS` line, read back. -/
theorem fctemps_line_read (l : Loader) (hwf : WellFormed l) (hne : usedFansOf l.hwmons ≠ [])
    (s : Loader) (hs : channelsOf s.hwmons = channelsOf l.hwmons) :
    ∃ x s', cleanLine ("FCTEMPS=".toList ++ (usedFansOf l.hwmons).flatMap fctempsOut) = some x ∧
      processLine s x = .ok s' ∧ s'.interval = s.interval ∧
      channelsOf s'.hwmons = channelsOf l.hwmons ∧
      ∀ c j f0, fanAt l.hwmons c j = some f0 →
        fanAt s'.hwmons c j = (fanAt s.hwmons c j).map
          (fun cur => if f0.used = true then (cur.setTemp f0.temp).set .minPwm 0 else cur) := by
  rw [fctempsOut_eq_body]
  refine line_read l hwf.distinct "FCTEMPS=".toList 'F' "CTEMPS=".toList rfl (by decide)
    (fun c hc => (wordChar_props c hc).2.2.2.1) fctempsToken fctempsBody
    (fun f cur => (cur.setTemp f.temp).set .minPwm 0) (fun f cur => rfl) ?_ ?_ ?_ hne s hs
  · intro cf hcf
    refine ⟨?_, wordChar_fctempsBody cf⟩
    have hu := used_of_mem_usedFansOf _ cf hcf
    unfold PwmFan.used at hu
    cases ht : cf.2.temp with
    | none => simp [ht] at hu
    | some t => simp [fctempsBody, ht]
  · intro s c j f hsc hf hu
    have hu' := hu
    unfold PwmFan.used at hu'
    cases ht : f.temp with
    | none => simp [ht] at hu'
    | some t =>
      obtain ⟨h, hh, hk⟩ := hwf.temps c j f t hf hu ht
      exact fctempsToken_written l.hwmons hwf.distinct s c j f t h hsc hf ht hh hk
  · intro s y
    rw [processLine_fctemps_key]
    rfl

/-- A produced threshold line, read back. -/
theorem threshold_line_read (d : Threshold) (l : Loader) (hwf : WellFormed l)
    (hne : usedFansOf l.hwmons ≠ []) (s : Loader)
    (hs : channelsOf s.hwmons = channelsOf l.hwmons) :
    ∃ x s', cleanLine (d.key ++ (usedFansOf l.hwmons).flatMap (thresholdOut d)) = some x ∧
      processLine s x = .ok s' ∧ s'.interval = s.interval ∧
      channelsOf s'.hwmons = channelsOf l.hwmons ∧
      ∀ c j f0, fanAt l.hwmons c j = some f0 →
        fanAt s'.hwmons c j = (fanAt s.hwmons c j).map
          (fun cur => if f0.used = true then cur.set d (f0.get d) else cur) := by
  rw [thresholdOut_eq_body]
  obtain ⟨k, ks, hkey⟩ : ∃ k ks, d.key = k :: ks ∧ k = 'M' := by
    cases d <;> exact ⟨'M', _, rfl, rfl⟩
  refine line_read l hwf.distinct d.key k ks hkey.1 (by cases d <;> decide)
    (fun c hc => hkey.2 ▸ (wordChar_props c hc).2.2.2.2) (thresholdToken d) (thresholdBody d)
    (fun f cur => cur.set d (f.get d)) (fun f cur => PwmFan.set_index d _ cur) ?_ ?_ ?_ hne s hs
  · intro cf _
    refine ⟨?_, wordChar_thresholdBody d cf⟩
    unfold thresholdBody
    cases hfi : fanId cf.1 cf.2 with
    | nil => exact absurd hfi (fanId_ne_nil _ _)
    | cons _ _ => simp
  · intro s c j f hsc hf hu
    exact thresholdToken_written l.hwmons hwf.distinct d s c j f hsc hf (hwf.range c j f hf hu d)
  · intro s y
    rw [processLine_threshold_key]
    rfl

/-! ## The round trip -/

theorem split_configText (l : Loader)
    (hclean : ∀ h ∈ l.hwmons, '\n' ∉ h.path ∧ '\n' ∉ h.name) :
    split (configText l) '\n' = configLines l ++ [[]] := by
  unfold split configText
  rw [splitBy_tokens (fun c => c == '\n') '\n' (by decide) (fun ln => ln) (configLines l)]
  · simp
  · intro ln hln c hc
    simp only [beq_eq_false_iff_ne, ne_eq]
    rintro rfl
    exact lf_not_mem_configLines l hclean ln hln hc

theorem rawLines_configText (l : Loader)
    (hclean : ∀ h ∈ l.hwmons, '\n' ∉ h.path ∧ '\n' ∉ h.name) :
    rawLines (configText l) = configLines l := by
  unfold rawLines
  rw [split_configText l hclean]
  have hne : configText l ≠ [] := by
    unfold configText configLines
    simp
  rw [if_pos ⟨hne, by simp⟩]
  simp

theorem processLine_interval_number (s : Loader) (n : Int) (h1 : -2147483648 ≤ n)
    (h2 : n ≤ 2147483647) :
    processLine s ("INTERVAL=".toList ++ number n) = .ok (s.setInterval n) := by
  have hin : ¬ "INTERVAL=".toList <:+: number n := by
    intro hi
    have hmem : '=' ∈ number n := hi.subset (by decide)
    exact not_mem_number n '=' (by decide) (by decide) hmem
  rw [processLine_interval, show remove (number n) "INTERVAL=".toList = number n from
    removeAux_of_not_infix _ _ hin, toInt_number n h1 h2]

theorem cleanLine_interval (n : Int) :
    cleanLine ("INTERVAL=".toList ++ number n) = some ("INTERVAL=".toList ++ number n) := by
  have hw : ∀ c ∈ "INTERVAL=".toList ++ number n, isSpace c = false ∧ c ≠ '#' := by
    intro c hc
    rcases List.mem_append.1 hc with hc | hc
    · exact (by decide : ∀ x ∈ "INTERVAL=".toList, isSpace x = false ∧ x ≠ '#') c hc
    · exact ⟨(wordChar_props c (wordChar_number n c hc)).1,
        (wordChar_props c (wordChar_number n c hc)).2.2.1⟩
  rw [cleanLine_of_no_hash _ (fun hc => (hw _ hc).2 rfl),
    simplified_single _ (fun c hc => (hw c hc).1)]

/-- The produced `FCFANS` line with at least one token is cleaned to a line that starts
with `FCF`. -/
theorem cleanLine_fcfans (hs : List Hwmon) (hne : usedFansOf hs ≠ []) :
    ∃ z, cleanLine ("FCFANS=".toList ++ (usedFansOf hs).flatMap fcfansOut)
      = some ('F' :: 'C' :: 'F' :: z) := by
  have hb : (usedFansOf hs).flatMap fcfansOut
      = (usedFansOf hs).flatMap (fun cf => (fanId cf.1 cf.2 ++ '=' :: ("hwmon".toList
          ++ number (hwmonIndex cf.1) ++ "/".toList ++ "fan".toList ++ number cf.2.index
          ++ "_input".toList)) ++ [' ']) := by
    apply flatMap_congr_mem
    intro cf _
    have e1 : "_input ".toList = "_input".toList ++ [' '] := rfl
    have e2 : "=".toList = ['='] := rfl
    simp only [fcfansOut, e1, e2, List.append_assoc, List.cons_append, List.nil_append]
  rw [hb]
  cases hu : usedFansOf hs with
  | nil => exact absurd hu hne
  | cons cf rest =>
    obtain ⟨y, hy, _⟩ := tokens_of_line "FCFANS=".toList 'F' "CFANS=".toList rfl (by decide)
      (fun c hc => (wordChar_props c hc).2.2.2.1)
      (fun cf : Nat × PwmFan => fanId cf.1 cf.2 ++ '=' :: ("hwmon".toList
          ++ number (hwmonIndex cf.1) ++ "/".toList ++ "fan".toList ++ number cf.2.index
          ++ "_input".toList)) cf rest
      (by
        intro x _
        constructor
        · cases hfi : fanId x.1 x.2 with
          | nil => exact absurd hfi (fanId_ne_nil _ _)
          | cons _ _ => simp
        · intro c hc
          simp only [List.mem_append, List.mem_cons] at hc
          rcases hc with hc | hc | ((((hc | hc) | hc) | hc) | hc) | hc
          · exact wordChar_fanId _ _ c hc
          · subst hc; decide
          · exact wordChar_of_mem_alphabet c
              ((by decide : ∀ y ∈ "hwmon".toList, y ∈ "hwmon/pwm=temp_input-fan".toList) c hc)
          · exact wordChar_number _ c hc
          · exact wordChar_of_mem_alphabet c
              ((by decide : ∀ y ∈ "/".toList, y ∈ "hwmon/pwm=temp_input-fan".toList) c hc)
          · exact wordChar_of_mem_alphabet c
              ((by decide : ∀ y ∈ "fan".toList, y ∈ "hwmon/pwm=temp_input-fan".toList) c hc)
          · exact wordChar_number _ c hc
          · exact wordChar_of_mem_alphabet c
              ((by decide : ∀ y ∈ "_input".toList, y ∈ "hwmon/pwm=temp_input-fan".toList) c hc))
    exact ⟨"ANS=".toList ++ y, hy⟩

theorem foldlM_filterMap_cons (line : QString) (lines : List QString) (s s' : Loader)
    (x : QString) (hc : cleanLine line = some x) (hp : processLine s x = .ok s') :
    ((line :: lines).filterMap cleanLine).foldlM processLine s
      = (lines.filterMap cleanLine).foldlM processLine s' := by
  rw [List.filterMap_cons, hc]
  exact foldlM_cons_ok processLine s s' x _ hp

theorem restored_eq (f g : PwmFan) :
    ((((((((g.reset).setTemp f.temp).set .minPwm 0).set .minTemp (f.get .minTemp)).set .maxTemp
      (f.get .maxTemp)).set .minStart (f.get .minStart)).set .minStop (f.get .minStop)).set
      .minPwm (f.get .minPwm)).set .maxPwm (f.get .maxPwm) = f.restoredFrom g := rfl

/-- Round trip. For a well-formed document `l` with at least one used fan, `open` on the
text `createConfigFile` produces for `l`, run on any document `p` over the same registry,
completes; the interval is that of `l`; every fan that is used in `l` gets the `Temp` and
the six thresholds it has in `l`; every other fan loses its `Temp`. -/
theorem roundtrip_of_used (l p : Loader) (url : QString) (hwf : WellFormed l)
    (hne : usedFansOf l.hwmons ≠ []) (hp : channelsOf p.hwmons = channelsOf l.hwmons) :
    ∃ l', p.open url (.opened (configText l)) = .ok l' ∧ l'.interval = l.interval ∧
      ∀ c j f, fanAt l.hwmons c j = some f →
        fanAt l'.hwmons c j = (fanAt p.hwmons c j).map
          (fun g => if f.used = true then f.restoredFrom g else g.reset) := by
  have hlines : logicalLines (configText l) = (configLines l).filterMap cleanLine := by
    unfold logicalLines
    rw [rawLines_configText l hwf.clean]
  have hs0 : channelsOf (resetAll p.hwmons) = channelsOf l.hwmons :=
    (channelsOf_resetAll _).trans hp
  obtain ⟨z2, hz2⟩ := cleanLine_DE
    ("VPATH=".toList ++ (collectUsed l.hwmons).1.flatMap (devpathToken l.hwmons))
  obtain ⟨z3, hz3⟩ := cleanLine_DE
    ("VNAME=".toList ++ (collectUsed l.hwmons).1.flatMap (devnameToken l.hwmons))
  obtain ⟨z5, hz5⟩ := cleanLine_fcfans l.hwmons hne
  obtain ⟨x4, s4, c4, p4, i4, ch4, f4⟩ := fctemps_line_read l hwf hne
    (Loader.setInterval
      { p with
        error := "Success".toList
        configFile := configText l
        configUrl := url
        hwmons := resetAll p.hwmons } l.interval) hs0
  obtain ⟨x6, s6, c6, p6, i6, ch6, f6⟩ := threshold_line_read .minTemp l hwf hne s4 ch4
  obtain ⟨x7, s7, c7, p7, i7, ch7, f7⟩ := threshold_line_read .maxTemp l hwf hne s6 ch6
  obtain ⟨x8, s8, c8, p8, i8, ch8, f8⟩ := threshold_line_read .minStart l hwf hne s7 ch7
  obtain ⟨x9, s9, c9, p9, i9, ch9, f9⟩ := threshold_line_read .minStop l hwf hne s8 ch8
  obtain ⟨x10, s10, c10, p10, i10, ch10, f10⟩ := threshold_line_read .minPwm l hwf hne s9 ch9
  obtain ⟨x11, s11, c11, p11, i11, ch11, f11⟩ :=
    threshold_line_read .maxPwm l hwf hne s10 ch10
  refine ⟨s11, ?_, ?_, ?_⟩
  · show (logicalLines (configText l)).foldlM processLine _ = _
    rw [hlines]
    unfold configLines
    simp only [collectUsed_snd]
    refine (foldlM_filterMap_cons _ _ _ _ _ (cleanLine_interval l.interval)
      (processLine_interval_number _ l.interval hwf.interval.1 hwf.interval.2)).trans ?_
    refine (foldlM_filterMap_cons _ _ _ _ _ hz2 (processLine_D _ z2)).trans ?_
    refine (foldlM_filterMap_cons _ _ _ _ _ hz3 (processLine_D _ z3)).trans ?_
    refine (foldlM_filterMap_cons _ _ _ _ _ c4 p4).trans ?_
    refine (foldlM_filterMap_cons _ _ _ _ _ hz5 (processLine_FCF _ z5)).trans ?_
    refine (foldlM_filterMap_cons _ _ _ _ _ c6 p6).trans ?_
    refine (foldlM_filterMap_cons _ _ _ _ _ c7 p7).trans ?_
    refine (foldlM_filterMap_cons _ _ _ _ _ c8 p8).trans ?_
    refine (foldlM_filterMap_cons _ _ _ _ _ c9 p9).trans ?_
    refine (foldlM_filterMap_cons _ _ _ _ _ c10 p10).trans ?_
    refine (foldlM_filterMap_cons _ _ _ _ _ c11 p11).trans ?_
    rfl
  · rw [i11, i10, i9, i8, i7, i6, i4]
    rfl
  · intro c j f hf
    rw [f11 c j f hf, f10 c j f hf, f9 c j f hf, f8 c j f hf, f7 c j f hf, f6 c j f hf,
      f4 c j f hf]
    simp only [Loader.setInterval, fanAt_resetAll, Option.map_map]
    congr 1
    funext g
    simp only [Function.comp]
    by_cases hu : f.used = true
    · simp only [hu, if_true]
      exact restored_eq f g
    · simp only [hu, if_false]
      rfl

theorem fanAt_sampleUsed (c j : Nat) (f : PwmFan) (h : fanAt sampleUsed.hwmons c j = some f) :
    c = 0 ∧ j = 0 ∧ f = { samplePwm with temp := some ⟨0, 1⟩ } := by
  match c, j with
  | 0, 0 =>
    have : fanAt sampleUsed.hwmons 0 0 = some { samplePwm with temp := some ⟨0, 1⟩ } := by decide
    rw [this] at h
    exact ⟨rfl, rfl, (Option.some.inj h).symm⟩
  | 0, j + 1 => simp [fanAt, sampleUsed, sampleChip] at h
  | c + 1, j => simp [fanAt, sampleUsed] at h

theorem wellFormed_sampleUsed : WellFormed sampleUsed where
  distinct := by simp [DistinctFans, sampleUsed, sampleChip]
  temps := by
    intro c j f t hf _ ht
    obtain ⟨_, _, rfl⟩ := fanAt_sampleUsed c j f hf
    cases Option.some.inj ht
    exact ⟨_, rfl, by decide⟩
  range := by
    intro c j f hf _ d
    obtain ⟨_, _, rfl⟩ := fanAt_sampleUsed c j f hf
    cases d <;> decide
  interval := by decide
  clean := by decide

/-- The round trip on the sample document with `pwm1` driven by `temp1`. -/
theorem roundtrip_sampleUsed :
    ∃ l', sampleUsed.open "/etc/fancontrol".toList (.opened (configText sampleUsed)) = .ok l' ∧
      l'.interval = 10 ∧
      fanAt l'.hwmons 0 0 = some { samplePwm with temp := some ⟨0, 1⟩ } := by
  obtain ⟨l', h1, h2, h3⟩ := roundtrip_of_used sampleUsed sampleUsed "/etc/fancontrol".toList
    wellFormed_sampleUsed (by decide) rfl
  have hf : fanAt sampleUsed.hwmons 0 0 = some { samplePwm with temp := some ⟨0, 1⟩ } := by
    decide
  refine ⟨l', h1, h2, ?_⟩
  rw [h3 0 0 _ hf, hf]
  decide

/-! ## The three defects, in general -/

/-- A token with no `=` makes both token loops read `at(1)` of a one-element list. -/
theorem token_without_eq_faults (l : Loader) (tok : QString) (h : '=' ∉ tok) :
    fctempsToken l tok = .error .indexOutOfRange ∧
    ∀ d, thresholdToken d l tok = .error .indexOutOfRange := by
  have hsp : split tok '=' = [tok] := by
    unfold split
    exact splitBy_no_sep _ _
      (fun x hx => by simp only [beq_eq_false_iff_ne, ne_eq]; rintro rfl; exact h hx)
  constructor
  · rw [fctempsToken_eq, hsp]; rfl
  · intro d
    rw [thresholdToken_eq, hsp]; rfl

/-- A threshold pair whose chip index is not in the registry makes the token loop call
`pwmFan` through a null pointer. -/
theorem threshold_unknown_chip_faults (d : Threshold) (l : Loader) (id value : QString)
    (hid : '=' ∉ id) (hv : '=' ∉ value)
    (hchip : listValue l.hwmons (getHwmonNumber id) = none) :
    thresholdToken d l (id ++ '=' :: value) = .error .nullPointer := by
  rw [thresholdToken_eq, split_pair _ _ _ hid hv]
  simp only [List.getElem?_cons_succ, List.getElem?_cons_zero, List.headD_cons, hchip]

/-- A line `P#C` with a non-empty `P` free of `#` is read as `P` without its last
character. -/
theorem cleanLine_inline_comment (P C : QString) (hP : '#' ∉ P) (hne : P ≠ []) :
    cleanLine (P ++ '#' :: C) = some (simplified P.dropLast) := by
  unfold cleanLine
  have hstart : startsWith (P ++ '#' :: C) ['#'] = false := by
    cases P with
    | nil => exact absurd rfl hne
    | cons c cs =>
      have hc : c ≠ '#' := fun e => hP (e ▸ List.mem_cons_self _ _)
      simp [startsWith, List.isPrefixOf, Ne.symm hc]
  have hidx : List.indexOf '#' (P ++ '#' :: C) = P.length := by
    rw [List.indexOf_append_of_not_mem hP]
    simp
  have hoff : indexOf (P ++ '#' :: C) '#' = (P.length : Int) := by
    unfold indexOf
    rw [hidx, if_pos (by simp)]
  rw [hstart, hoff]
  simp only [Bool.false_eq_true, if_false]
  rw [if_pos (by omega)]
  have hlen : 0 < P.length := List.length_pos.2 hne
  unfold truncate
  rw [if_neg (by omega)]
  have : ((P.length : Int) - 1).toNat = P.length - 1 := by omega
  rw [this, List.take_append_of_le_length (by omega), List.dropLast_eq_take]

/-! ## The device path -/

theorem eq_append_of_afterLiteral (p s r : QString) (h : afterLiteral p s = some r) :
    s = p ++ r := by
  unfold afterLiteral at h
  split at h
  · rename_i hp
    obtain ⟨t, ht⟩ := List.isPrefixOf_iff_prefix.1 hp
    subst ht
    rw [List.drop_left] at h
    rw [Option.some.inj h]
  · cases h

/-- A match of `/hwmon/hwmon\d\s*` that ends in a character other than a blank is the
literal and one digit. -/
theorem matchesHwmonEnd_shape (t : QString) (e : Char) (hm : matchesHwmonEnd t = true)
    (hlast : t.getLast? = some e) (he : isSpace e = false) :
    t = "/hwmon/hwmon".toList ++ [e] ∧ (digitValue e).isSome = true := by
  unfold matchesHwmonEnd at hm
  cases ha : afterLiteral "/hwmon/hwmon".toList t with
  | none => rw [ha] at hm; cases hm
  | some r =>
    rw [ha] at hm
    cases r with
    | nil => cases hm
    | cons d rest =>
      simp only [Bool.and_eq_true] at hm
      have ht := eq_append_of_afterLiteral _ _ _ ha
      cases rest with
      | nil =>
        subst ht
        have : e = d := by
          rw [List.getLast?_concat] at hlast
          exact (Option.some.inj hlast).symm
        subst this
        exact ⟨rfl, hm.1⟩
      | cons b bs =>
        exfalso
        subst ht
        have hl : (("/hwmon/hwmon".toList ++ d :: b :: bs).getLast?) = (b :: bs).getLast? := by
          rw [show "/hwmon/hwmon".toList ++ d :: b :: bs
            = ("/hwmon/hwmon".toList ++ [d]) ++ (b :: bs) by rw [List.append_assoc]; rfl]
          exact List.getLast?_append_of_ne_nil _ (List.cons_ne_nil b bs)
        rw [hl] at hlast
        have hmem : e ∈ b :: bs := List.mem_of_getLast?_eq_some hlast
        have hall := List.all_eq_true.1 hm.2 e hmem
        rw [he] at hall
        cases hall

theorem getLast?_of_suffix (t X : QString) (e : Char) (ht : t <:+ X ++ [e]) (hne : t ≠ []) :
    t.getLast? = some e := by
  obtain ⟨u, hu⟩ := ht
  have h1 : (u ++ t).getLast? = some e := by rw [hu, List.getLast?_concat]
  rw [List.getLast?_append_of_ne_nil _ hne] at h1
  exact h1

theorem removeHwmonEnd_of_no_match (s : QString)
    (h : ∀ t, t <:+ s → matchesHwmonEnd t = false) : removeHwmonEnd s = s := by
  induction s with
  | nil => rfl
  | cons c cs ih =>
    unfold removeHwmonEnd
    rw [h _ (List.suffix_refl _)]
    simp only [Bool.false_eq_true, if_false, List.cons.injEq, true_and]
    exact ih (fun t ht => h t (ht.trans (List.suffix_cons c cs)))

theorem removeHwmonEnd_append (P m : QString) (hm : matchesHwmonEnd m = true)
    (h : ∀ t, t <:+ P ++ m → m.length < t.length → matchesHwmonEnd t = false) :
    removeHwmonEnd (P ++ m) = P := by
  induction P with
  | nil =>
    cases m with
    | nil => cases hm
    | cons c cs =>
      unfold removeHwmonEnd
      simp [hm]
  | cons c cs ih =>
    have h0 := h (c :: cs ++ m) (List.suffix_refl _) (by simp; omega)
    show removeHwmonEnd (c :: (cs ++ m)) = _
    unfold removeHwmonEnd
    rw [show c :: (cs ++ m) = c :: cs ++ m from rfl, h0]
    simp only [Bool.false_eq_true, if_false, List.cons.injEq, true_and]
    exact ih (fun t ht hl => h t (ht.trans (List.suffix_cons c (cs ++ m))) hl)

/-- For a one-digit `N` the local `sanitizedPath` of `/sys/` + `P` + `/hwmon/hwmon` + `N`
is `P`. -/
theorem sanitizedPath_one_digit (P : QString) (e : Char) (he : (digitValue e).isSome = true) :
    sanitizedPath ("/sys/".toList ++ P ++ "/hwmon/hwmon".toList ++ [e]) = P := by
  unfold sanitizedPath removeSysStart
  have hs : startsWith ("/sys/".toList ++ P ++ "/hwmon/hwmon".toList ++ [e]) "/sys/".toList
      = true := by
    rw [List.append_assoc, List.append_assoc]
    exact List.isPrefixOf_iff_prefix.2 (List.prefix_append _ _)
  rw [if_pos hs]
  have hd : List.drop 5 ("/sys/".toList ++ P ++ "/hwmon/hwmon".toList ++ [e])
      = P ++ ("/hwmon/hwmon".toList ++ [e]) := by
    rw [List.append_assoc, List.append_assoc]
    exact List.drop_left' rfl
  rw [hd]
  apply removeHwmonEnd_append
  · unfold matchesHwmonEnd
    rw [afterLiteral_append]
    simp [he]
  · intro t ht hl
    rw [Bool.eq_false_iff]
    intro hm
    have htne : t ≠ [] := by
      intro h0; subst h0; simp at hl
    have hlast : t.getLast? = some e :=
      getLast?_of_suffix t (P ++ "/hwmon/hwmon".toList) e
        (by rw [List.append_assoc]; exact ht) htne
    have := (matchesHwmonEnd_shape t e hm hlast (isSpace_of_digit e he)).1
    rw [this] at hl
    exact absurd hl (lt_irrefl _)

/-- For an `N` of two digits or more, nothing is cut at the end of the path. -/
theorem sanitizedPath_two_digits (P ds : QString) (d1 d2 : Char)
    (h1 : (digitValue d1).isSome = true) (h2 : (digitValue d2).isSome = true) :
    sanitizedPath ("/sys/".toList ++ P ++ "/hwmon/hwmon".toList ++ (ds ++ [d1, d2]))
      = P ++ "/hwmon/hwmon".toList ++ (ds ++ [d1, d2]) := by
  unfold sanitizedPath removeSysStart
  have hs : startsWith ("/sys/".toList ++ P ++ "/hwmon/hwmon".toList ++ (ds ++ [d1, d2]))
      "/sys/".toList = true := by
    rw [List.append_assoc, List.append_assoc]
    exact List.isPrefixOf_iff_prefix.2 (List.prefix_append _ _)
  rw [if_pos hs]
  have hd : List.drop 5 ("/sys/".toList ++ P ++ "/hwmon/hwmon".toList ++ (ds ++ [d1, d2]))
      = P ++ "/hwmon/hwmon".toList ++ (ds ++ [d1, d2]) := by
    rw [List.append_assoc, List.append_assoc, List.append_assoc]
    exact List.drop_left' rfl
  rw [hd]
  apply removeHwmonEnd_of_no_match
  intro t ht
  rw [Bool.eq_false_iff]
  intro hm
  have hne : t ≠ [] := by
    intro h0; subst h0; cases hm
  have hsuf : t <:+ (P ++ "/hwmon/hwmon".toList ++ ds ++ [d1]) ++ [d2] := by
    simpa [List.append_assoc] using ht
  have hlast : t.getLast? = some d2 := getLast?_of_suffix t _ d2 hsuf hne
  have hshape := (matchesHwmonEnd_shape t d2 hm hlast (isSpace_of_digit d2 h2)).1
  rw [hshape] at hsuf
  obtain ⟨u, hu⟩ := hsuf
  have hu2 : (u ++ "/hwmon/hwmo".toList) ++ ['n', d2]
      = (P ++ "/hwmon/hwmon".toList ++ ds) ++ [d1, d2] := by
    simpa [List.append_assoc] using hu
  have hrev := congrArg List.reverse hu2
  simp only [List.reverse_append, List.reverse_cons, List.reverse_nil, List.nil_append,
    List.singleton_append, List.cons_append, List.cons.injEq] at hrev
  have hn : d1 = 'n' := hrev.2.1.symm
  subst hn
  exact absurd h1 (by decide)


/-! ## What the directives leave alone -/

theorem skeleton_modifyFan (g : PwmFan → PwmFan)
    (hg : ∀ f, (g f).index = f.index ∧ (g f).active = f.active) (c j : Nat) (hs : List Hwmon) :
    skeleton (modifyFan g c j hs) = skeleton hs := by
  unfold skeleton modifyFan
  apply List.ext_getElem?
  intro i
  simp only [List.getElem?_map, List.getElem?_modify]
  cases hi : hs[i]? with
  | none => simp
  | some h =>
    by_cases hc : c = i
    · subst hc
      simp only [if_true, Option.map_some', Option.map_eq_map, Option.some.injEq, Prod.mk.injEq,
        true_and]
      apply List.ext_getElem?
      intro k
      simp only [List.getElem?_map, List.getElem?_modify]
      cases h.pwmFans[k]? with
      | none => simp
      | some f =>
        by_cases hj : j = k
        · simp [hj, hg f]
        · simp [hj]
    · simp [hc]

theorem skeleton_resetAll (hs : List Hwmon) : skeleton (resetAll hs) = skeleton hs := by
  unfold skeleton resetAll
  simp [List.map_map, Function.comp_def, PwmFan.reset]

theorem set_frame (d : Threshold) (v : Int) (f : PwmFan) :
    (f.set d v).index = f.index ∧ (f.set d v).active = f.active := by
  cases d <;> exact ⟨rfl, rfl⟩

theorem thresholdToken_frame (d : Threshold) (l l' : Loader) (tok : QString)
    (h : thresholdToken d l tok = .ok l') :
    l'.error = l.error ∧ l'.configFile = l.configFile ∧ l'.configUrl = l.configUrl ∧
      l'.interval = l.interval ∧ skeleton l'.hwmons = skeleton l.hwmons := by
  rw [thresholdToken_eq] at h
  split at h
  · cases h
  · split at h
    · cases h
    · injection h with h
      subst h
      split
      · exact ⟨rfl, rfl, rfl, rfl, rfl⟩
      · exact ⟨rfl, rfl, rfl, rfl, skeleton_modifyFan _ (set_frame d _) _ _ _⟩

theorem fctempsToken_frame (l l' : Loader) (tok : QString) (h : fctempsToken l tok = .ok l') :
    l'.error = l.error ∧ l'.configFile = l.configFile ∧ l'.configUrl = l.configUrl ∧
      l'.interval = l.interval ∧ skeleton l'.hwmons = skeleton l.hwmons := by
  rw [fctempsToken_eq] at h
  split at h
  · cases h
  · injection h with h
    subst h
    split
    · exact ⟨rfl, rfl, rfl, rfl, rfl⟩
    · split
      · refine ⟨rfl, rfl, rfl, rfl, ?_⟩
        show skeleton (modifyFan _ _ _ (modifyFan _ _ _ l.hwmons)) = _
        rw [skeleton_modifyFan _ (set_frame .minPwm 0),
          skeleton_modifyFan (PwmFan.setTemp _) (fun f => ⟨rfl, rfl⟩)]
      · exact ⟨rfl, rfl, rfl, rfl,
          skeleton_modifyFan (PwmFan.setTemp none) (fun f => ⟨rfl, rfl⟩) _ _ _⟩

theorem foldlM_frame (R : Loader → Loader → Prop) (hrefl : ∀ l, R l l)
    (htrans : ∀ a b c, R a b → R b c → R a c)
    (f : Loader → QString → Except Fault Loader)
    (hf : ∀ l l' x, f l x = .ok l' → R l l') :
    ∀ (xs : List QString) (l l' : Loader), xs.foldlM f l = .ok l' → R l l' := by
  intro xs
  induction xs with
  | nil =>
    intro l l' h
    injection h with h
    subst h
    exact hrefl _
  | cons x xs ih =>
    intro l l' h
    rw [List.foldlM_cons] at h
    cases hx : f l x with
    | error e => rw [hx] at h; cases h
    | ok m =>
      rw [hx] at h
      exact htrans _ _ _ (hf _ _ _ hx) (ih _ _ h)

theorem processLine_frame (l l' : Loader) (line : QString) (h : processLine l line = .ok l') :
    l'.error = l.error ∧ l'.configFile = l.configFile ∧ l'.configUrl = l.configUrl ∧
      skeleton l'.hwmons = skeleton l.hwmons := by
  have tl : ∀ d, thresholdLine d l line = .ok l' →
      l'.error = l.error ∧ l'.configFile = l.configFile ∧ l'.configUrl = l.configUrl ∧
        skeleton l'.hwmons = skeleton l.hwmons := by
    intro d hd
    exact foldlM_frame
      (fun a b => b.error = a.error ∧ b.configFile = a.configFile ∧ b.configUrl = a.configUrl ∧
        skeleton b.hwmons = skeleton a.hwmons)
      (fun _ => ⟨rfl, rfl, rfl, rfl⟩)
      (fun a b c h1 h2 => ⟨h2.1.trans h1.1, h2.2.1.trans h1.2.1, h2.2.2.1.trans h1.2.2.1,
        h2.2.2.2.trans h1.2.2.2⟩)
      (thresholdToken d)
      (fun a b x hx => by
        have := thresholdToken_frame d a b x hx
        exact ⟨this.1, this.2.1, this.2.2.1, this.2.2.2.2⟩) _ _ _ hd
  unfold processLine at h
  split at h
  · injection h with h
    subst h
    exact ⟨rfl, rfl, rfl, rfl⟩
  · split at h
    · exact foldlM_frame
        (fun a b => b.error = a.error ∧ b.configFile = a.configFile ∧
          b.configUrl = a.configUrl ∧ skeleton b.hwmons = skeleton a.hwmons)
        (fun _ => ⟨rfl, rfl, rfl, rfl⟩)
        (fun a b c h1 h2 => ⟨h2.1.trans h1.1, h2.2.1.trans h1.2.1, h2.2.2.1.trans h1.2.2.1,
          h2.2.2.2.trans h1.2.2.2⟩)
        fctempsToken
        (fun a b x hx => by
          have := fctempsToken_frame a b x hx
          exact ⟨this.1, this.2.1, this.2.2.1, this.2.2.2.2⟩) _ _ _ h
    · split at h
      · exact tl _ h
      · split at h
        · exact tl _ h
        · split at h
          · exact tl _ h
          · split at h
            · exact tl _ h
            · split at h
              · exact tl _ h
              · split at h
                · exact tl _ h
                · injection h with h
                  subst h
                  exact ⟨rfl, rfl, rfl, rfl⟩

theorem parse_frame (l l' : Loader) (url text : QString) (h : l.parse url text = .ok l') :
    l'.error = l.error ∧ l'.configFile = text ∧ l'.configUrl = url ∧
      skeleton l'.hwmons = skeleton l.hwmons := by
  unfold Loader.parse at h
  have := foldlM_frame
    (fun a b => b.error = a.error ∧ b.configFile = a.configFile ∧ b.configUrl = a.configUrl ∧
      skeleton b.hwmons = skeleton a.hwmons)
    (fun _ => ⟨rfl, rfl, rfl, rfl⟩)
    (fun a b c h1 h2 => ⟨h2.1.trans h1.1, h2.2.1.trans h1.2.1, h2.2.2.1.trans h1.2.2.1,
      h2.2.2.2.trans h1.2.2.2⟩)
    processLine processLine_frame _ _ _ h
  exact ⟨this.1, this.2.1, this.2.2.1, this.2.2.2.trans (skeleton_resetAll _)⟩


/-! ## Loading and saving against the outside world -/

theorem resetAll_of_fresh (hs : List Hwmon) (h : FreshFans hs) : resetAll hs = hs := by
  unfold resetAll
  conv_rhs => rw [← List.map_id hs]
  apply List.map_congr_left
  intro x hx
  have hfans : x.pwmFans.map PwmFan.reset = x.pwmFans := by
    conv_rhs => rw [← List.map_id x.pwmFans]
    apply List.map_congr_left
    intro f hf
    have := h x hx f hf
    cases f
    simp only [PwmFan.reset, id]
    simp only at this
    rw [this]
  rw [hfans]
  rfl

theorem parse_empty (l : Loader) (url : QString) :
    l.parse url [] = .ok { l with configFile := [], configUrl := url, hwmons := resetAll l.hwmons } :=
  rfl

/-- C20: when the direct open fails, the file exists and the privileged read fails with the
message `m`, `Loader::open` ends there: the error field becomes `m`, and the stored text,
the stored location, the interval and every chip with all fields of its fans (so every
`Temp` association and threshold) are what they were; no fan is reset. -/
theorem failed_load_is_atomic (l : Loader) (url : QString) (env : Outside) (m : QString)
    (hopen : env.opens = false) (hex : env.fileExists = true) (hfail : env.helper = .error m) :
    ∃ l', l.openIn url env = .ok l' ∧ l'.error = m ∧ l'.configFile = l.configFile ∧
      l'.configUrl = l.configUrl ∧ l'.interval = l.interval ∧ l'.hwmons = l.hwmons := by
  refine ⟨{ l with error := m }, ?_, rfl, rfl, rfl, rfl, rfl⟩
  unfold Loader.openIn FileAccess.of
  rw [hopen, hex, hfail]
  rfl

theorem failed_load_is_atomic_witness :
    ∃ l', sampleUsed.openIn "/tmp/other".toList lockedFile = .ok l' ∧
      l'.error = "denied".toList ∧ l'.configFile = sampleUsed.configFile ∧
      l'.configUrl = sampleUsed.configUrl ∧ l'.interval = sampleUsed.interval ∧
      l'.hwmons = sampleUsed.hwmons :=
  failed_load_is_atomic sampleUsed "/tmp/other".toList lockedFile "denied".toList rfl rfl rfl

/-- C15: when `Loader::open` executes the helper and it fails with the message `m`, the load
completes with the error field equal to `m`; when `Loader::save` executes the helper and it
fails with `m`, the error field afterwards is `m`; and a load that gets its text from a direct
open or from the helper and completes leaves the error field equal to `Success`. -/
theorem bridge_failure_reporting (l : Loader) (url : QString) (env : Outside) :
    (∀ m, openCalls url env ≠ [] → env.helper = .error m →
      ∃ l', l.openIn url env = .ok l' ∧ l'.error = m) ∧
    (∀ m, (l.save url env).calls ≠ [] → env.helper = .error m →
      (l.save url env).loader.error = m) ∧
    (∀ l', (env.opens = true ∨ (env.fileExists = true ∧ ∃ t, env.helper = .ok t)) →
      l.openIn url env = .ok l' → l'.error = "Success".toList) := by
  refine ⟨?_, ?_, ?_⟩
  · intro m hcall hm
    refine ⟨{ l with error := m }, ?_, rfl⟩
    unfold openCalls at hcall
    unfold Loader.openIn FileAccess.of
    cases ho : env.opens with
    | true => simp [ho] at hcall
    | false =>
      cases he : env.fileExists with
      | false => simp [ho, he] at hcall
      | true =>
        rw [hm]
        rfl
  · intro m hcall hm
    unfold Loader.save at hcall ⊢
    cases ho : env.opens with
    | true => simp [ho] at hcall
    | false =>
      rw [hm]
      rfl
  · intro l' hsrc h
    unfold Loader.openIn FileAccess.of at h
    cases ho : env.opens with
    | true =>
      rw [ho] at h
      exact (parse_frame _ _ _ _ h).1
    | false =>
      rcases hsrc with hsrc | ⟨he, t, ht⟩
      · rw [ho] at hsrc
        cases hsrc
      · rw [ho, he, ht] at h
        exact (parse_frame _ _ _ _ h).1

theorem bridge_failure_reporting_witness :
    (∃ l', sampleUsed.openIn "/etc/fancontrol".toList lockedFile = .ok l' ∧
      l'.error = "denied".toList) ∧
    (sampleUsed.save [] lockedFile).loader.error = "denied".toList ∧
    (sampleReloaded.error = "Success".toList ∧
      ({ sampleReloaded with error := "denied".toList }).openIn "/etc/fancontrol".toList
        helpedFile = .ok sampleReloaded) :=
  ⟨(bridge_failure_reporting sampleUsed "/etc/fancontrol".toList lockedFile).1 "denied".toList
      (by decide) rfl,
    (bridge_failure_reporting sampleUsed [] lockedFile).2.1 "denied".toList (by decide) rfl,
    (bridge_failure_reporting { sampleReloaded with error := "denied".toList }
      "/etc/fancontrol".toList helpedFile).2.2 sampleReloaded
      (Or.inr ⟨rfl, "INTERVAL=5\n".toList, rfl⟩) (by decide),
    by decide⟩

/-- C14 (as the code has it): `Loader::open` executes the helper, with one `read` action,
exactly when the direct open failed and the file exists, which are the two branches of
`Loader::open` that use the helper's reply; `Loader::save` executes the helper, with one
`write` action for the saved text, exactly when the direct open failed, whether or not the
target exists; after a direct open that succeeds neither executes it. -/
theorem bridge_invocation (l : Loader) (url : QString) (env : Outside) :
    (env.opens = true → openCalls url env = [] ∧ (l.save url env).calls = []) ∧
    (env.opens = false → env.fileExists = false → openCalls url env = []) ∧
    (env.opens = false → env.fileExists = true → openCalls url env = [.read url]) ∧
    (env.opens = false →
      (l.save url env).calls = [.write (l.saveName url) l.configFile] ∧
      (l.save url env).written = none) ∧
    (openCalls url env ≠ [] ↔
      (∃ t, FileAccess.of env = .viaHelper t) ∨ ∃ m, FileAccess.of env = .helperFailed m) := by
  unfold openCalls Loader.save FileAccess.of
  cases env.opens <;> cases env.fileExists <;> cases env.helper <;> simp

theorem bridge_invocation_witness :
    openCalls "/etc/fancontrol".toList noFile = [] ∧
    openCalls "/etc/fancontrol".toList lockedFile = [.read "/etc/fancontrol".toList] ∧
    (sampleReloaded.save [] lockedFile).calls
      = [.write "/etc/fancontrol".toList "INTERVAL=5\n".toList] ∧
    (sampleReloaded.save [] plainFile).calls = [] :=
  ⟨(bridge_invocation sampleLoader "/etc/fancontrol".toList noFile).2.1 rfl rfl,
    (bridge_invocation sampleLoader "/etc/fancontrol".toList lockedFile).2.2.1 rfl rfl,
    ((bridge_invocation sampleReloaded [] lockedFile).2.2.2.1 rfl).1,
    ((bridge_invocation sampleReloaded [] plainFile).1 rfl).2⟩

/-- C14, where the code leaves the claim: the target does not exist and the direct open
fails; `Loader::open` does not execute the helper, `Loader::save` does. -/
theorem bridge_invocation_counterexample :
    noFile.opens = false ∧ noFile.fileExists = false ∧
    openCalls "/etc/fancontrol".toList noFile = [] ∧
    (sampleReloaded.save [] noFile).calls
      = [.write "/etc/fancontrol".toList "INTERVAL=5\n".toList] ∧
    (sampleReloaded.save [] noFile).loader.error = "denied".toList := by
  decide

/-- C16: from the document the constructor sets up (interval 10, error `Success`) over a
registry whose fans have no `Temp` yet, loading a location at which no file exists (the
direct open fails and the file does not exist) completes without executing the helper; the
error field is still `Success`, the interval is still 10, and every chip with all fields of
its fans is what it was. -/
theorem missing_file_keeps_defaults (hs : List Hwmon) (url : QString) (env : Outside)
    (hfresh : FreshFans hs) (hopen : env.opens = false) (hex : env.fileExists = false) :
    ∃ l', (Loader.init hs).openIn url env = .ok l' ∧ openCalls url env = [] ∧
      l'.error = "Success".toList ∧ l'.interval = 10 ∧ l'.hwmons = hs ∧
      ∀ h ∈ l'.hwmons, ∀ f ∈ h.pwmFans, f.temp = none := by
  refine ⟨{ Loader.init hs with configFile := [], configUrl := url }, ?_, ?_, rfl, rfl, rfl,
    hfresh⟩
  · unfold Loader.openIn FileAccess.of
    rw [hopen, hex]
    show (Loader.init hs).parse url [] = _
    rw [parse_empty]
    show Except.ok { Loader.init hs with configFile := [], configUrl := url,
                                         hwmons := resetAll hs } = _
    rw [resetAll_of_fresh hs hfresh]
    rfl
  · unfold openCalls
    rw [hopen, hex]
    rfl

theorem missing_file_keeps_defaults_witness :
    ∃ l', (Loader.init [sampleChip]).openIn "/etc/fancontrol".toList noFile = .ok l' ∧
      openCalls "/etc/fancontrol".toList noFile = [] ∧
      l'.error = "Success".toList ∧ l'.interval = 10 ∧ l'.hwmons = [sampleChip] ∧
      ∀ h ∈ l'.hwmons, ∀ f ∈ h.pwmFans, f.temp = none :=
  missing_file_keeps_defaults [sampleChip] "/etc/fancontrol".toList noFile
    (by unfold FreshFans; decide) rfl rfl


/-! ## The frame of a threshold pair -/

theorem get_set (d d' : Threshold) (v : Int) (f : PwmFan) :
    (f.set d v).get d' = if d' = d then v else f.get d' := by
  cases d <;> cases d' <;> rfl

/-- C18: for each of the six threshold directives and every pair `id=payload` whose `id`
resolves to the fan `f`, processing the pair completes and sets the field of the directive
to the value read from the payload (to `v` when the payload is the decimal rendering of an
`int` `v`); every other threshold of `f`, its channel index, its `active` flag and its `Temp`
are unchanged, every other fan is unchanged, and so are the interval, the error field, the
stored text and location, and the chips' paths, names and `Temp` channels. -/
theorem threshold_frame (d : Threshold) (l : Loader) (id payload : QString) (c j : Nat)
    (f : PwmFan) (hid : '=' ∉ id) (hpl : '=' ∉ payload)
    (hres : resolvePwm l.hwmons id = some (c, j)) (hf : fanAt l.hwmons c j = some f) :
    ∃ l' f', thresholdToken d l (id ++ '=' :: payload) = .ok l' ∧
      fanAt l'.hwmons c j = some f' ∧ f'.get d = toInt payload ∧
      (∀ v : Int, -2147483648 ≤ v → v ≤ 2147483647 → payload = number v → f'.get d = v) ∧
      (∀ d', d' ≠ d → f'.get d' = f.get d') ∧
      f'.index = f.index ∧ f'.active = f.active ∧ f'.temp = f.temp ∧
      (∀ c' j', (c', j') ≠ (c, j) → fanAt l'.hwmons c' j' = fanAt l.hwmons c' j') ∧
      l'.interval = l.interval ∧ l'.error = l.error ∧ l'.configFile = l.configFile ∧
      l'.configUrl = l.configUrl ∧ skeleton l'.hwmons = skeleton l.hwmons := by
  obtain ⟨hrun, hfan⟩ := thresholdToken_pair d l id payload c j f hid hpl hres hf
  refine ⟨_, _, hrun, hfan, ?_, ?_, ?_, (set_frame d _ f).1, (set_frame d _ f).2,
    PwmFan.set_temp d _ f, ?_, rfl, rfl, rfl, rfl, skeleton_modifyFan _ (set_frame d _) _ _ _⟩
  · rw [get_set, if_pos rfl]
  · intro v h1 h2 hv
    rw [get_set, if_pos rfl, hv, toInt_number v h1 h2]
  · intro d' hd
    rw [get_set, if_neg hd]
  · intro c' j' hne
    show fanAt (modifyFan _ c j l.hwmons) c' j' = _
    rw [fanAt_modifyFan]
    have hcond : ¬ (c = c' ∧ j = j') := by
      rintro ⟨rfl, rfl⟩
      exact hne rfl
    simp only [hcond, if_false]
    cases fanAt l.hwmons c' j' <;> rfl

theorem threshold_frame_witness :
    ∃ l' f', thresholdToken .maxTemp sampleUsed "hwmon0/pwm1=70".toList = .ok l' ∧
      fanAt l'.hwmons 0 0 = some f' ∧ f'.get .maxTemp = toInt "70".toList ∧
      (∀ v : Int, -2147483648 ≤ v → v ≤ 2147483647 → "70".toList = number v →
        f'.get .maxTemp = v) ∧
      (∀ d', d' ≠ .maxTemp → f'.get d' = ({ samplePwm with temp := some ⟨0, 1⟩ }).get d') ∧
      f'.index = 1 ∧ f'.active = true ∧ f'.temp = some ⟨0, 1⟩ ∧
      (∀ c' j', (c', j') ≠ (0, 0) → fanAt l'.hwmons c' j' = fanAt sampleUsed.hwmons c' j') ∧
      l'.interval = sampleUsed.interval ∧ l'.error = sampleUsed.error ∧
      l'.configFile = sampleUsed.configFile ∧ l'.configUrl = sampleUsed.configUrl ∧
      skeleton l'.hwmons = skeleton sampleUsed.hwmons :=
  threshold_frame .maxTemp sampleUsed "hwmon0/pwm1".toList "70".toList 0 0
    { samplePwm with temp := some ⟨0, 1⟩ } (by decide) (by decide) (by decide) (by decide)


/-! ## The lines of a text and the lines that do nothing -/

theorem splitBy_append (p : Char → Bool) (c : Char) (hc : p c = true) (x y : QString) :
    splitBy p (x ++ c :: y) = splitBy p x ++ splitBy p y := by
  induction x with
  | nil => simp [splitBy, hc]
  | cons d x ih =>
    rw [List.cons_append]
    by_cases hd : p d = true
    · simp only [splitBy, hd, if_true, ih, List.cons_append]
    · simp only [splitBy, hd, if_false, ih]
      cases hx : splitBy p x with
      | nil => exact absurd hx (splitBy_ne_nil p x)
      | cons w ws => rfl

theorem split_append (sep : Char) (x y : QString) :
    split (x ++ sep :: y) sep = split x sep ++ split y sep :=
  splitBy_append _ sep (by simp) x y

theorem runLines_eq (l : Loader) (url text : QString) :
    l.parse url text
      = runLines { l with configFile := text, configUrl := url, hwmons := resetAll l.hwmons }
          (rawLines text) := rfl

theorem runLines_append (l : Loader) (xs ys : List QString) :
    runLines l (xs ++ ys) = (runLines l xs).bind (fun s => runLines s ys) := by
  unfold runLines
  rw [List.filterMap_append, List.foldlM_append]
  rfl

theorem runLines_nil (l : Loader) : runLines l [] = .ok l := rfl

theorem runLines_cons (l : Loader) (x : QString) (xs : List QString) :
    runLines l (x :: xs) = (runLines l [x]).bind (fun s => runLines s xs) :=
  runLines_append l [x] xs

theorem runLines_inert (u : QString) (hu : ∀ s, runLines s [u] = .ok s) (l : Loader)
    (xs ys : List QString) : runLines l (xs ++ u :: ys) = runLines l (xs ++ ys) := by
  rw [runLines_append, runLines_append]
  congr 1
  funext s
  rw [runLines_cons, hu]
  rfl

theorem runLines_empty_line (s : Loader) : runLines s [[]] = .ok s := rfl

theorem runLines_unrecognized (u : QString) (hu : Unrecognized u) (s : Loader) :
    runLines s [u] = .ok s := by
  unfold runLines
  cases hc : cleanLine u with
  | none => simp [List.filterMap, hc]; rfl
  | some x =>
    have hk := hu x hc
    have h1 := hk "INTERVAL=".toList (by simp [directiveKeys])
    have h2 := hk "FCTEMPS=".toList (by simp [directiveKeys])
    have h3 := hk "MINTEMP=".toList (by simp [directiveKeys])
    have h4 := hk "MAXTEMP=".toList (by simp [directiveKeys])
    have h5 := hk "MINSTART=".toList (by simp [directiveKeys])
    have h6 := hk "MINSTOP=".toList (by simp [directiveKeys])
    have h7 := hk "MINPWM=".toList (by simp [directiveKeys])
    have h8 := hk "MAXPWM=".toList (by simp [directiveKeys])
    have hp : processLine s x = .ok s := by
      unfold processLine
      rw [h1, h2, h3, h4, h5, h6, h7, h8]
      rfl
    simp only [List.filterMap, hc]
    show (do let s' ← processLine s x; List.foldlM processLine s' []) = _
    rw [hp]
    rfl

theorem runLines_rawLines (l : Loader) (text : QString) :
    runLines l (rawLines text) = runLines l (split text '\n') := by
  unfold rawLines
  split
  · rename_i h
    have hlast := h.2
    have hsplit : split text '\n' = (split text '\n').dropLast ++ [[]] := by
      have := List.dropLast_append_getLast? [] (by simpa using hlast)
      exact this.symm
    conv_rhs => rw [hsplit]
    rw [runLines_inert [] runLines_empty_line, List.append_nil]
  · rfl


/-! ## The stored text has no part in the directive loop -/

theorem thresholdToken_text (d : Threshold) (l : Loader) (x tok : QString) :
    thresholdToken d { l with configFile := x } tok
      = (thresholdToken d l tok).map (fun s => { s with configFile := x }) := by
  rw [thresholdToken_eq, thresholdToken_eq]
  dsimp only
  cases (split tok '=')[1]? with
  | none => rfl
  | some text =>
    dsimp only
    cases listValue l.hwmons (getHwmonNumber ((split tok '=').headD [])) with
    | none => rfl
    | some h =>
      dsimp only
      cases resolvePwm l.hwmons ((split tok '=').headD []) <;> rfl

theorem fctempsToken_text (l : Loader) (x tok : QString) :
    fctempsToken { l with configFile := x } tok
      = (fctempsToken l tok).map (fun s => { s with configFile := x }) := by
  rw [fctempsToken_eq, fctempsToken_eq]
  dsimp only
  cases (split tok '=')[1]? with
  | none => rfl
  | some temp =>
    dsimp only
    cases resolvePwm l.hwmons ((split tok '=').headD []) with
    | none => rfl
    | some cj =>
      dsimp only
      cases (listValue l.hwmons (getHwmonNumber temp)).isSome <;> rfl

theorem foldlM_text (f : Loader → QString → Except Fault Loader) (x : QString)
    (hf : ∀ l t, f { l with configFile := x } t
      = (f l t).map (fun s => { s with configFile := x })) :
    ∀ (ts : List QString) (l : Loader),
      ts.foldlM f { l with configFile := x }
        = (ts.foldlM f l).map (fun s => { s with configFile := x }) := by
  intro ts
  induction ts with
  | nil => intro l; rfl
  | cons t ts ih =>
    intro l
    rw [List.foldlM_cons, List.foldlM_cons, hf]
    cases f l t with
    | error e => rfl
    | ok s => exact ih s

theorem processLine_text (l : Loader) (x line : QString) :
    processLine { l with configFile := x } line
      = (processLine l line).map (fun s => { s with configFile := x }) := by
  have tl : ∀ d, thresholdLine d { l with configFile := x } line
      = (thresholdLine d l line).map (fun s => { s with configFile := x }) :=
    fun d => foldlM_text (thresholdToken d) x (fun l t => thresholdToken_text d l x t) _ l
  unfold processLine
  split
  · rfl
  · split
    · exact foldlM_text fctempsToken x (fun l t => fctempsToken_text l x t) _ l
    · split
      · exact tl _
      · split
        · exact tl _
        · split
          · exact tl _
          · split
            · exact tl _
            · split
              · exact tl _
              · split
                · exact tl _
                · rfl

theorem runLines_text (l : Loader) (x : QString) (lines : List QString) :
    runLines { l with configFile := x } lines
      = (runLines l lines).map (fun s => { s with configFile := x }) :=
  foldlM_text processLine x (fun l t => processLine_text l x t) _ l

theorem parse_fields (l : Loader) (url text : QString) :
    (l.parse url text).map Loader.fields
      = (runLines { l with configUrl := url, hwmons := resetAll l.hwmons }
          (split text '\n')).map Loader.fields := by
  rw [runLines_eq, runLines_rawLines]
  have := runLines_text { l with configUrl := url, hwmons := resetAll l.hwmons } text
    (split text '\n')
  rw [show ({ l with configFile := text, configUrl := url, hwmons := resetAll l.hwmons } : Loader)
      = { ({ l with configUrl := url, hwmons := resetAll l.hwmons } : Loader) with
          configFile := text } from rfl, this]
  cases runLines { l with configUrl := url, hwmons := resetAll l.hwmons } (split text '\n') <;>
    rfl

theorem split_insertLine (a u b : QString) (ha : LineStart a) (hu : '\n' ∉ u) :
    ∃ xs, split (insertLine a u b) '\n' = xs ++ u :: split b '\n' ∧
      split (a ++ b) '\n' = xs ++ split b '\n' := by
  have hsu : split u '\n' = [u] :=
    splitBy_no_sep _ u (fun x hx => by
      have : x ≠ '\n' := fun h => hu (h ▸ hx)
      simpa using this)
  unfold insertLine
  rcases ha with rfl | ha
  · refine ⟨[], ?_, rfl⟩
    rw [List.nil_append, split_append, hsu]
    rfl
  · have hne : a ≠ [] := by
      rintro rfl
      cases ha
    have hdl := List.dropLast_append_getLast? '\n' (by simpa using ha)
    obtain ⟨a', rfl⟩ : ∃ a', a = a' ++ ['\n'] := ⟨a.dropLast, hdl.symm⟩
    refine ⟨split a' '\n', ?_, ?_⟩
    · rw [List.append_assoc, List.append_assoc, List.singleton_append, split_append,
        split_append, hsu]
      rfl
    · rw [List.append_assoc, List.singleton_append, split_append]

/-- C13: for every text `a ++ b` cut at the start of a line, and every line `u` that after
the cleaning of the reading loop starts with none of the eight directive keys (or is skipped
as a comment), loading the text with `u` put in at that place gives the same outcome as
loading the text itself: the same interval and the same chips with the same fields of every
fan when the load completes, and the same fault when it does not. The same holds for `u`
put after the last line of a text `a`, also when `a` does not end with a line feed. -/
theorem unrecognized_lines_ignored (l : Loader) (url a u b : QString) (hline : '\n' ∉ u)
    (hu : Unrecognized u) :
    (LineStart a → (l.parse url (insertLine a u b)).map Loader.fields
      = (l.parse url (a ++ b)).map Loader.fields) ∧
    (l.parse url (a ++ '\n' :: u)).map Loader.fields = (l.parse url a).map Loader.fields := by
  constructor
  · intro ha
    obtain ⟨xs, h1, h2⟩ := split_insertLine a u b ha hline
    rw [parse_fields, parse_fields, h1, h2, runLines_inert u (runLines_unrecognized u hu)]
  · have hsu : split u '\n' = [u] :=
      splitBy_no_sep _ u (fun x hx => by
        have : x ≠ '\n' := fun h => hline (h ▸ hx)
        simpa using this)
    rw [parse_fields, parse_fields, split_append, hsu,
      runLines_inert u (runLines_unrecognized u hu), List.append_nil]

theorem unrecognized_fcfans :
    Unrecognized "FCFANS=hwmon0/pwm1=hwmon0/fan1_input".toList := by
  intro x hx
  have hc : cleanLine "FCFANS=hwmon0/pwm1=hwmon0/fan1_input".toList
      = some "FCFANS=hwmon0/pwm1=hwmon0/fan1_input".toList := by decide
  rw [hc] at hx
  injection hx with hx
  subst hx
  decide

theorem unrecognized_empty : Unrecognized [] := by
  intro x hx
  have hc : cleanLine [] = some [] := by decide
  rw [hc] at hx
  injection hx with hx
  subst hx
  decide

theorem unrecognized_dev (rest : QString) : Unrecognized ('D' :: 'E' :: rest) := by
  intro x hx
  obtain ⟨z, hz⟩ := cleanLine_DE rest
  rw [hz] at hx
  injection hx with hx
  subst hx
  intro k hk
  simp only [directiveKeys, List.mem_cons, List.mem_singleton, List.not_mem_nil, or_false] at hk
  rcases hk with rfl | rfl | rfl | rfl | rfl | rfl | rfl | rfl <;> rfl

theorem unrecognized_lines_ignored_witness :
    (sampleLoader.parse "/etc/fancontrol".toList
        (insertLine "INTERVAL=5\n".toList "FCFANS=hwmon0/pwm1=hwmon0/fan1_input".toList
          "FCTEMPS=hwmon0/pwm1=hwmon0/temp1_input\nMAXTEMP=hwmon0/pwm1=70\n".toList)).map
        Loader.fields
      = (sampleLoader.parse "/etc/fancontrol".toList
          ("INTERVAL=5\n".toList
            ++ "FCTEMPS=hwmon0/pwm1=hwmon0/temp1_input\nMAXTEMP=hwmon0/pwm1=70\n".toList)).map
          Loader.fields :=
  (unrecognized_lines_ignored sampleLoader "/etc/fancontrol".toList "INTERVAL=5\n".toList
    "FCFANS=hwmon0/pwm1=hwmon0/fan1_input".toList
    "FCTEMPS=hwmon0/pwm1=hwmon0/temp1_input\nMAXTEMP=hwmon0/pwm1=70\n".toList
    (by decide) unrecognized_fcfans).1 (Or.inr (by decide))


/-! ## A text continued by lines -/

theorem channelsOf_of_skeleton (hs hs' : List Hwmon) (h : skeleton hs = skeleton hs') :
    channelsOf hs = channelsOf hs' := by
  have key : ∀ xs : List Hwmon,
      channelsOf xs = (skeleton xs).map (fun x => (x.2.2.1, x.2.2.2.map (fun p => p.1))) := by
    intro xs
    simp [channelsOf, skeleton, List.map_map, Function.comp_def]
  rw [key, key, h]

theorem fanAt_skeleton (hs : List Hwmon) (c j : Nat) :
    (fanAt hs c j).map (fun f => (f.index, f.active))
      = ((skeleton hs)[c]?).bind (fun x => x.2.2.2[j]?) := by
  unfold fanAt skeleton
  rw [List.getElem?_map]
  cases hs[c]? with
  | none => rfl
  | some h => simp [List.getElem?_map]

theorem fanAt_of_skeleton (hs hs' : List Hwmon) (h : skeleton hs = skeleton hs') (c j : Nat)
    (f : PwmFan) (hf : fanAt hs c j = some f) :
    ∃ g, fanAt hs' c j = some g ∧ g.index = f.index ∧ g.active = f.active := by
  have h1 := fanAt_skeleton hs c j
  have h2 := fanAt_skeleton hs' c j
  rw [h, ← h2, hf] at h1
  cases hg : fanAt hs' c j with
  | none => rw [hg] at h1; cases h1
  | some g =>
    rw [hg] at h1
    simp only [Option.map_some', Option.some.injEq, Prod.mk.injEq] at h1
    exact ⟨g, rfl, h1.1.symm, h1.2.symm⟩

theorem single_token_line (key : QString) (k : Char) (ks : QString) (hkey : key = k :: ks)
    (hk : ∀ c ∈ key, isSpace c = false ∧ c ≠ ' ' ∧ c ≠ '#')
    (hhead : ∀ c, wordChar c = true → c ≠ k)
    (body : QString) (hbody : ∀ c ∈ body, wordChar c = true) :
    cleanLine (key ++ body) = some (key ++ body) ∧
      removeInFirst key (split (key ++ body) ' ') = [body] ∧ '\n' ∉ key ++ body := by
  have hall : ∀ c ∈ key ++ body, isSpace c = false ∧ c ≠ ' ' ∧ c ≠ '#' := by
    intro c hc
    rcases List.mem_append.1 hc with hc | hc
    · exact hk c hc
    · have := wordChar_props c (hbody c hc)
      exact ⟨this.1, this.2.1, this.2.2.1⟩
  refine ⟨?_, ?_, ?_⟩
  · rw [cleanLine_of_no_hash _ (fun hc => (hall _ hc).2.2 rfl),
      simplified_single _ (fun c hc => (hall c hc).1)]
  · have hsp : split (key ++ body) ' ' = [key ++ body] :=
      splitBy_no_sep _ _ (fun x hx => by
        have := (hall x hx).2.1
        simpa using this)
    rw [hsp]
    unfold removeInFirst
    simp only [List.cons.injEq, and_true]
    rw [remove_key_append _ _ (by rw [hkey]; simp)]
    apply removeAux_of_not_infix
    intro hin
    have hmem : k ∈ body := hin.subset (by rw [hkey]; exact List.mem_cons_self _ _)
    exact hhead k (hbody k hmem) rfl
  · intro hc
    have := (hall _ hc).1
    revert this
    decide

theorem wordChar_pair (a b : QString) (ha : ∀ c ∈ a, wordChar c = true)
    (hb : ∀ c ∈ b, wordChar c = true) : ∀ c ∈ a ++ '=' :: b, wordChar c = true := by
  intro c hc
  rcases List.mem_append.1 hc with hc | hc
  · exact ha c hc
  · rcases List.mem_cons.1 hc with hc | hc
    · subst hc; decide
    · exact hb c hc

theorem key_chars (d : Threshold) :
    (∃ ks, d.key = 'M' :: ks) ∧ ∀ c ∈ d.key, isSpace c = false ∧ c ≠ ' ' ∧ c ≠ '#' := by
  cases d <;> exact ⟨⟨_, rfl⟩, by decide⟩

theorem run_fctemps_line (hs0 : List Hwmon) (hd : DistinctFans hs0) (s : Loader)
    (c j : Nat) (f : PwmFan) (t : Temp) (h : Hwmon) (hs : channelsOf s.hwmons = channelsOf hs0)
    (hf : fanAt hs0 c j = some f) (hh : hs0[t.parent]? = some h) (hk : t.index ∈ h.temps) :
    runLines s [fctempsPairLine c f t]
        = .ok ((s.modifyFan (PwmFan.setTemp (some t)) c j).modifyFan (PwmFan.set .minPwm 0) c j)
      ∧ '\n' ∉ fctempsPairLine c f t := by
  obtain ⟨hclean, htok, hlf⟩ := single_token_line "FCTEMPS=".toList 'F' "CTEMPS=".toList rfl
    (by decide) (fun c hc => (wordChar_props c hc).2.2.2.1)
    (fanId c f ++ '=' :: tempId t) (wordChar_pair _ _ (wordChar_fanId c f) (wordChar_tempId t))
  refine ⟨?_, hlf⟩
  have hsp := split_pair (fanId c f) (tempId t) '=' (eq_not_mem_fanId c f) (eq_not_mem_tempId t)
  obtain ⟨hc, hfj⟩ : ∃ hc, hs0[c]? = some hc ∧ hc.pwmFans[j]? = some f := by
    unfold fanAt at hf
    cases hq : hs0[c]? with
    | none => rw [hq] at hf; cases hf
    | some hc => rw [hq] at hf; exact ⟨hc, rfl, hf⟩
  have hres : resolvePwm s.hwmons (fanId c f) = some (c, j) :=
    (resolvePwm_congr _ _ hs _).trans
      (resolvePwm_fanId hs0 c j hc f hfj.1 (hd hc (List.getElem?_mem hfj.1)) hfj.2)
  have htemp : resolveTemp s.hwmons (tempId t) = some t :=
    (resolveTemp_congr _ _ hs _).trans (resolveTemp_tempId hs0 t h hh hk)
  have hchip : (listValue s.hwmons (getHwmonNumber (tempId t))).isSome = true := by
    rw [listValue_isSome_congr _ _ hs, tempId_eq, getHwmonNumber_scheme, listValue_natCast, hh]
    rfl
  have htoken := fctempsToken_resolved s (fanId c f ++ '=' :: tempId t) (tempId t) (c, j)
    (by rw [hsp]; rfl) (by rw [hsp]; exact hres) hchip
  rw [htemp] at htoken
  unfold runLines fctempsPairLine
  simp only [List.filterMap, hclean]
  show (do let s' ← processLine s _; List.foldlM processLine s' []) = _
  rw [processLine_fctemps_key]
  unfold fctempsLine
  rw [htok]
  show (do let s' ← (do let s'' ← fctempsToken s _; pure s''); pure s') = _
  rw [htoken]
  rfl

theorem run_threshold_line (hs0 : List Hwmon) (hd : DistinctFans hs0) (d : Threshold)
    (s : Loader) (c j : Nat) (f : PwmFan) (v : Int)
    (hs : channelsOf s.hwmons = channelsOf hs0) (hf : fanAt hs0 c j = some f)
    (h1 : -2147483648 ≤ v) (h2 : v ≤ 2147483647) :
    runLines s [thresholdPairLine d c f v] = .ok (s.modifyFan (PwmFan.set d v) c j)
      ∧ '\n' ∉ thresholdPairLine d c f v := by
  obtain ⟨⟨ks, hkey⟩, hchars⟩ := key_chars d
  obtain ⟨hclean, htok, hlf⟩ := single_token_line d.key 'M' ks hkey hchars
    (fun c hc => (wordChar_props c hc).2.2.2.2)
    (fanId c f ++ '=' :: number v) (wordChar_pair _ _ (wordChar_fanId c f) (wordChar_number v))
  refine ⟨?_, hlf⟩
  have hsp := split_pair (fanId c f) (number v) '=' (eq_not_mem_fanId c f)
    (not_mem_number _ '=' (by decide) (by decide))
  obtain ⟨hc, hfj⟩ : ∃ hc, hs0[c]? = some hc ∧ hc.pwmFans[j]? = some f := by
    unfold fanAt at hf
    cases hq : hs0[c]? with
    | none => rw [hq] at hf; cases hf
    | some hc => rw [hq] at hf; exact ⟨hc, rfl, hf⟩
  have hres : resolvePwm s.hwmons (fanId c f) = some (c, j) :=
    (resolvePwm_congr _ _ hs _).trans
      (resolvePwm_fanId hs0 c j hc f hfj.1 (hd hc (List.getElem?_mem hfj.1)) hfj.2)
  have htoken := thresholdToken_resolved d s (fanId c f ++ '=' :: number v) (number v) (c, j)
    (by rw [hsp]; rfl) (by rw [hsp]; exact hres)
  rw [toInt_number v h1 h2] at htoken
  unfold runLines thresholdPairLine
  simp only [List.filterMap, hclean]
  show (do let s' ← processLine s _; List.foldlM processLine s' []) = _
  rw [processLine_threshold_key]
  unfold thresholdLine
  rw [htok]
  show (do let s' ← (do let s'' ← thresholdToken d s _; pure s''); pure s') = _
  rw [htoken]
  rfl

theorem parse_split (l : Loader) (url text : QString) :
    l.parse url text
      = (runLines { l with configUrl := url, hwmons := resetAll l.hwmons }
          (split text '\n')).map (fun s => { s with configFile := text }) := by
  rw [runLines_eq, runLines_rawLines]
  exact runLines_text { l with configUrl := url, hwmons := resetAll l.hwmons } text _

theorem lineStart_split (pre : QString) (h : LineStart pre) :
    ∃ xs, split pre '\n' = xs ++ [[]] ∧ ∀ y, split (pre ++ y) '\n' = xs ++ split y '\n' := by
  rcases h with rfl | h
  · exact ⟨[], rfl, fun y => rfl⟩
  · have hdl := List.dropLast_append_getLast? '\n' (by simpa using h)
    obtain ⟨a, rfl⟩ : ∃ a, pre = a ++ ['\n'] := ⟨pre.dropLast, hdl.symm⟩
    refine ⟨split a '\n', ?_, ?_⟩
    · rw [split_append]
      rfl
    · intro y
      rw [List.append_assoc, List.singleton_append, split_append]

theorem parse_extend (l : Loader) (url pre y : QString) (s0 : Loader) (hpre : LineStart pre)
    (h : l.parse url pre = .ok s0) :
    l.parse url (pre ++ y)
      = (runLines s0 (split y '\n')).map (fun s => { s with configFile := pre ++ y }) := by
  obtain ⟨xs, h1, h2⟩ := lineStart_split pre hpre
  rw [parse_split, h1, runLines_inert [] runLines_empty_line, List.append_nil] at h
  rw [parse_split, h2, runLines_append]
  cases hx : runLines { l with configUrl := url, hwmons := resetAll l.hwmons } xs with
  | error e => rw [hx] at h; cases h
  | ok s =>
    rw [hx] at h
    injection h with h
    subst h
    show (runLines s (split y '\n')).map _
      = (runLines { s with configFile := pre } (split y '\n')).map _
    rw [runLines_text s pre]
    cases runLines s (split y '\n') <;> rfl


/-! ## The order of `FCTEMPS` and `MINPWM` -/

theorem runLines_last_line (s s1 : Loader) (x : QString) (hx : '\n' ∉ x)
    (h1 : runLines s [x] = .ok s1) : runLines s (split (x ++ ['\n']) '\n') = .ok s1 := by
  have hsx : split x '\n' = [x] :=
    splitBy_no_sep _ x (fun c hc => by
      have : c ≠ '\n' := fun h => hx (h ▸ hc)
      simpa using this)
  rw [split_append, hsx]
  show runLines s ([x] ++ [[]]) = _
  rw [runLines_append, h1]
  rfl

theorem runLines_two_lines (s s1 s2 : Loader) (x y : QString) (hx : '\n' ∉ x) (hy : '\n' ∉ y)
    (h1 : runLines s [x] = .ok s1) (h2 : runLines s1 [y] = .ok s2) :
    runLines s (split (x ++ '\n' :: (y ++ ['\n'])) '\n') = .ok s2 := by
  have hsx : split x '\n' = [x] :=
    splitBy_no_sep _ x (fun c hc => by
      have : c ≠ '\n' := fun h => hx (h ▸ hc)
      simpa using this)
  rw [split_append, hsx, runLines_append, h1]
  exact runLines_last_line s1 s2 y hy h2

/-- For every fan `f` of the registry and every `Temp` `t` of the registry, every `int`
`v`, every prior document and every text `pre` whose load completes: the text `pre`
continued by the `FCTEMPS` line for `f` and then the line `MINPWM=<f>=v` loads with
`f.minPwm = v`; continued by the same two lines in the other order it loads with
`f.minPwm = 0`; continued by the `FCTEMPS` line alone it loads with `f.minPwm = 0`,
whatever `minPwm` was before. In all three the fan ends with the `Temp` `t`. -/
theorem minPwm_after_prefix (l : Loader) (url pre : QString) (s0 : Loader) (c j : Nat)
    (f : PwmFan) (t : Temp) (h : Hwmon) (v : Int)
    (hd : DistinctFans l.hwmons) (hf : fanAt l.hwmons c j = some f)
    (hh : l.hwmons[t.parent]? = some h) (hk : t.index ∈ h.temps)
    (h1 : -2147483648 ≤ v) (h2 : v ≤ 2147483647)
    (hstart : LineStart pre) (hpre : l.parse url pre = .ok s0) :
    (∃ s f', l.parse url (pre ++ (fctempsPairLine c f t ++
          '\n' :: (thresholdPairLine .minPwm c f v ++ ['\n']))) = .ok s ∧
        fanAt s.hwmons c j = some f' ∧ f'.minPwm = v ∧ f'.temp = some t) ∧
    (∃ s f', l.parse url (pre ++ (thresholdPairLine .minPwm c f v ++
          '\n' :: (fctempsPairLine c f t ++ ['\n']))) = .ok s ∧
        fanAt s.hwmons c j = some f' ∧ f'.minPwm = 0 ∧ f'.temp = some t) ∧
    (∃ s f', l.parse url (pre ++ (fctempsPairLine c f t ++ ['\n'])) = .ok s ∧
        fanAt s.hwmons c j = some f' ∧ f'.minPwm = 0 ∧ f'.temp = some t) := by
  have hsk := (parse_frame l s0 url pre hpre).2.2.2
  have hch : channelsOf s0.hwmons = channelsOf l.hwmons := channelsOf_of_skeleton _ _ hsk
  obtain ⟨g, hg, -, -⟩ := fanAt_of_skeleton l.hwmons s0.hwmons hsk.symm c j f hf
  have hfc : ∀ s : Loader, channelsOf s.hwmons = channelsOf l.hwmons →
      runLines s [fctempsPairLine c f t]
          = .ok ((s.modifyFan (PwmFan.setTemp (some t)) c j).modifyFan
              (PwmFan.set .minPwm 0) c j) ∧ '\n' ∉ fctempsPairLine c f t :=
    fun s hs => run_fctemps_line l.hwmons hd s c j f t h hs hf hh hk
  have hmp : ∀ s : Loader, channelsOf s.hwmons = channelsOf l.hwmons →
      runLines s [thresholdPairLine .minPwm c f v]
          = .ok (s.modifyFan (PwmFan.set .minPwm v) c j) ∧
        '\n' ∉ thresholdPairLine .minPwm c f v :=
    fun s hs => run_threshold_line l.hwmons hd .minPwm s c j f v hs hf h1 h2
  refine ⟨?_, ?_, ?_⟩
  · have hs1 : channelsOf ((s0.modifyFan (PwmFan.setTemp (some t)) c j).modifyFan
        (PwmFan.set .minPwm 0) c j).hwmons = channelsOf l.hwmons := by
      show channelsOf (modifyFan _ c j (modifyFan _ c j s0.hwmons)) = _
      rw [channelsOf_set, channelsOf_setTemp, hch]
    have hrun := runLines_two_lines s0 _ _ _ _ (hfc s0 hch).2 (hmp _ hs1).2 (hfc s0 hch).1
      (hmp _ hs1).1
    rw [parse_extend l url pre _ s0 hstart hpre, hrun]
    refine ⟨_, ((g.setTemp (some t)).set .minPwm 0).set .minPwm v, rfl, ?_, rfl, rfl⟩
    show fanAt (modifyFan _ c j (modifyFan _ c j (modifyFan _ c j s0.hwmons))) c j = _
    simp only [fanAt_modifyFan, hg, Option.map_some', and_self, if_true]
  · have hs1 : channelsOf (s0.modifyFan (PwmFan.set .minPwm v) c j).hwmons
        = channelsOf l.hwmons := by
      show channelsOf (modifyFan _ c j s0.hwmons) = _
      rw [channelsOf_set, hch]
    have hrun := runLines_two_lines s0 _ _ _ _ (hmp s0 hch).2 (hfc _ hs1).2 (hmp s0 hch).1
      (hfc _ hs1).1
    rw [parse_extend l url pre _ s0 hstart hpre, hrun]
    refine ⟨_, (((g.set .minPwm v).setTemp (some t)).set .minPwm 0), rfl, ?_, rfl, rfl⟩
    show fanAt (modifyFan _ c j (modifyFan _ c j (modifyFan _ c j s0.hwmons))) c j = _
    simp only [fanAt_modifyFan, hg, Option.map_some', and_self, if_true]
  · have hrun := runLines_last_line s0 _ _ (hfc s0 hch).2 (hfc s0 hch).1
    rw [parse_extend l url pre _ s0 hstart hpre, hrun]
    refine ⟨_, ((g.setTemp (some t)).set .minPwm 0), rfl, ?_, rfl, rfl⟩
    show fanAt (modifyFan _ c j (modifyFan _ c j s0.hwmons)) c j = _
    simp only [fanAt_modifyFan, hg, Option.map_some', and_self, if_true]

theorem minPwm_after_prefix_example :
    (∃ s f', sampleLoader.parse "/etc/fancontrol".toList ("INTERVAL=5\n".toList ++
        (fctempsPairLine 0 samplePwm ⟨0, 1⟩ ++
          '\n' :: (thresholdPairLine .minPwm 0 samplePwm 120 ++ ['\n']))) = .ok s ∧
        fanAt s.hwmons 0 0 = some f' ∧ f'.minPwm = 120 ∧ f'.temp = some ⟨0, 1⟩) ∧
    (∃ s f', sampleLoader.parse "/etc/fancontrol".toList ("INTERVAL=5\n".toList ++
        (thresholdPairLine .minPwm 0 samplePwm 120 ++
          '\n' :: (fctempsPairLine 0 samplePwm ⟨0, 1⟩ ++ ['\n']))) = .ok s ∧
        fanAt s.hwmons 0 0 = some f' ∧ f'.minPwm = 0 ∧ f'.temp = some ⟨0, 1⟩) ∧
    (∃ s f', sampleLoader.parse "/etc/fancontrol".toList ("INTERVAL=5\n".toList ++
        (fctempsPairLine 0 samplePwm ⟨0, 1⟩ ++ ['\n'])) = .ok s ∧
        fanAt s.hwmons 0 0 = some f' ∧ f'.minPwm = 0 ∧ f'.temp = some ⟨0, 1⟩) :=
  minPwm_after_prefix sampleLoader "/etc/fancontrol".toList "INTERVAL=5\n".toList sampleReloaded
    0 0 samplePwm ⟨0, 1⟩ sampleChip 120 (by unfold DistinctFans; decide) (by decide)
    (by decide) (by decide) (by decide) (by decide) (Or.inr (by decide)) (by decide)


/-! ## The chips of the `DEVPATH` and `DEVNAME` lines -/

theorem collectFan_fst_mono (c : Nat) (acc : List Nat × List (Nat × PwmFan)) (fan : PwmFan)
    (x : Nat) (hx : x ∈ acc.1) : x ∈ (collectFan c acc fan).1 := by
  unfold collectFan
  split
  · split
    · dsimp only
      split
      · exact hx
      · exact List.mem_append_left _ hx
    · exact hx
  · exact hx

theorem foldl_collectFan_fst_mono (c : Nat) (fans : List PwmFan) :
    ∀ (acc : List Nat × List (Nat × PwmFan)) (x : Nat), x ∈ acc.1 →
      x ∈ (fans.foldl (collectFan c) acc).1 := by
  induction fans with
  | nil => intro acc x hx; exact hx
  | cons f fans ih =>
    intro acc x hx
    rw [List.foldl_cons]
    exact ih _ x (collectFan_fst_mono c acc f x hx)

theorem collectHwmon_fst_mono (acc : List Nat × List (Nat × PwmFan)) (ch : Nat × Hwmon)
    (x : Nat) (hx : x ∈ acc.1) : x ∈ (collectHwmon acc ch).1 := by
  unfold collectHwmon
  apply foldl_collectFan_fst_mono
  split
  · exact List.mem_append_left _ hx
  · exact hx

theorem collectHwmon_fst_self (acc : List Nat × List (Nat × PwmFan)) (ch : Nat × Hwmon)
    (h : ch.2.pwmFans ≠ []) : ch.1 ∈ (collectHwmon acc ch).1 := by
  unfold collectHwmon
  apply foldl_collectFan_fst_mono
  have hlen : ch.2.pwmFans.length > 0 := List.length_pos.2 h
  rw [if_pos hlen]
  exact List.mem_append_right _ (List.mem_singleton_self _)

theorem foldl_collectHwmon_fst (chs : List (Nat × Hwmon)) :
    ∀ acc : List Nat × List (Nat × PwmFan),
      (∀ x ∈ acc.1, x ∈ (chs.foldl collectHwmon acc).1) ∧
      ∀ ch ∈ chs, ch.2.pwmFans ≠ [] → ch.1 ∈ (chs.foldl collectHwmon acc).1 := by
  induction chs with
  | nil =>
    intro acc
    exact ⟨fun x hx => hx, fun ch hch => nomatch hch⟩
  | cons a chs ih =>
    intro acc
    rw [List.foldl_cons]
    refine ⟨fun x hx => (ih _).1 x (collectHwmon_fst_mono acc a x hx), ?_⟩
    intro ch hch hne
    rcases List.mem_cons.1 hch with rfl | hch
    · exact (ih _).1 _ (collectHwmon_fst_self acc ch hne)
    · exact (ih _).2 ch hch hne

/-- Every chip that owns a PWM channel is in `usedHwmons`. -/
theorem mem_usedHwmons_of_fans (hs : List Hwmon) (c : Nat) (h : Hwmon) (hc : hs[c]? = some h)
    (hne : h.pwmFans ≠ []) : c ∈ (collectUsed hs).1 :=
  (foldl_collectHwmon_fst hs.enum ([], [])).2 (c, h) (List.mem_enum_iff_getElem?.2 hc) hne

theorem split_headD_takeWhile (sep : Char) (s : QString) :
    (split s sep).headD [] = s.takeWhile (fun c => c != sep) := by
  unfold split
  induction s with
  | nil => rfl
  | cons c cs ih =>
    by_cases hc : c = sep
    · subst hc
      simp [splitBy, List.takeWhile]
    · have hb : (c == sep) = false := by simpa using hc
      simp only [splitBy, hb, Bool.false_eq_true, if_false, List.takeWhile, bne, Bool.not_false]
      cases hx : splitBy (fun c => c == sep) cs with
      | nil => exact absurd hx (splitBy_ne_nil _ cs)
      | cons w ws =>
        rw [hx] at ih
        simp only [List.headD_cons] at ih ⊢
        rw [ih]
        rfl

theorem space_not_mem_chipId (c : Nat) : ' ' ∉ chipId c := by
  have h1 := not_mem_number (hwmonIndex c) ' ' (by decide) (by decide)
  simp only [chipId, List.mem_append, not_or]
  exact ⟨by decide, h1⟩

theorem eq_not_mem_chipId (c : Nat) : '=' ∉ chipId c := by
  have h1 := not_mem_number (hwmonIndex c) '=' (by decide) (by decide)
  simp only [chipId, List.mem_append, not_or]
  exact ⟨by decide, h1⟩

theorem chipLine_tokens (key : QString) (cs : List Nat) (val : Nat → QString)
    (hval : ∀ c ∈ cs, ' ' ∉ val c) :
    lineTokens key (key ++ cs.flatMap (fun c => (chipId c ++ '=' :: val c) ++ [' ']))
        = cs.map (fun c => chipId c ++ '=' :: val c) ∧
      lineIds key (key ++ cs.flatMap (fun c => (chipId c ++ '=' :: val c) ++ [' ']))
        = cs.map chipId := by
  have htok : lineTokens key (key ++ cs.flatMap (fun c => (chipId c ++ '=' :: val c) ++ [' ']))
      = cs.map (fun c => chipId c ++ '=' :: val c) := by
    unfold lineTokens
    rw [List.drop_left]
    unfold split
    rw [splitBy_tokens (fun c => c == ' ') ' ' (by decide)
      (fun c : Nat => chipId c ++ '=' :: val c) cs]
    · rw [List.filter_append]
      have hf : (cs.map (fun c : Nat => chipId c ++ '=' :: val c)).filter
          (fun t => !t.isEmpty) = cs.map (fun c : Nat => chipId c ++ '=' :: val c) := by
        rw [List.filter_eq_self]
        intro t ht
        obtain ⟨c, _, rfl⟩ := List.mem_map.1 ht
        cases hci : chipId c <;> simp
      rw [hf]
      simp
    · intro c hc x hx
      simp only [beq_eq_false_iff_ne, ne_eq]
      rintro rfl
      rcases List.mem_append.1 hx with hx | hx
      · exact space_not_mem_chipId c hx
      · rcases List.mem_cons.1 hx with hx | hx
        · exact absurd hx (by decide)
        · exact hval c hc hx
  refine ⟨htok, ?_⟩
  show (lineTokens key _).map (fun t => (split t '=').headD []) = _
  rw [htok, List.map_map]
  apply List.map_congr_left
  intro c _
  simp only [Function.comp]
  unfold split
  rw [splitBy_append_sep (fun c => c == '=') _ _ '=' (by decide)]
  · rfl
  · intro x hx
    have := eq_not_mem_chipId c
    simp only [beq_eq_false_iff_ne, ne_eq]
    rintro rfl
    exact this hx

theorem hwmonAt_cases (hs : List Hwmon) (c : Nat) :
    hwmonAt hs c ∈ hs ∨ hwmonAt hs c = ⟨[], [], [], []⟩ := by
  unfold hwmonAt
  cases h : hs[c]? with
  | none => exact Or.inr rfl
  | some x => exact Or.inl (List.getElem?_mem h)

theorem devpathLine_eq (l : Loader) :
    devpathLine l = "DEVPATH=".toList ++ (collectUsed l.hwmons).1.flatMap
      (fun c => (chipId c ++ '=' :: sanitizedPath (hwmonAt l.hwmons c).path) ++ [' ']) := by
  show "DEVPATH=".toList ++ (collectUsed l.hwmons).1.flatMap (devpathToken l.hwmons) = _
  congr 1
  apply flatMap_congr_mem
  intro c _
  simp [devpathToken, chipId]

theorem devnameLine_eq (l : Loader) :
    devnameLine l = "DEVNAME=".toList ++ (collectUsed l.hwmons).1.flatMap
      (fun c => (chipId c ++ '=' :: (hwmonAt l.hwmons c).name.takeWhile (fun x => x != '.'))
        ++ [' ']) := by
  show "DEVNAME=".toList ++ (collectUsed l.hwmons).1.flatMap (devnameToken l.hwmons) = _
  congr 1
  apply flatMap_congr_mem
  intro c _
  have := split_headD_takeWhile '.' (hwmonAt l.hwmons c).name
  simp only [devnameToken, chipId, this, List.append_assoc, List.cons_append,
    List.nil_append, List.singleton_append, String.toList]

/-- C11: the `DEVPATH` and `DEVNAME` lines are written from one list of chips, token by
token in the same order, `hwmon<index>=<sanitized path>` in the first and
`hwmon<index>=<name up to its first dot>` in the second, and every chip that owns a PWM
channel, used or not, is in that list. When no chip path or name holds a space, reading
either line back as tokens between spaces gives exactly these tokens, so both lines list the
same chip indices in the same order. -/
theorem chip_coverage (l : Loader) :
    ∃ cs : List Nat,
      devpathLine l = "DEVPATH=".toList ++ cs.flatMap
        (fun c => (chipId c ++ '=' :: sanitizedPath (hwmonAt l.hwmons c).path) ++ [' ']) ∧
      devnameLine l = "DEVNAME=".toList ++ cs.flatMap
        (fun c => (chipId c ++ '=' :: (hwmonAt l.hwmons c).name.takeWhile (fun x => x != '.'))
          ++ [' ']) ∧
      (∀ c h, l.hwmons[c]? = some h → h.pwmFans ≠ [] → c ∈ cs) ∧
      ((∀ h ∈ l.hwmons, ' ' ∉ h.path ∧ ' ' ∉ h.name) →
        lineIds "DEVPATH=".toList (devpathLine l) = cs.map chipId ∧
        lineIds "DEVNAME=".toList (devnameLine l) = cs.map chipId ∧
        lineTokens "DEVNAME=".toList (devnameLine l) = cs.map
          (fun c => chipId c ++ '=' :: (hwmonAt l.hwmons c).name.takeWhile (fun x => x != '.')) ∧
        ∀ c h, l.hwmons[c]? = some h → h.pwmFans ≠ [] →
          chipId c ∈ lineIds "DEVPATH=".toList (devpathLine l) ∧
          chipId c ∈ lineIds "DEVNAME=".toList (devnameLine l) ∧
          (chipId c ++ '=' :: h.name.takeWhile (fun x => x != '.'))
            ∈ lineTokens "DEVNAME=".toList (devnameLine l)) := by
  refine ⟨(collectUsed l.hwmons).1, devpathLine_eq l, devnameLine_eq l,
    fun c h hc hne => mem_usedHwmons_of_fans l.hwmons c h hc hne, ?_⟩
  intro hsp
  have hat : ∀ c, ' ' ∉ (hwmonAt l.hwmons c).path ∧ ' ' ∉ (hwmonAt l.hwmons c).name := by
    intro c
    rcases hwmonAt_cases l.hwmons c with h | h
    · exact hsp _ h
    · rw [h]
      exact ⟨List.not_mem_nil _, List.not_mem_nil _⟩
  have hp := chipLine_tokens "DEVPATH=".toList (collectUsed l.hwmons).1
    (fun c => sanitizedPath (hwmonAt l.hwmons c).path)
    (fun c _ hc => (hat c).1 (mem_of_mem_sanitizedPath _ _ hc))
  have hn := chipLine_tokens "DEVNAME=".toList (collectUsed l.hwmons).1
    (fun c => (hwmonAt l.hwmons c).name.takeWhile (fun x => x != '.'))
    (fun c _ hc => (hat c).2 ((List.takeWhile_sublist _).subset hc))
  rw [← devpathLine_eq] at hp
  rw [← devnameLine_eq] at hn
  refine ⟨hp.2, hn.2, hn.1, ?_⟩
  intro c h hc hne
  have hmem := mem_usedHwmons_of_fans l.hwmons c h hc hne
  refine ⟨?_, ?_, ?_⟩
  · rw [hp.2]
    exact List.mem_map_of_mem _ hmem
  · rw [hn.2]
    exact List.mem_map_of_mem _ hmem
  · rw [hn.1]
    refine List.mem_map.2 ⟨c, hmem, ?_⟩
    show chipId c ++ '=' :: List.takeWhile (fun x => x != '.') (hwmonAt l.hwmons c).name = _
    unfold hwmonAt
    rw [hc]
    rfl

theorem chip_coverage_witness :
    lineIds "DEVPATH=".toList (devpathLine sampleLoader)
      = lineIds "DEVNAME=".toList (devnameLine sampleLoader) ∧
    chipId 0 ∈ lineIds "DEVPATH=".toList (devpathLine sampleLoader) ∧
    "hwmon0=it8728".toList ∈ lineTokens "DEVNAME=".toList (devnameLine sampleLoader) := by
  obtain ⟨cs, -, -, -, h⟩ := chip_coverage sampleLoader
  have hs := h (by decide)
  exact ⟨hs.1.trans hs.2.1.symm, (hs.2.2.2 0 sampleChip rfl (by decide)).1,
    (hs.2.2.2 0 sampleChip rfl (by decide)).2.2⟩

/-- C19: two chips that own a PWM channel each, the used fan of the first driven by a
`Temp` of the second: `usedHwmons` takes the second chip as the parent of that `Temp` and
again when its turn comes, so the `DEVPATH` and `DEVNAME` lines hold two tokens
`hwmon1=`. -/
theorem later_chip_listed_twice :
    (collectUsed crossChips.hwmons).1 = [0, 1, 1] ∧
    devpathLine crossChips
      = "DEVPATH=hwmon0=devices/x hwmon1=devices/y hwmon1=devices/y ".toList ∧
    devnameLine crossChips = "DEVNAME=hwmon0=first hwmon1=second hwmon1=second ".toList ∧
    lineIds "DEVPATH=".toList (devpathLine crossChips) = [chipId 0, chipId 1, chipId 1] ∧
    lineIds "DEVNAME=".toList (devnameLine crossChips) = [chipId 0, chipId 1, chipId 1] := by
  decide


/-- C12: the document whose only fan has a `Temp` but is not active has no used fan; its
serialization `t1` has the per-fan lines without tokens, and loading `t1` stops at the
`FCTEMPS=` line with an out-of-range `at(1)`, so there is no state `s1` to serialize again.
For the same document with the fan active the chain runs and the text is stable. -/
theorem idempotence_stops_at_first_parse :
    usedFansOf sampleIdle.hwmons = [] ∧
    configText sampleIdle
      = ("INTERVAL=10\nDEVPATH=hwmon0=devices/platform/it87.656 \nDEVNAME=hwmon0=it8728 \n"
          ++ "FCTEMPS=\nFCFANS=\nMINTEMP=\nMAXTEMP=\nMINSTART=\nMINSTOP=\nMINPWM=\n"
          ++ "MAXPWM=\n").toList ∧
    sampleIdle.open "/etc/fancontrol".toList (.opened (configText sampleIdle))
      = .error .indexOutOfRange ∧
    (sampleUsed.open "/etc/fancontrol".toList (.opened (configText sampleUsed))).map configText
      = .ok (configText sampleUsed) :=
  ⟨by decide, by decide, by decide, by set_option maxRecDepth 100000 in decide⟩


/-! ## The text is stable under loading it again -/

theorem used_written (f : PwmFan) : f.written.used = f.used := by
  unfold PwmFan.written
  by_cases h : f.used = true
  · rw [if_pos h]
  · rw [if_neg h]
    have hf : f.used = false := by simpa using h
    rw [hf]
    simp [PwmFan.used]

theorem collectFan_written (c : Nat) (acc : List Nat × List (Nat × PwmFan)) (f : PwmFan) :
    collectFan c acc f.written = collectFan c acc f := by
  by_cases h : f.used = true
  · unfold PwmFan.written
    rw [if_pos h]
  · have hf : f.used = false := by simpa using h
    have h1 : collectFan c acc f = acc := by
      unfold collectFan
      unfold PwmFan.used at hf
      cases ht : f.temp with
      | none => rfl
      | some t =>
        simp only [PwmFan.hasTemp]
        rw [if_neg (by rw [hf]; decide)]
    have h2 : collectFan c acc f.written = acc := by
      unfold PwmFan.written
      rw [if_neg h]
      rfl
    rw [h1, h2]

theorem foldl_collectFan_written (c : Nat) (fans : List PwmFan) :
    ∀ acc : List Nat × List (Nat × PwmFan),
      (fans.map PwmFan.written).foldl (collectFan c) acc = fans.foldl (collectFan c) acc := by
  induction fans with
  | nil => intro acc; rfl
  | cons f fans ih =>
    intro acc
    rw [List.map_cons, List.foldl_cons, List.foldl_cons, collectFan_written, ih]

theorem collectUsed_writtenPart (hs : List Hwmon) :
    collectUsed (writtenPart hs) = collectUsed hs := by
  unfold collectUsed writtenPart
  rw [List.enum_map, List.foldl_map]
  congr 1
  funext acc ch
  unfold collectHwmon
  simp only [Prod.map_fst, Prod.map_snd, id, List.length_map]
  exact foldl_collectFan_written _ _ _

theorem hwmonAt_writtenPart (hs : List Hwmon) (c : Nat) :
    (hwmonAt (writtenPart hs) c).path = (hwmonAt hs c).path ∧
      (hwmonAt (writtenPart hs) c).name = (hwmonAt hs c).name := by
  unfold hwmonAt writtenPart
  rw [List.getElem?_map]
  cases hs[c]? <;> exact ⟨rfl, rfl⟩

theorem configLines_writtenPart (l : Loader) :
    configLines { l with hwmons := writtenPart l.hwmons } = configLines l := by
  unfold configLines
  simp only [collectUsed_writtenPart]
  have hp : devpathToken (writtenPart l.hwmons) = devpathToken l.hwmons := by
    funext c
    unfold devpathToken
    rw [(hwmonAt_writtenPart l.hwmons c).1]
  have hn : devnameToken (writtenPart l.hwmons) = devnameToken l.hwmons := by
    funext c
    unfold devnameToken
    rw [(hwmonAt_writtenPart l.hwmons c).2]
  rw [hp, hn]

theorem configText_congr (l l' : Loader) (hi : l.interval = l'.interval)
    (hw : writtenPart l.hwmons = writtenPart l'.hwmons) : configText l = configText l' := by
  unfold configText
  rw [← configLines_writtenPart l, ← configLines_writtenPart l']
  have : ({ l with hwmons := writtenPart l.hwmons } : Loader).interval
      = ({ l' with hwmons := writtenPart l'.hwmons } : Loader).interval := hi
  unfold configLines
  simp only [hw, hi]

theorem writtenPart_eq_of_pointwise (hs hs' : List Hwmon) (hsk : skeleton hs = skeleton hs')
    (hfan : ∀ c j, (fanAt hs c j).map PwmFan.written = (fanAt hs' c j).map PwmFan.written) :
    writtenPart hs = writtenPart hs' := by
  apply List.ext_getElem?
  intro c
  unfold writtenPart
  rw [List.getElem?_map, List.getElem?_map]
  have hc : (skeleton hs)[c]? = (skeleton hs')[c]? := by rw [hsk]
  unfold skeleton at hc
  rw [List.getElem?_map, List.getElem?_map] at hc
  cases h1 : hs[c]? with
  | none =>
    rw [h1] at hc
    cases h2 : hs'[c]? with
    | none => rfl
    | some b => rw [h2] at hc; cases hc
  | some a =>
    rw [h1] at hc
    cases h2 : hs'[c]? with
    | none => rw [h2] at hc; cases hc
    | some b =>
      rw [h2] at hc
      simp only [Option.map_some', Option.some.injEq, Prod.mk.injEq] at hc
      obtain ⟨hp, hn, ht, -⟩ := hc
      have hfans : a.pwmFans.map PwmFan.written = b.pwmFans.map PwmFan.written := by
        apply List.ext_getElem?
        intro j
        have := hfan c j
        unfold fanAt at this
        rw [h1, h2] at this
        rw [List.getElem?_map, List.getElem?_map]
        exact this
      cases a
      cases b
      simp only at hp hn ht hfans
      simp only [Option.map_some', hp, hn, ht, hfans]

theorem restoredFrom_self (f g : PwmFan) (hi : g.index = f.index) (ha : g.active = f.active) :
    f.restoredFrom g = f := by
  cases f
  cases g
  simp only at hi ha
  simp only [PwmFan.restoredFrom, hi, ha]

theorem written_reset (f g : PwmFan) (hi : g.index = f.index) (ha : g.active = f.active)
    (hu : f.used = false) : g.reset.written = f.written := by
  have hg : g.reset.used = false := by simp [PwmFan.used, PwmFan.reset]
  unfold PwmFan.written
  rw [hg, hu]
  simp only [Bool.false_eq_true, if_false, PwmFan.reset, hi, ha]

/-- Loading the text written from a well-formed document with a used fan, into any document
over the same chips and channels, completes and gives a document that is written as the
same text. -/
theorem reload_same_text (l p : Loader) (url : QString) (hwf : WellFormed l)
    (hne : usedFansOf l.hwmons ≠ []) (hp : skeleton p.hwmons = skeleton l.hwmons) :
    ∃ s, p.open url (.opened (configText l)) = .ok s ∧ configText s = configText l ∧
      skeleton s.hwmons = skeleton l.hwmons := by
  obtain ⟨s, hopen, hint, hfans⟩ := roundtrip_of_used l p url hwf hne
    (channelsOf_of_skeleton _ _ hp)
  have hsk : skeleton s.hwmons = skeleton l.hwmons :=
    ((parse_frame _ _ _ _ hopen).2.2.2).trans hp
  refine ⟨s, hopen, ?_, hsk⟩
  apply configText_congr _ _ hint
  apply writtenPart_eq_of_pointwise _ _ hsk
  intro c j
  cases hf : fanAt l.hwmons c j with
  | none =>
    have h1 := fanAt_skeleton l.hwmons c j
    have h2 := fanAt_skeleton s.hwmons c j
    rw [hsk, ← h1, hf] at h2
    cases hs : fanAt s.hwmons c j with
    | none => rfl
    | some x => rw [hs] at h2; cases h2
  | some f =>
    obtain ⟨g, hg, hgi, hga⟩ := fanAt_of_skeleton l.hwmons p.hwmons hp.symm c j f hf
    rw [hfans c j f hf, hg]
    simp only [Option.map_some', Option.some.injEq]
    by_cases hu : f.used = true
    · rw [if_pos hu, restoredFrom_self f g hgi hga]
    · rw [if_neg hu]
      exact written_reset f g hgi hga (by simpa using hu)

/-- For a well-formed document with a used fan the chain of the idempotence law runs and
the text is stable from the first pass on. -/
theorem stable_of_used (l : Loader) (url : QString) (hwf : WellFormed l)
    (hne : usedFansOf l.hwmons ≠ []) :
    ∃ s1 s2, l.open url (.opened (configText l)) = .ok s1 ∧
      s1.open url (.opened (configText s1)) = .ok s2 ∧
      configText s1 = configText l ∧ configText s2 = configText s1 := by
  obtain ⟨s1, h1, ht1, hk1⟩ := reload_same_text l l url hwf hne rfl
  obtain ⟨s2, h2, ht2, -⟩ := reload_same_text l s1 url hwf hne hk1
  refine ⟨s1, s2, h1, ?_, ht1, ht2.trans ht1.symm⟩
  rw [ht1]
  exact h2


/-! ## When `usedHwmons` has no chip twice -/

theorem collectFan_fst_inv (c : Nat) (P : Nat → Prop) (f : PwmFan)
    (hf : f.used = true → ∀ t, f.temp = some t → t.parent ≤ c ∨ P t.parent)
    (acc : List Nat × List (Nat × PwmFan))
    (hacc : acc.1.Nodup ∧ ∀ x ∈ acc.1, x ≤ c ∨ P x) :
    (collectFan c acc f).1.Nodup ∧ ∀ x ∈ (collectFan c acc f).1, x ≤ c ∨ P x := by
  unfold collectFan
  cases ht : f.temp with
  | none => exact hacc
  | some t =>
    dsimp only
    by_cases hu : (f.active && f.hasTemp) = true
    · rw [if_pos hu]
      dsimp only
      by_cases hin : acc.1.contains t.parent = true
      · rw [if_pos hin]
        exact hacc
      · rw [if_neg hin]
        have hnot : t.parent ∉ acc.1 := by simpa using hin
        refine ⟨List.Nodup.append hacc.1 (List.nodup_singleton _) ?_, ?_⟩
        · intro x hx hx'
          rw [List.mem_singleton] at hx'
          subst hx'
          exact hnot hx
        · intro x hx
          rcases List.mem_append.1 hx with hx | hx
          · exact hacc.2 x hx
          · rw [List.mem_singleton] at hx
            subst hx
            exact hf hu t ht
    · rw [if_neg hu]
      exact hacc

theorem foldl_collectFan_fst_inv (c : Nat) (P : Nat → Prop) (fans : List PwmFan) :
    (∀ f ∈ fans, f.used = true → ∀ t, f.temp = some t → t.parent ≤ c ∨ P t.parent) →
    ∀ acc : List Nat × List (Nat × PwmFan), (acc.1.Nodup ∧ ∀ x ∈ acc.1, x ≤ c ∨ P x) →
      (fans.foldl (collectFan c) acc).1.Nodup ∧
        ∀ x ∈ (fans.foldl (collectFan c) acc).1, x ≤ c ∨ P x := by
  induction fans with
  | nil => intro _ acc hacc; exact hacc
  | cons f fans ih =>
    intro hf acc hacc
    rw [List.foldl_cons]
    exact ih (fun g hg => hf g (List.mem_cons_of_mem _ hg)) _
      (collectFan_fst_inv c P f (hf f (List.mem_cons_self _ _)) acc hacc)

theorem foldl_collectHwmon_nodup (P : Nat → Prop) (chs : List (Nat × Hwmon)) :
    chs.Pairwise (fun a b => a.1 < b.1) →
    (∀ ch ∈ chs, P ch.1 → ch.2.pwmFans = []) →
    (∀ ch ∈ chs, ∀ f ∈ ch.2.pwmFans, f.used = true → ∀ t, f.temp = some t →
      t.parent ≤ ch.1 ∨ P t.parent) →
    ∀ acc : List Nat × List (Nat × PwmFan),
      (acc.1.Nodup ∧ ∀ x ∈ acc.1, (∀ ch ∈ chs, x < ch.1) ∨ P x) →
      (chs.foldl collectHwmon acc).1.Nodup := by
  induction chs with
  | nil => intro _ _ _ acc hacc; exact hacc.1
  | cons a chs ih =>
    intro hpw hP hT acc hacc
    rw [List.foldl_cons]
    rw [List.pairwise_cons] at hpw
    apply ih hpw.2 (fun ch hch => hP ch (List.mem_cons_of_mem _ hch))
      (fun ch hch => hT ch (List.mem_cons_of_mem _ hch))
    have hstart : (if a.2.pwmFans.length > 0 then (acc.1 ++ [a.1], acc.2) else acc).1.Nodup ∧
        ∀ x ∈ (if a.2.pwmFans.length > 0 then (acc.1 ++ [a.1], acc.2) else acc).1,
          x ≤ a.1 ∨ P x := by
      have hold : ∀ x ∈ acc.1, x ≤ a.1 ∨ P x := by
        intro x hx
        rcases hacc.2 x hx with h | h
        · exact Or.inl (Nat.le_of_lt (h a (List.mem_cons_self _ _)))
        · exact Or.inr h
      by_cases hlen : a.2.pwmFans.length > 0
      · rw [if_pos hlen]
        have hnot : a.1 ∉ acc.1 := by
          intro hin
          rcases hacc.2 a.1 hin with h | h
          · exact Nat.lt_irrefl _ (h a (List.mem_cons_self _ _))
          · have := hP a (List.mem_cons_self _ _) h
            rw [this] at hlen
            exact Nat.lt_irrefl _ hlen
        refine ⟨List.Nodup.append hacc.1 (List.nodup_singleton _) ?_, ?_⟩
        · intro x hx hx'
          rw [List.mem_singleton] at hx'
          subst hx'
          exact hnot hx
        · intro x hx
          rcases List.mem_append.1 hx with hx | hx
          · exact hold x hx
          · rw [List.mem_singleton] at hx
            subst hx
            exact Or.inl (Nat.le_refl _)
      · rw [if_neg hlen]
        exact ⟨hacc.1, hold⟩
    have hend := foldl_collectFan_fst_inv a.1 P a.2.pwmFans (hT a (List.mem_cons_self _ _)) _
      hstart
    refine ⟨hend.1, ?_⟩
    intro x hx
    rcases hend.2 x hx with h | h
    · exact Or.inl (fun ch hch => Nat.lt_of_le_of_lt h (hpw.1 ch hch))
    · exact Or.inr h

theorem pairwise_enumFrom (hs : List Hwmon) :
    ∀ n, (hs.enumFrom n).Pairwise (fun a b => a.1 < b.1) := by
  induction hs with
  | nil => intro n; exact List.Pairwise.nil
  | cons h hs ih =>
    intro n
    rw [List.enumFrom_cons, List.pairwise_cons]
    refine ⟨?_, ih (n + 1)⟩
    intro b hb
    exact List.le_fst_of_mem_enumFrom hb

/-- The list `usedHwmons` has no chip twice when the `Temp` of every used fan is on the
fan's own chip, on an earlier chip, or on a chip without PWM channels. -/
theorem nodup_usedHwmons (hs : List Hwmon)
    (hcond : ∀ (c : Nat) (h : Hwmon) (f : PwmFan) (t : Temp), hs[c]? = some h →
      f ∈ h.pwmFans → f.used = true → f.temp = some t →
      t.parent ≤ c ∨ ∀ h' : Hwmon, hs[t.parent]? = some h' → h'.pwmFans = []) :
    (collectUsed hs).1.Nodup := by
  unfold collectUsed
  apply foldl_collectHwmon_nodup (fun x => ∀ h' : Hwmon, hs[x]? = some h' → h'.pwmFans = [])
    hs.enum
    (pairwise_enumFrom hs 0)
  · intro ch hch hP
    exact hP ch.2 (List.mem_enum_iff_getElem?.1 hch)
  · intro ch hch f hf hu t ht
    exact hcond ch.1 ch.2 f t (List.mem_enum_iff_getElem?.1 hch) hf hu ht
  · exact ⟨List.nodup_nil, fun x hx => nomatch hx⟩


/-! ## Decimal integers, read by `toInt` -/

theorem parseDigitsFrom_value (r : QString) :
    ∀ acc : Nat, r.all Char.isDigit = true →
      parseDigitsFrom acc r = some (acc * 10 ^ r.length + Nat.ofDigits 10 (placeValues r)) := by
  induction r with
  | nil =>
    intro acc _
    simp [parseDigitsFrom, placeValues]
  | cons c cs ih =>
    intro acc h
    rw [List.all_cons, Bool.and_eq_true] at h
    have hd : digitValue c = some (c.toNat - 48) := by
      have hc := h.1
      unfold Char.isDigit at hc
      simp only [Bool.and_eq_true, decide_eq_true_eq] at hc
      unfold digitValue
      have h1 : 48 ≤ c.toNat := hc.1
      have h2 : c.toNat ≤ 57 := hc.2
      rw [if_pos ⟨h1, h2⟩]
    unfold parseDigitsFrom
    rw [hd]
    dsimp only
    rw [ih _ h.2]
    congr 1
    unfold placeValues
    rw [List.reverse_cons, List.map_append, Nat.ofDigits_append]
    simp only [List.map_cons, List.map_nil, Nat.ofDigits_singleton, List.length_map,
      List.length_reverse, List.length_cons]
    ring

theorem parseDigits_value (r : QString) (h : isDigits r = true) :
    parseDigits r = some (Nat.ofDigits 10 (placeValues r)) := by
  unfold isDigits at h
  rw [Bool.and_eq_true] at h
  cases r with
  | nil => simp at h
  | cons c cs =>
    show parseDigitsFrom 0 (c :: cs) = _
    rw [parseDigitsFrom_value _ 0 h.2]
    simp

theorem parseSigned_value (s : QString) (h : isDecimalInteger s = true) :
    parseSigned s = some (decimalValue s) := by
  unfold parseSigned decimalValue
  unfold isDecimalInteger at h
  split
  · simp only at h
    rw [parseDigits_value _ h]
    rfl
  · simp only at h
    rw [parseDigits_value _ h]
    rfl
  · rename_i h1 h2
    have h' : isDigits s = true := by
      split at h
      · exact absurd rfl (h1 _)
      · exact absurd rfl (h2 _)
      · exact h
    rw [parseDigits_value _ h']
    rfl

/-- The conversion `toInt` on a decimal integer, blanks at its ends aside: its value when
that fits an `int`, else 0. -/
theorem toInt_decimal (s : QString) (h : isDecimalInteger (trimmed s) = true) :
    toInt s = if fitsInt (decimalValue (trimmed s)) = true then decimalValue (trimmed s)
      else 0 := by
  unfold toInt
  rw [parseSigned_value _ h]
  dsimp only
  unfold fitsInt
  by_cases hr : -2147483648 ≤ decimalValue (trimmed s) ∧ decimalValue (trimmed s) ≤ 2147483647
  · rw [if_pos hr, if_pos (by simp [hr.1, hr.2])]
  · rw [if_neg hr, if_neg (by
      intro hc
      simp only [Bool.and_eq_true, decide_eq_true_eq] at hc
      exact hr hc)]

theorem mem_dropWhile_or {α : Type} (p : α → Bool) (l : List α) (x : α) (hx : x ∈ l) :
    p x = true ∨ x ∈ l.dropWhile p := by
  induction l with
  | nil => cases hx
  | cons a l ih =>
    by_cases ha : p a = true
    · rcases List.mem_cons.1 hx with rfl | hx
      · exact Or.inl ha
      · rw [List.dropWhile_cons_of_pos ha]
        exact ih hx
    · rw [List.dropWhile_cons_of_neg ha]
      exact Or.inr hx

theorem mem_trimmed_or_space (s : QString) (c : Char) (hc : c ∈ s) :
    isSpace c = true ∨ c ∈ trimmed s := by
  unfold trimmed
  rcases mem_dropWhile_or isSpace s c hc with h | h
  · exact Or.inl h
  · rcases mem_dropWhile_or isSpace (s.dropWhile isSpace).reverse c (List.mem_reverse.2 h)
      with h' | h'
    · exact Or.inl h'
    · exact Or.inr (List.mem_reverse.2 h')

theorem mem_decimal (s : QString) (h : isDecimalInteger s = true) (c : Char) (hc : c ∈ s) :
    c = '-' ∨ c = '+' ∨ c.isDigit = true := by
  have hd : ∀ r : QString, isDigits r = true → ∀ x ∈ r, x.isDigit = true := by
    intro r hr x hx
    unfold isDigits at hr
    rw [Bool.and_eq_true] at hr
    exact List.all_eq_true.1 hr.2 x hx
  unfold isDecimalInteger at h
  split at h
  · rcases List.mem_cons.1 hc with rfl | hc
    · exact Or.inl rfl
    · exact Or.inr (Or.inr (hd _ h _ hc))
  · rcases List.mem_cons.1 hc with rfl | hc
    · exact Or.inr (Or.inl rfl)
    · exact Or.inr (Or.inr (hd _ h _ hc))
  · exact Or.inr (Or.inr (hd _ h _ hc))

/-- A text that, blanks aside, is a decimal integer holds neither `=` nor the key
`INTERVAL=`. -/
theorem decimal_has_no_key (s : QString) (h : isDecimalInteger (trimmed s) = true) :
    '=' ∉ s ∧ ¬ "INTERVAL=".toList <:+: s := by
  have heq : '=' ∉ s := by
    intro hc
    rcases mem_trimmed_or_space s '=' hc with h1 | h1
    · exact absurd h1 (by decide)
    · rcases mem_decimal _ h _ h1 with h2 | h2 | h2
      · exact absurd h2 (by decide)
      · exact absurd h2 (by decide)
      · exact absurd h2 (by decide)
  exact ⟨heq, fun hin => heq (hin.subset (by decide))⟩
theorem decimal_number (n : Int) :
    isDecimalInteger (trimmed (number n)) = true ∧ decimalValue (trimmed (number n)) = n := by
  rw [trimmed_of_no_space _ (isSpace_number n)]
  have hs := parseSigned_isSome (number n)
  rw [parseSigned_number] at hs
  have hd : isDecimalInteger (number n) = true := hs.symm
  have hv := parseSigned_value (number n) hd
  rw [parseSigned_number] at hv
  exact ⟨hd, (Option.some.inj hv).symm⟩

/-- C6, amended (lenient numbers). A threshold pair `id=payload` whose `id` resolves to a
fan and whose `payload` holds no `=` completes and sets the field of the directive on that
fan: to 0 when the payload, blanks at its ends aside, is not a decimal integer; to the value
of the payload when it is a decimal integer (an optional sign, then digits) that fits a
32-bit `int`; to 0 when it is a decimal integer that does not fit. The line
`INTERVAL=payload` sets the interval to 0 when `payload` does not hold the text `INTERVAL=`
and, blanks at its ends aside, is not a decimal integer; when `payload` is, blanks aside, a
decimal integer, it sets the interval to its value if that fits a 32-bit `int` and to 0 if
not. The decimal rendering of `n` is a decimal integer of value `n`. The line
`MINTEMP=hwmon0/pwm1=abc` sets `minTemp` of `pwm1` to 0. -/
theorem lenient_numbers (l : Loader) :
    (∀ (d : Threshold) (id payload : QString) (c j : Nat) (f : PwmFan),
      '=' ∉ id → '=' ∉ payload → resolvePwm l.hwmons id = some (c, j) →
      fanAt l.hwmons c j = some f →
      thresholdToken d l (id ++ '=' :: payload)
          = .ok (l.modifyFan (PwmFan.set d (toInt payload)) c j) ∧
        fanAt (l.modifyFan (PwmFan.set d (toInt payload)) c j).hwmons c j
          = some (f.set d (toInt payload)) ∧
        (f.set d (toInt payload)).get d = toInt payload ∧
        (isDecimalInteger (trimmed payload) = false → toInt payload = 0) ∧
        (isDecimalInteger (trimmed payload) = true →
          fitsInt (decimalValue (trimmed payload)) = true →
          toInt payload = decimalValue (trimmed payload)) ∧
        (isDecimalInteger (trimmed payload) = true →
          fitsInt (decimalValue (trimmed payload)) = false → toInt payload = 0)) ∧
    (∀ text : QString, ¬ "INTERVAL=".toList <:+: text →
      isDecimalInteger (trimmed text) = false →
      processLine l ("INTERVAL=".toList ++ text) = .ok (l.setInterval 0)) ∧
    (∀ text : QString, isDecimalInteger (trimmed text) = true →
      fitsInt (decimalValue (trimmed text)) = true →
      processLine l ("INTERVAL=".toList ++ text)
        = .ok (l.setInterval (decimalValue (trimmed text)))) ∧
    (∀ text : QString, isDecimalInteger (trimmed text) = true →
      fitsInt (decimalValue (trimmed text)) = false →
      processLine l ("INTERVAL=".toList ++ text) = .ok (l.setInterval 0)) ∧
    (∀ n : Int, isDecimalInteger (trimmed (number n)) = true ∧
      decimalValue (trimmed (number n)) = n) ∧
    (sampleLoader.open "/etc/fancontrol".toList
        (.opened "MINTEMP=hwmon0/pwm1=abc\n".toList)).map
      (fun s => (fanAt s.hwmons 0 0).map (fun g => g.minTemp)) = .ok (some 0) := by
  refine ⟨?_, ?_, ?_, ?_, decimal_number, by decide⟩
  · intro d id payload c j f hid hpl hres hf
    have h := thresholdToken_pair d l id payload c j f hid hpl hres hf
    refine ⟨h.1, h.2, by cases d <;> rfl, toInt_of_not_decimal _, ?_, ?_⟩
    · intro hdec hfit
      rw [toInt_decimal _ hdec, if_pos hfit]
    · intro hdec hfit
      rw [toInt_decimal _ hdec, if_neg (by rw [hfit]; decide)]
  · intro text hin hb
    rw [processLine_interval, show remove text "INTERVAL=".toList = text from
      removeAux_of_not_infix _ _ hin, toInt_of_not_decimal _ hb]
  · intro text hdec hfit
    rw [processLine_interval, show remove text "INTERVAL=".toList = text from
      removeAux_of_not_infix _ _ (decimal_has_no_key text hdec).2, toInt_decimal _ hdec,
      if_pos hfit]
  · intro text hdec hfit
    rw [processLine_interval, show remove text "INTERVAL=".toList = text from
      removeAux_of_not_infix _ _ (decimal_has_no_key text hdec).2, toInt_decimal _ hdec,
      if_neg (by rw [hfit]; decide)]

/-- The pair `hwmon0/pwm1=abc` and the lines `INTERVAL=fast`, `INTERVAL=+5`, `INTERVAL=007`,
`INTERVAL= -25 ` and `INTERVAL=4294967296` on the sample document. -/
theorem lenient_numbers_witness :
    (thresholdToken .minTemp sampleLoader ("hwmon0/pwm1".toList ++ '=' :: "abc".toList)
        = .ok (sampleLoader.modifyFan (PwmFan.set .minTemp 0) 0 0) ∧
      fanAt (sampleLoader.modifyFan (PwmFan.set .minTemp 0) 0 0).hwmons 0 0
        = some (samplePwm.set .minTemp 0)) ∧
    processLine sampleLoader "INTERVAL=fast".toList = .ok (sampleLoader.setInterval 0) ∧
    processLine sampleLoader "INTERVAL=+5".toList = .ok (sampleLoader.setInterval 5) ∧
    processLine sampleLoader "INTERVAL=007".toList = .ok (sampleLoader.setInterval 7) ∧
    processLine sampleLoader "INTERVAL= -25 ".toList = .ok (sampleLoader.setInterval (-25)) ∧
    processLine sampleLoader "INTERVAL=4294967296".toList
      = .ok (sampleLoader.setInterval 0) := by
  have h := lenient_numbers sampleLoader
  have ht := h.1 .minTemp "hwmon0/pwm1".toList "abc".toList 0 0 samplePwm (by decide)
    (by decide) (by decide) (by decide)
  have h0 : toInt "abc".toList = 0 := ht.2.2.2.1 (by decide)
  refine ⟨?_, h.2.1 "fast".toList (by decide) (by decide),
    h.2.2.1 "+5".toList (by decide) (by decide),
    h.2.2.1 "007".toList (by decide) (by decide),
    h.2.2.1 " -25 ".toList (by decide) (by decide),
    h.2.2.2.1 "4294967296".toList (by decide) (by decide)⟩
  rw [h0] at ht
  exact ⟨ht.1, ht.2.1⟩


/-! ## Directive lines with single spaces -/

theorem simplified_trailing (s : QString) : simplified (s ++ [' ']) = simplified s := by
  unfold simplified
  rw [splitBy_append isSpace ' ' (by decide) s [], List.filter_append]
  simp [splitBy]

theorem splitBy_intercalate (p : Char → Bool) (hsep : p ' ' = true) (words : List QString)
    (hne : words ≠ []) (h : ∀ w ∈ words, ∀ c ∈ w, p c = false) :
    splitBy p ([' '].intercalate words) = words := by
  induction words with
  | nil => exact absurd rfl hne
  | cons w ws ih =>
    cases ws with
    | nil =>
      rw [intercalate_single]
      exact splitBy_no_sep _ _ (h w (List.mem_cons_self _ _))
    | cons w' ws' =>
      rw [intercalate_cons_cons, List.append_assoc, List.singleton_append,
        splitBy_append_sep _ _ _ ' ' hsep (h w (List.mem_cons_self _ _)),
        ih (by simp) (fun x hx => h x (List.mem_cons_of_mem _ hx))]

theorem mem_intercalate (words : List QString) (c : Char)
    (hc : c ∈ [' '].intercalate words) : c = ' ' ∨ ∃ w ∈ words, c ∈ w := by
  induction words with
  | nil => simp [List.intercalate, List.intersperse] at hc
  | cons w ws ih =>
    cases ws with
    | nil =>
      rw [intercalate_single] at hc
      exact Or.inr ⟨w, List.mem_cons_self _ _, hc⟩
    | cons w' ws' =>
      rw [intercalate_cons_cons] at hc
      rcases List.mem_append.1 hc with hc | hc
      · rcases List.mem_append.1 hc with hc | hc
        · exact Or.inr ⟨w, List.mem_cons_self _ _, hc⟩
        · exact Or.inl (List.mem_singleton.1 hc)
      · rcases ih hc with h | ⟨x, hx, hcx⟩
        · exact Or.inl h
        · exact Or.inr ⟨x, List.mem_cons_of_mem _ hx, hcx⟩

theorem key_intercalate (key t : QString) (rest : List QString) :
    key ++ [' '].intercalate (t :: rest) = [' '].intercalate ((key ++ t) :: rest) := by
  cases rest with
  | nil => rw [intercalate_single, intercalate_single]
  | cons w ws => rw [intercalate_cons_cons, intercalate_cons_cons]; simp

/-- A directive line with single spaces between its tokens and at most one after the last:
the reading loop keeps key and tokens, the branch of the key gets the tokens. -/
theorem plain_line (key : QString) (k : Char) (ks : QString) (hkey : key = k :: ks)
    (hk : ∀ c ∈ key, isSpace c = false ∧ c ≠ ' ' ∧ c ≠ '#')
    (hhead : ∀ c, wordChar c = true → c ≠ k)
    (t : QString) (rest : List QString) (tr : Bool)
    (htok : ∀ x ∈ t :: rest, x ≠ [] ∧ ∀ c ∈ x, wordChar c = true) :
    cleanLine (key ++ [' '].intercalate (t :: rest) ++ (if tr then [' '] else []))
        = some (key ++ [' '].intercalate (t :: rest)) ∧
      removeInFirst key (split (key ++ [' '].intercalate (t :: rest)) ' ') = t :: rest ∧
      '\n' ∉ key ++ [' '].intercalate (t :: rest) ++ (if tr then [' '] else []) := by
  have hclean : ∀ w ∈ (key ++ t) :: rest,
      w ≠ [] ∧ (∀ c ∈ w, isSpace c = false) ∧ ' ' ∉ w ∧ '#' ∉ w := by
    intro w hw
    rcases List.mem_cons.1 hw with hw | hw
    · subst hw
      refine ⟨by rw [hkey]; simp, ?_, ?_, ?_⟩
      · intro c hc
        rcases List.mem_append.1 hc with hc | hc
        · exact (hk c hc).1
        · exact (wordChar_props c ((htok t (List.mem_cons_self _ _)).2 c hc)).1
      · intro hc
        rcases List.mem_append.1 hc with hc | hc
        · exact (hk _ hc).2.1 rfl
        · exact (wordChar_props _ ((htok t (List.mem_cons_self _ _)).2 _ hc)).2.1 rfl
      · intro hc
        rcases List.mem_append.1 hc with hc | hc
        · exact (hk _ hc).2.2 rfl
        · exact (wordChar_props _ ((htok t (List.mem_cons_self _ _)).2 _ hc)).2.2.1 rfl
    · have hb := htok w (List.mem_cons_of_mem _ hw)
      exact ⟨hb.1, fun c hc => (wordChar_props c (hb.2 c hc)).1,
        fun hc => (wordChar_props _ (hb.2 _ hc)).2.1 rfl,
        fun hc => (wordChar_props _ (hb.2 _ hc)).2.2.1 rfl⟩
  have hchars : ∀ c ∈ key ++ [' '].intercalate (t :: rest) ++ (if tr then [' '] else []),
      c = ' ' ∨ (isSpace c = false ∧ c ≠ '#') := by
    intro c hc
    rw [key_intercalate] at hc
    rcases List.mem_append.1 hc with hc | hc
    · rcases mem_intercalate _ c hc with h | ⟨w, hw, hcw⟩
      · exact Or.inl h
      · refine Or.inr ⟨(hclean w hw).2.1 c hcw, ?_⟩
        rintro rfl
        exact (hclean w hw).2.2.2 hcw
    · cases tr with
      | true => exact Or.inl (List.mem_singleton.1 hc)
      | false => cases hc
  have hsimp : simplified ([' '].intercalate ((key ++ t) :: rest))
      = [' '].intercalate ((key ++ t) :: rest) := by
    unfold simplified
    rw [splitBy_intercalate isSpace (by decide) _ (by simp) (fun w hw => (hclean w hw).2.1)]
    have hf : ((key ++ t) :: rest).filter (fun w => !w.isEmpty) = (key ++ t) :: rest := by
      rw [List.filter_eq_self]
      intro w hw
      have := (hclean w hw).1
      cases w with
      | nil => exact absurd rfl this
      | cons _ _ => rfl
    rw [hf]
  refine ⟨?_, ?_, ?_⟩
  · rw [cleanLine_of_no_hash _ (fun hc => by
      rcases hchars _ hc with h | h
      · exact absurd h (by decide)
      · exact h.2 rfl)]
    rw [key_intercalate]
    cases tr with
    | true => rw [if_pos rfl, simplified_trailing, hsimp]
    | false => simp only [Bool.false_eq_true, if_false, List.append_nil]; rw [hsimp]
  · rw [key_intercalate, split_intercalate _ (by simp) (fun w hw => (hclean w hw).2.2.1)]
    unfold removeInFirst
    simp only [List.cons.injEq, and_true]
    rw [remove_key_append _ _ (by rw [hkey]; simp)]
    apply removeAux_of_not_infix
    intro hin
    have hmem : k ∈ t := hin.subset (by rw [hkey]; exact List.mem_cons_self _ _)
    exact hhead k ((htok t (List.mem_cons_self _ _)).2 k hmem) rfl
  · intro hc
    rcases hchars _ hc with h | h
    · exact absurd h (by decide)
    · exact absurd h.1 (by decide)


/-! ## One fan through the lines of a text -/

theorem partChar_props (c : Char) (h : partChar c = true) : wordChar c = true ∧ c ≠ '=' := by
  unfold partChar at h
  rw [Bool.and_eq_true] at h
  exact ⟨h.1, by simpa using h.2⟩

theorem pairText_props (p : QString × QString) (hp : PairOk p) :
    pairText p ≠ [] ∧ (∀ c ∈ pairText p, wordChar c = true) ∧
      split (pairText p) '=' = [p.1, p.2] := by
  refine ⟨by unfold pairText; simp, ?_, ?_⟩
  · exact wordChar_pair _ _ (fun c hc => (partChar_props c (hp.1 c hc)).1)
      (fun c hc => (partChar_props c (hp.2 c hc)).1)
  · exact split_pair _ _ '=' (fun hc => (partChar_props _ (hp.1 _ hc)).2 rfl)
      (fun hc => (partChar_props _ (hp.2 _ hc)).2 rfl)

theorem pairNames_congr (hs hs' : List Hwmon) (h : channelsOf hs = channelsOf hs') (c j : Nat)
    (p : QString × QString) : pairNames hs c j p = pairNames hs' c j p := by
  unfold pairNames
  rw [resolvePwm_congr hs hs' h]

theorem fanAt_modifyFan_self (g : PwmFan → PwmFan) (c j : Nat) (hs : List Hwmon) (f : PwmFan)
    (hf : fanAt hs c j = some f) : fanAt (modifyFan g c j hs) c j = some (g f) := by
  rw [fanAt_modifyFan, hf]
  simp

theorem fanAt_modifyFan_other (g : PwmFan → PwmFan) (c j c' j' : Nat) (hs : List Hwmon)
    (hne : (c, j) ≠ (c', j')) : fanAt (modifyFan g c j hs) c' j' = fanAt hs c' j' := by
  rw [fanAt_modifyFan]
  have hcond : ¬ (c = c' ∧ j = j') := by
    rintro ⟨rfl, rfl⟩
    exact hne rfl
  simp only [hcond, if_false]
  cases fanAt hs c' j' <;> rfl

/-- One `FCTEMPS` pair, seen from the fan `(c, j)`. -/
theorem fctempsToken_step (hs0 : List Hwmon) (c j : Nat) (s : Loader) (g : PwmFan)
    (p : QString × QString) (hp : PairOk p)
    (hch : channelsOf s.hwmons = channelsOf hs0) (hg : fanAt s.hwmons c j = some g) :
    ∃ s', fctempsToken s (pairText p) = .ok s' ∧ channelsOf s'.hwmons = channelsOf hs0 ∧
      fanAt s'.hwmons c j = some (fctempsPairStep hs0 c j g p) := by
  obtain ⟨-, -, hsp⟩ := pairText_props p hp
  rw [fctempsToken_eq, hsp]
  simp only [List.getElem?_cons_succ, List.getElem?_cons_zero, List.headD_cons]
  unfold fctempsPairStep
  rw [← pairNames_congr s.hwmons hs0 hch, ← listValue_isSome_congr s.hwmons hs0 hch,
    ← resolveTemp_congr s.hwmons hs0 hch]
  unfold pairNames
  cases hres : resolvePwm s.hwmons p.1 with
  | none =>
    refine ⟨s, rfl, hch, ?_⟩
    rw [hg]
    simp
  | some cj =>
    by_cases hcj : cj = (c, j)
    · subst hcj
      simp only [beq_self_eq_true, if_true]
      by_cases hchip : (listValue s.hwmons (getHwmonNumber p.2)).isSome = true
      · rw [if_pos hchip, if_pos hchip]
        refine ⟨_, rfl, ?_, ?_⟩
        · show channelsOf (modifyFan _ c j (modifyFan _ c j s.hwmons)) = _
          rw [channelsOf_set, channelsOf_setTemp, hch]
        · show fanAt (modifyFan _ c j (modifyFan _ c j s.hwmons)) c j = _
          rw [fanAt_modifyFan_self _ _ _ _ _ (fanAt_modifyFan_self _ _ _ _ _ hg)]
      · rw [if_neg hchip, if_neg hchip]
        refine ⟨_, rfl, ?_, ?_⟩
        · show channelsOf (modifyFan _ c j s.hwmons) = _
          rw [channelsOf_setTemp, hch]
        · exact fanAt_modifyFan_self _ _ _ _ _ hg
    · have hne : (some cj == some (c, j)) = false := by simpa using hcj
      rw [hne]
      simp only [Bool.false_eq_true, if_false]
      have hne' : (cj.1, cj.2) ≠ (c, j) := hcj
      by_cases hchip : (listValue s.hwmons (getHwmonNumber p.2)).isSome = true
      · rw [if_pos hchip]
        refine ⟨_, rfl, ?_, ?_⟩
        · show channelsOf (modifyFan _ cj.1 cj.2 (modifyFan _ cj.1 cj.2 s.hwmons)) = _
          rw [channelsOf_set, channelsOf_setTemp, hch]
        · show fanAt (modifyFan _ cj.1 cj.2 (modifyFan _ cj.1 cj.2 s.hwmons)) c j = _
          rw [fanAt_modifyFan_other _ _ _ _ _ _ hne', fanAt_modifyFan_other _ _ _ _ _ _ hne', hg]
      · rw [if_neg hchip]
        refine ⟨_, rfl, ?_, ?_⟩
        · show channelsOf (modifyFan _ cj.1 cj.2 s.hwmons) = _
          rw [channelsOf_setTemp, hch]
        · show fanAt (modifyFan _ cj.1 cj.2 s.hwmons) c j = _
          rw [fanAt_modifyFan_other _ _ _ _ _ _ hne', hg]

/-- One threshold pair, seen from the fan `(c, j)`. -/
theorem thresholdToken_step (hs0 : List Hwmon) (d : Threshold) (c j : Nat) (s : Loader)
    (g : PwmFan) (p : QString × QString) (hp : PairOk p)
    (hchip : (listValue hs0 (getHwmonNumber p.1)).isSome = true)
    (hch : channelsOf s.hwmons = channelsOf hs0) (hg : fanAt s.hwmons c j = some g) :
    ∃ s', thresholdToken d s (pairText p) = .ok s' ∧ channelsOf s'.hwmons = channelsOf hs0 ∧
      fanAt s'.hwmons c j = some (thresholdPairStep hs0 d c j g p) := by
  obtain ⟨-, -, hsp⟩ := pairText_props p hp
  rw [thresholdToken_eq, hsp]
  simp only [List.getElem?_cons_succ, List.getElem?_cons_zero, List.headD_cons]
  rw [← listValue_isSome_congr s.hwmons hs0 hch] at hchip
  unfold thresholdPairStep
  rw [← pairNames_congr s.hwmons hs0 hch]
  unfold pairNames
  cases hlv : listValue s.hwmons (getHwmonNumber p.1) with
  | none => rw [hlv] at hchip; cases hchip
  | some h =>
    dsimp only
    cases hres : resolvePwm s.hwmons p.1 with
    | none =>
      refine ⟨s, rfl, hch, ?_⟩
      rw [hg]
      simp
    | some cj =>
      by_cases hcj : cj = (c, j)
      · subst hcj
        simp only [beq_self_eq_true, if_true]
        refine ⟨_, rfl, ?_, fanAt_modifyFan_self _ _ _ _ _ hg⟩
        show channelsOf (modifyFan _ c j s.hwmons) = _
        rw [channelsOf_set, hch]
      · have hne : (some cj == some (c, j)) = false := by simpa using hcj
        rw [hne]
        simp only [Bool.false_eq_true, if_false]
        have hne' : (cj.1, cj.2) ≠ (c, j) := hcj
        refine ⟨_, rfl, ?_, ?_⟩
        · show channelsOf (modifyFan _ cj.1 cj.2 s.hwmons) = _
          rw [channelsOf_set, hch]
        · show fanAt (modifyFan _ cj.1 cj.2 s.hwmons) c j = _
          rw [fanAt_modifyFan_other _ _ _ _ _ _ hne', hg]

/-- A loop whose rounds complete and act on the fan `(c, j)` as `upd` says completes and
acts as the fold of `upd`. -/
theorem foldlM_fan {α : Type} (hs0 : List Hwmon) (c j : Nat)
    (handler : Loader → α → Except Fault Loader) (upd : PwmFan → α → PwmFan) (xs : List α)
    (hstep : ∀ x ∈ xs, ∀ (s : Loader) (g : PwmFan), channelsOf s.hwmons = channelsOf hs0 →
      fanAt s.hwmons c j = some g →
      ∃ s', handler s x = .ok s' ∧ channelsOf s'.hwmons = channelsOf hs0 ∧
        fanAt s'.hwmons c j = some (upd g x)) :
    ∀ (s : Loader) (g : PwmFan), channelsOf s.hwmons = channelsOf hs0 →
      fanAt s.hwmons c j = some g →
      ∃ s', xs.foldlM handler s = .ok s' ∧ channelsOf s'.hwmons = channelsOf hs0 ∧
        fanAt s'.hwmons c j = some (xs.foldl upd g) := by
  induction xs with
  | nil => intro s g hch hg; exact ⟨s, rfl, hch, hg⟩
  | cons x xs ih =>
    intro s g hch hg
    obtain ⟨s1, h1, hch1, hg1⟩ := hstep x (List.mem_cons_self _ _) s g hch hg
    obtain ⟨s2, h2, hch2, hg2⟩ := ih (fun y hy => hstep y (List.mem_cons_of_mem _ hy)) s1 _
      hch1 hg1
    refine ⟨s2, ?_, hch2, hg2⟩
    rw [foldlM_cons_ok _ _ _ _ _ h1]
    exact h2


theorem foldlM_map_tokens (handler : Loader → QString → Except Fault Loader)
    (ps : List (QString × QString)) :
    ∀ s : Loader, (ps.map pairText).foldlM handler s
      = ps.foldlM (fun s p => handler s (pairText p)) s := by
  induction ps with
  | nil => intro s; rfl
  | cons p ps ih =>
    intro s
    rw [List.map_cons, List.foldlM_cons, List.foldlM_cons]
    cases handler s (pairText p) with
    | error e => rfl
    | ok s1 => exact ih s1

theorem runLines_single (s : Loader) (line x : QString) (hc : cleanLine line = some x) :
    runLines s [line] = processLine s x := by
  unfold runLines
  simp only [List.filterMap, hc]
  show (do let s' ← processLine s x; List.foldlM processLine s' []) = _
  cases processLine s x <;> rfl

theorem pairs_tokens (ps : List (QString × QString)) (hps : ∀ p ∈ ps, PairOk p) :
    ∀ x ∈ ps.map pairText, x ≠ [] ∧ ∀ c ∈ x, wordChar c = true := by
  intro x hx
  obtain ⟨p, hp, rfl⟩ := List.mem_map.1 hx
  have := pairText_props p (hps p hp)
  exact ⟨this.1, this.2.1⟩

/-- One line of a text, seen from the fan `(c, j)`. -/
theorem line_step (hs0 : List Hwmon) (c j : Nat) (ln : ConfigLine) (hok : ln.Ok hs0)
    (s : Loader) (g : PwmFan) (hch : channelsOf s.hwmons = channelsOf hs0)
    (hg : fanAt s.hwmons c j = some g) :
    ∃ s', runLines s [ln.text] = .ok s' ∧ channelsOf s'.hwmons = channelsOf hs0 ∧
      fanAt s'.hwmons c j = some (fanStep hs0 c j g ln) := by
  cases ln with
  | fctemps ps tr =>
    obtain ⟨hne, hps⟩ := hok
    cases ps with
    | nil => exact absurd rfl hne
    | cons p rest =>
      obtain ⟨hclean, htok, -⟩ := plain_line "FCTEMPS=".toList 'F' "CTEMPS=".toList rfl
        (by decide) (fun c hc => (wordChar_props c hc).2.2.2.1) (pairText p)
        (rest.map pairText) tr (pairs_tokens (p :: rest) hps)
      have hrun : runLines s [(ConfigLine.fctemps (p :: rest) tr).text]
          = (p :: rest).foldlM (fun s p => fctempsToken s (pairText p)) s := by
        have htext : (ConfigLine.fctemps (p :: rest) tr).text
            = "FCTEMPS=".toList ++ [' '].intercalate (pairText p :: rest.map pairText)
              ++ (if tr then [' '] else []) := rfl
        rw [htext, runLines_single s _ _ hclean, processLine_fctemps_key]
        unfold fctempsLine
        rw [htok]
        exact foldlM_map_tokens fctempsToken (p :: rest) s
      rw [hrun]
      exact foldlM_fan hs0 c j _ (fctempsPairStep hs0 c j) (p :: rest)
        (fun x hx s g hch hg => fctempsToken_step hs0 c j s g x (hps x hx) hch hg) s g hch hg
  | threshold d ps tr =>
    obtain ⟨hne, hps⟩ := hok
    cases ps with
    | nil => exact absurd rfl hne
    | cons p rest =>
      obtain ⟨⟨ks, hkey⟩, hchars⟩ := key_chars d
      obtain ⟨hclean, htok, -⟩ := plain_line d.key 'M' ks hkey hchars
        (fun c hc => (wordChar_props c hc).2.2.2.2) (pairText p)
        (rest.map pairText) tr (pairs_tokens (p :: rest) (fun x hx => (hps x hx).1))
      have hrun : runLines s [(ConfigLine.threshold d (p :: rest) tr).text]
          = (p :: rest).foldlM (fun s p => thresholdToken d s (pairText p)) s := by
        have htext : (ConfigLine.threshold d (p :: rest) tr).text
            = d.key ++ [' '].intercalate (pairText p :: rest.map pairText)
              ++ (if tr then [' '] else []) := rfl
        rw [htext, runLines_single s _ _ hclean, processLine_threshold_key]
        unfold thresholdLine
        rw [htok]
        exact foldlM_map_tokens (thresholdToken d) (p :: rest) s
      rw [hrun]
      exact foldlM_fan hs0 c j _ (thresholdPairStep hs0 d c j) (p :: rest)
        (fun x hx s g hch hg =>
          thresholdToken_step hs0 d c j s g x (hps x hx).1 (hps x hx).2 hch hg) s g hch hg
  | other u =>
    obtain ⟨-, hu⟩ := hok
    show ∃ s', runLines s [u] = .ok s' ∧ _ ∧ fanAt s'.hwmons c j = some g
    cases hc : cleanLine u with
    | none =>
      refine ⟨s, ?_, hch, hg⟩
      unfold runLines
      simp only [List.filterMap, hc]
      rfl
    | some x =>
      rw [runLines_single s u x hc]
      have hk := hu x hc
      have h2 := hk "FCTEMPS=".toList (by simp [fanKeys])
      have h3 := hk "MINTEMP=".toList (by simp [fanKeys])
      have h4 := hk "MAXTEMP=".toList (by simp [fanKeys])
      have h5 := hk "MINSTART=".toList (by simp [fanKeys])
      have h6 := hk "MINSTOP=".toList (by simp [fanKeys])
      have h7 := hk "MINPWM=".toList (by simp [fanKeys])
      have h8 := hk "MAXPWM=".toList (by simp [fanKeys])
      unfold processLine
      rw [h2, h3, h4, h5, h6, h7, h8]
      by_cases h1 : startsWith x "INTERVAL=".toList = true
      · rw [if_pos h1]
        exact ⟨_, rfl, hch, hg⟩
      · rw [if_neg h1]
        exact ⟨s, rfl, hch, hg⟩

theorem lf_not_mem_text (hs0 : List Hwmon) (ln : ConfigLine) (hok : ln.Ok hs0) :
    '\n' ∉ ln.text := by
  cases ln with
  | fctemps ps tr =>
    obtain ⟨hne, hps⟩ := hok
    cases ps with
    | nil => exact absurd rfl hne
    | cons p rest =>
      exact (plain_line "FCTEMPS=".toList 'F' "CTEMPS=".toList rfl
        (by decide) (fun c hc => (wordChar_props c hc).2.2.2.1) (pairText p)
        (rest.map pairText) tr (pairs_tokens (p :: rest) hps)).2.2
  | threshold d ps tr =>
    obtain ⟨hne, hps⟩ := hok
    cases ps with
    | nil => exact absurd rfl hne
    | cons p rest =>
      obtain ⟨⟨ks, hkey⟩, hchars⟩ := key_chars d
      exact (plain_line d.key 'M' ks hkey hchars
        (fun c hc => (wordChar_props c hc).2.2.2.2) (pairText p)
        (rest.map pairText) tr (pairs_tokens (p :: rest) (fun x hx => (hps x hx).1))).2.2
  | other u => exact hok.1

theorem runLines_foldlM (xs : List QString) :
    ∀ s : Loader, runLines s xs = xs.foldlM (fun s x => runLines s [x]) s := by
  induction xs with
  | nil => intro s; rfl
  | cons x xs ih =>
    intro s
    rw [runLines_cons, List.foldlM_cons]
    cases runLines s [x] with
    | error e => rfl
    | ok s1 => exact ih s1

theorem split_textOf (hs0 : List Hwmon) (ls : List ConfigLine) (hok : ∀ ln ∈ ls, ln.Ok hs0) :
    split (textOf ls) '\n' = ls.map ConfigLine.text ++ [[]] := by
  unfold split textOf
  apply splitBy_tokens (fun c => c == '\n') '\n' (by decide) ConfigLine.text ls
  intro ln hln c hc
  simp only [beq_eq_false_iff_ne, ne_eq]
  rintro rfl
  exact lf_not_mem_text hs0 ln (hok ln hln) hc

theorem foldlM_map_lines (ls : List ConfigLine) :
    ∀ s : Loader, (ls.map ConfigLine.text).foldlM (fun s x => runLines s [x]) s
      = ls.foldlM (fun s ln => runLines s [ln.text]) s := by
  induction ls with
  | nil => intro s; rfl
  | cons ln ls ih =>
    intro s
    rw [List.map_cons, List.foldlM_cons, List.foldlM_cons]
    cases runLines s [ln.text] with
    | error e => rfl
    | ok s1 => exact ih s1

/-- Loading a text given line by line completes, and every fan ends as the fold of its
lines says, from the fan without its `Temp`. -/
theorem load_lines (l : Loader) (url : QString) (ls : List ConfigLine)
    (hok : ∀ ln ∈ ls, ln.Ok l.hwmons) (c j : Nat) (f : PwmFan)
    (hf : fanAt l.hwmons c j = some f) :
    ∃ s, l.parse url (textOf ls) = .ok s ∧ s.error = l.error ∧
      skeleton s.hwmons = skeleton l.hwmons ∧
      fanAt s.hwmons c j = some (ls.foldl (fanStep l.hwmons c j) f.reset) := by
  have hbase : channelsOf (resetAll l.hwmons) = channelsOf l.hwmons := channelsOf_resetAll _
  have hfan : fanAt (resetAll l.hwmons) c j = some f.reset := by
    rw [fanAt_resetAll, hf]
    rfl
  obtain ⟨s', hrun, -, hg⟩ := foldlM_fan l.hwmons c j (fun s ln => runLines s [ln.text])
    (fanStep l.hwmons c j) ls
    (fun ln hln s g hch hg => line_step l.hwmons c j ln (hok ln hln) s g hch hg)
    { l with configUrl := url, hwmons := resetAll l.hwmons } f.reset hbase hfan
  have hparse : l.parse url (textOf ls) = .ok { s' with configFile := textOf ls } := by
    rw [parse_split, split_textOf l.hwmons ls hok, runLines_inert [] runLines_empty_line,
      List.append_nil, runLines_foldlM, foldlM_map_lines, hrun]
    rfl
  have hframe := parse_frame l _ url _ hparse
  exact ⟨_, hparse, hframe.1, hframe.2.2.2, hg⟩


/-! ## The last pair that names a fan decides its `minPwm` -/

theorem foldl_keep {α : Type} (P : PwmFan → PwmFan → Prop) (hrefl : ∀ g, P g g)
    (htrans : ∀ a b c, P a b → P b c → P a c) (step : PwmFan → α → PwmFan) (xs : List α)
    (h : ∀ x ∈ xs, ∀ g, P g (step g x)) : ∀ g, P g (xs.foldl step g) := by
  induction xs with
  | nil => intro g; exact hrefl g
  | cons x xs ih =>
    intro g
    rw [List.foldl_cons]
    exact htrans _ _ _ (h x (List.mem_cons_self _ _) g)
      (ih (fun y hy => h y (List.mem_cons_of_mem _ hy)) _)

theorem any_false_iff {α : Type} (p : α → Bool) (xs : List α) :
    xs.any p = false ↔ ∀ x ∈ xs, p x = false := by
  induction xs with
  | nil => simp
  | cons x xs ih => simp [List.any_cons, ih]

theorem fanStep_keeps_minPwm (hs : List Hwmon) (c j : Nat) (ln : ConfigLine)
    (h : ln.namesForMinPwm hs c j = false) (g : PwmFan) :
    (fanStep hs c j g ln).minPwm = g.minPwm := by
  cases ln with
  | fctemps ps tr =>
    have hps := (any_false_iff _ _).1 h
    exact (foldl_keep (fun a b => b.minPwm = a.minPwm) (fun _ => rfl)
      (fun _ _ _ h1 h2 => h2.trans h1) (fctempsPairStep hs c j) ps
      (fun p hp g => by unfold fctempsPairStep; rw [hps p hp]; rfl) g)
  | threshold d ps tr =>
    by_cases hd : d = .minPwm
    · subst hd
      have hps : ∀ p ∈ ps, pairNames hs c j p = false := by
        apply (any_false_iff _ _).1
        simpa [ConfigLine.namesForMinPwm] using h
      exact (foldl_keep (fun a b => b.minPwm = a.minPwm) (fun _ => rfl)
        (fun _ _ _ h1 h2 => h2.trans h1) (thresholdPairStep hs .minPwm c j) ps
        (fun p hp g => by unfold thresholdPairStep; rw [hps p hp]; rfl) g)
    · exact (foldl_keep (fun a b => b.minPwm = a.minPwm) (fun _ => rfl)
        (fun _ _ _ h1 h2 => h2.trans h1) (thresholdPairStep hs d c j) ps
        (fun p _ g => by
          unfold thresholdPairStep
          split
          · have := get_set d .minPwm (toInt p.2) g
            rw [if_neg (fun h => hd h.symm)] at this
            exact this
          · rfl) g)
  | other u => rfl

theorem foldl_fanStep_keeps_minPwm (hs : List Hwmon) (c j : Nat) (ls : List ConfigLine)
    (h : ∀ ln ∈ ls, ln.namesForMinPwm hs c j = false) (g : PwmFan) :
    (ls.foldl (fanStep hs c j) g).minPwm = g.minPwm :=
  foldl_keep (fun a b => b.minPwm = a.minPwm) (fun _ => rfl) (fun _ _ _ h1 h2 => h2.trans h1)
    (fanStep hs c j) ls (fun ln hln g => fanStep_keeps_minPwm hs c j ln (h ln hln) g) g

theorem foldl_pairs_not_naming {α : Type} (step : PwmFan → α → PwmFan) (xs : List α)
    (h : ∀ x ∈ xs, ∀ g, step g x = g) (g : PwmFan) : xs.foldl step g = g :=
  (foldl_keep (fun a b => b = a) (fun _ => rfl) (fun _ _ _ h1 h2 => h2.trans h1) step xs
    (fun x hx g => h x hx g) g)

/-- C17, amended. Loading a text given line by line completes (the per-fan lines have at
least one pair each, the identifiers of threshold pairs name chips of the registry), and for
every fan `f` of the registry `minPwm` is decided by the last pair that names `f` in an
`FCTEMPS` or a `MINPWM` line: when no pair names `f`, `minPwm` is what it was before the
load; when the last such pair is `MINPWM=<f>=val`, `minPwm` is the value read from `val`,
which is `v` for the decimal rendering of a 32-bit `int` `v`, whatever lines come before it,
an `FCTEMPS` line for `f` among them; when the last such pair is an `FCTEMPS` pair for `f`
whose value names a chip of the registry, `minPwm` is 0, whatever it was before and
whatever `MINPWM` lines come before it. -/
theorem minPwm_last_pair_decides (l : Loader) (url : QString) (ls : List ConfigLine)
    (hok : ∀ ln ∈ ls, ln.Ok l.hwmons) (c j : Nat) (f : PwmFan)
    (hf : fanAt l.hwmons c j = some f) :
    ∃ s f', l.parse url (textOf ls) = .ok s ∧ fanAt s.hwmons c j = some f' ∧
      ((∀ ln ∈ ls, ln.namesForMinPwm l.hwmons c j = false) → f'.minPwm = f.minPwm) ∧
      (∀ (A C : List ConfigLine) (ps ps' : List (QString × QString)) (tr : Bool)
          (id val : QString),
        ls = A ++ .threshold .minPwm (ps ++ (id, val) :: ps') tr :: C →
        resolvePwm l.hwmons id = some (c, j) →
        (∀ p ∈ ps', pairNames l.hwmons c j p = false) →
        (∀ ln ∈ C, ln.namesForMinPwm l.hwmons c j = false) →
        f'.minPwm = toInt val ∧
          ∀ v : Int, fitsInt v = true → val = number v → f'.minPwm = v) ∧
      (∀ (A C : List ConfigLine) (ps ps' : List (QString × QString)) (tr : Bool)
          (id tid : QString),
        ls = A ++ .fctemps (ps ++ (id, tid) :: ps') tr :: C →
        resolvePwm l.hwmons id = some (c, j) →
        (listValue l.hwmons (getHwmonNumber tid)).isSome = true →
        (∀ p ∈ ps', pairNames l.hwmons c j p = false) →
        (∀ ln ∈ C, ln.namesForMinPwm l.hwmons c j = false) →
        f'.minPwm = 0) := by
  obtain ⟨s, hparse, -, -, hfan⟩ := load_lines l url ls hok c j f hf
  refine ⟨s, _, hparse, hfan, ?_, ?_, ?_⟩
  · intro hno
    rw [foldl_fanStep_keeps_minPwm _ _ _ _ hno]
    rfl
  · intro A C ps ps' tr id val hls hres hps' hC
    have hname : pairNames l.hwmons c j (id, val) = true := by
      unfold pairNames
      rw [hres]
      exact beq_self_eq_true _
    have hval : (ls.foldl (fanStep l.hwmons c j) f.reset).minPwm = toInt val := by
      rw [hls, List.foldl_append, List.foldl_cons, foldl_fanStep_keeps_minPwm _ _ _ _ hC]
      show ((ps ++ (id, val) :: ps').foldl (thresholdPairStep l.hwmons .minPwm c j) _).minPwm
        = _
      rw [List.foldl_append, List.foldl_cons, foldl_pairs_not_naming _ ps'
        (fun p hp g => by unfold thresholdPairStep; rw [hps' p hp]; rfl)]
      unfold thresholdPairStep
      rw [hname]
      rfl
    refine ⟨hval, ?_⟩
    intro v hv hnum
    rw [hval, hnum]
    unfold fitsInt at hv
    simp only [Bool.and_eq_true, decide_eq_true_eq] at hv
    exact toInt_number v hv.1 hv.2
  · intro A C ps ps' tr id tid hls hres hchip hps' hC
    have hname : pairNames l.hwmons c j (id, tid) = true := by
      unfold pairNames
      rw [hres]
      exact beq_self_eq_true _
    rw [hls, List.foldl_append, List.foldl_cons, foldl_fanStep_keeps_minPwm _ _ _ _ hC]
    show ((ps ++ (id, tid) :: ps').foldl (fctempsPairStep l.hwmons c j) _).minPwm = _
    rw [List.foldl_append, List.foldl_cons, foldl_pairs_not_naming _ ps'
      (fun p hp g => by unfold fctempsPairStep; rw [hps' p hp]; rfl)]
    unfold fctempsPairStep
    rw [hname, if_pos rfl, if_pos hchip]
    rfl


theorem noFanDirective_of_clean (u x : QString) (h : cleanLine u = some x)
    (hx : ∀ k ∈ fanKeys, startsWith x k = false) : NoFanDirective u := by
  intro y hy
  rw [h] at hy
  injection hy with hy
  subst hy
  exact hx

theorem sampleLines_ok : ∀ ln ∈ sampleLines, ln.Ok sampleLoader.hwmons := by
  intro ln hln
  simp only [sampleLines, List.mem_cons, List.mem_singleton, List.not_mem_nil, or_false] at hln
  rcases hln with rfl | rfl | rfl | rfl | rfl | rfl | rfl | rfl | rfl | rfl | rfl
  · exact ⟨by decide, noFanDirective_of_clean _ "INTERVAL=10".toList (by decide) (by decide)⟩
  · exact ⟨by decide, noFanDirective_of_clean _
      "DEVPATH=hwmon0=devices/platform/it87.656".toList (by decide) (by decide)⟩
  · exact ⟨by decide, noFanDirective_of_clean _ "DEVNAME=hwmon0=it8728".toList (by decide)
      (by decide)⟩
  · exact ⟨by decide, by unfold PairOk; decide⟩
  · exact ⟨by decide, noFanDirective_of_clean _
      "FCFANS=hwmon0/pwm1=hwmon0/fan1_input".toList (by decide) (by decide)⟩
  · exact ⟨by decide, by unfold PairOk; decide⟩
  · exact ⟨by decide, by unfold PairOk; decide⟩
  · exact ⟨by decide, by unfold PairOk; decide⟩
  · exact ⟨by decide, by unfold PairOk; decide⟩
  · exact ⟨by decide, by unfold PairOk; decide⟩
  · exact ⟨by decide, by unfold PairOk; decide⟩

theorem swappedLines_ok : ∀ ln ∈ swappedLines, ln.Ok sampleLoader.hwmons := by
  intro ln hln
  simp only [swappedLines, List.mem_cons, List.mem_singleton, List.not_mem_nil, or_false]
    at hln
  rcases hln with rfl | rfl | rfl
  · exact ⟨by decide, by unfold PairOk; decide⟩
  · exact ⟨by decide, by unfold PairOk; decide⟩
  · exact ⟨by decide, by unfold PairOk; decide⟩

/-- The text `createConfigFile` writes for the sample fan with `minPwm` 120, where `FCTEMPS`
comes before `MINPWM=...=120`, loads with `minPwm` 120; the text with `MINPWM=...=120`, then `FCTEMPS`, then a `MAXTEMP`
line loads with `minPwm` 0; the sample fan had `minPwm` 30. -/
theorem minPwm_last_pair_decides_witness :
    textOf sampleLines
      = configText { sampleLoader with
          hwmons := [{ sampleChip with
            pwmFans := [{ samplePwm with temp := some ⟨0, 1⟩, minPwm := 120 }] }] } ∧
    textOf swappedLines
      = ("MINPWM=hwmon0/pwm1=120\nFCTEMPS=hwmon0/pwm1=hwmon0/temp1_input\n"
          ++ "MAXTEMP=hwmon0/pwm1=70\n").toList ∧
    samplePwm.minPwm = 30 ∧
    (∃ s f', sampleLoader.parse "/etc/fancontrol".toList (textOf sampleLines) = .ok s ∧
      fanAt s.hwmons 0 0 = some f' ∧ f'.minPwm = 120) ∧
    (∃ s f', sampleLoader.parse "/etc/fancontrol".toList (textOf swappedLines) = .ok s ∧
      fanAt s.hwmons 0 0 = some f' ∧ f'.minPwm = 0) := by
  refine ⟨by set_option maxRecDepth 100000 in decide, by decide, rfl, ?_, ?_⟩
  · obtain ⟨s, f', h1, h2, -, hb, -⟩ := minPwm_last_pair_decides sampleLoader
      "/etc/fancontrol".toList sampleLines sampleLines_ok 0 0 samplePwm (by decide)
    exact ⟨s, f', h1, h2,
      (hb (sampleLines.take 9) [.threshold .maxPwm [("hwmon0/pwm1".toList, "255".toList)] true]
        [] [] true "hwmon0/pwm1".toList "120".toList rfl (by decide)
        (fun _ h => nomatch h) (by decide)).2 120 (by decide) (by decide)⟩
  · obtain ⟨s, f', h1, h2, -, -, hc⟩ := minPwm_last_pair_decides sampleLoader
      "/etc/fancontrol".toList swappedLines swappedLines_ok 0 0 samplePwm (by decide)
    exact ⟨s, f', h1, h2,
      hc [.threshold .minPwm [("hwmon0/pwm1".toList, "120".toList)] false]
        [.threshold .maxTemp [("hwmon0/pwm1".toList, "70".toList)] false]
        [] [] false "hwmon0/pwm1".toList "hwmon0/temp1_input".toList rfl (by decide)
        (by decide) (fun _ h => nomatch h) (by decide)⟩

/-- C17 as stated fails on two texts. In the first the `FCTEMPS` pair for `pwm1` is on an
earlier line than `MINPWM=hwmon0/pwm1=120`, and a second `FCTEMPS` line for `pwm1` follows:
`minPwm` ends as 0, not 120. In the second `v` is the integer 4294967296, which does not fit
an `int`: `minPwm` ends as 0. -/
theorem minPwm_ordering_counterexample :
    (sampleLoader.open "/etc/fancontrol".toList
        (.opened ("FCTEMPS=hwmon0/pwm1=hwmon0/temp1_input\nMINPWM=hwmon0/pwm1=120\n"
          ++ "FCTEMPS=hwmon0/pwm1=hwmon0/temp1_input\n").toList)).map
      (fun s => (fanAt s.hwmons 0 0).map (fun g => g.minPwm)) = .ok (some 0) ∧
    (sampleLoader.open "/etc/fancontrol".toList
        (.opened ("FCTEMPS=hwmon0/pwm1=hwmon0/temp1_input\n"
          ++ "MINPWM=hwmon0/pwm1=4294967296\n").toList)).map
      (fun s => (fanAt s.hwmons 0 0).map (fun g => g.minPwm)) = .ok (some 0) :=
  ⟨by decide, by decide⟩


/-! ## A fan that no `FCTEMPS` pair names -/

theorem fanStep_keeps_temp (hs : List Hwmon) (c j : Nat) (ln : ConfigLine)
    (h : ln.namesInFctemps hs c j = false) (g : PwmFan) :
    (fanStep hs c j g ln).temp = g.temp := by
  cases ln with
  | fctemps ps tr =>
    have hps := (any_false_iff _ _).1 h
    exact (foldl_keep (fun a b => b.temp = a.temp) (fun _ => rfl)
      (fun _ _ _ h1 h2 => h2.trans h1) (fctempsPairStep hs c j) ps
      (fun p hp g => by unfold fctempsPairStep; rw [hps p hp]; rfl) g)
  | threshold d ps tr =>
    exact (foldl_keep (fun a b => b.temp = a.temp) (fun _ => rfl)
      (fun _ _ _ h1 h2 => h2.trans h1) (thresholdPairStep hs d c j) ps
      (fun p _ g => by
        unfold thresholdPairStep
        split
        · exact PwmFan.set_temp d _ g
        · rfl) g)
  | other u => rfl

/-- Loading a text given line by line, in which no `FCTEMPS` pair names the fan, completes
and leaves the fan without a `Temp`, whatever it had before. -/
theorem no_pair_no_temp (l : Loader) (url : QString) (ls : List ConfigLine)
    (hok : ∀ ln ∈ ls, ln.Ok l.hwmons) (c j : Nat) (f : PwmFan)
    (hf : fanAt l.hwmons c j = some f)
    (hno : ∀ ln ∈ ls, ln.namesInFctemps l.hwmons c j = false) :
    ∃ s f', l.parse url (textOf ls) = .ok s ∧ fanAt s.hwmons c j = some f' ∧
      f'.temp = none := by
  obtain ⟨s, hparse, -, -, hfan⟩ := load_lines l url ls hok c j f hf
  refine ⟨s, _, hparse, hfan, ?_⟩
  exact foldl_keep (fun a b => b.temp = a.temp) (fun _ => rfl)
    (fun _ _ _ h1 h2 => h2.trans h1) (fanStep l.hwmons c j) ls
    (fun ln hln g => fanStep_keeps_temp l.hwmons c j ln (hno ln hln) g) f.reset

/-- C9: the sample document has `pwm1` driven by `temp1`. The text `FCTEMPS=` and the text
`createConfigFile` writes for a document without used fan hold no `FCTEMPS` pair at all, so
none that names `pwm1`; loading either stops in the `FCTEMPS` branch with an out-of-range
`at(1)`, so the load does not end with `pwm1` free of its `Temp`. A text without an
`FCTEMPS` line loads and leaves `pwm1` without a `Temp`. -/
theorem reset_stops_at_empty_fctemps :
    (fanAt sampleUsed.hwmons 0 0).map (fun f => f.temp) = some (some ⟨0, 1⟩) ∧
    specFctempsPairs "FCTEMPS=\n".toList = [] ∧
    sampleUsed.open "/etc/fancontrol".toList (.opened "FCTEMPS=\n".toList)
      = .error .indexOutOfRange ∧
    usedFansOf sampleLoader.hwmons = [] ∧
    specFctempsPairs (configText sampleLoader) = [] ∧
    sampleUsed.open "/etc/fancontrol".toList (.opened (configText sampleLoader))
      = .error .indexOutOfRange ∧
    specFctempsPairs "INTERVAL=5\n".toList = [] ∧
    (sampleUsed.open "/etc/fancontrol".toList (.opened "INTERVAL=5\n".toList)).map
      (fun s => (fanAt s.hwmons 0 0).map (fun f => f.temp)) = .ok (some none) :=
  ⟨by decide, by decide, by decide, by decide, by decide, by decide, by decide, by decide⟩

end Fancontrol
